import Mathlib

/-!
Verification of the Confetti-Todo server (`server.py`) against its
natural-language specification.

The development shallowly embeds the two logic-bearing subsystems of the
repository:

* the markdown outline parser / serializer (`parse_markdown_line`,
  `parse_markdown`, `task_to_markdown`, `save_markdown`), modelled over
  `List Char` with Python string semantics (`strip`, slicing, `split`,
  and the five concrete regular expressions used by the parser, whose
  `re.search` / `re.sub` behaviour is implemented directly);
* the per-session energy engine (`calculate_energy_cost`, `calculate_xp`,
  `consume_energy`, `start_break`, `complete_break`, `get_energy`,
  `pause_regeneration`, `resume_regeneration`, and the background
  regeneration tick), modelled with integer timestamps in seconds.

Modelling conventions: Python `int` is `Int` (`//` is `Int.fdiv`,
`int()` applied to a float quotient is truncation toward zero, embedded
by `Int.tdiv`); `datetime` values are integer epoch seconds and calendar
dates are integer day numbers; Python float arithmetic inside
`calculate_xp` is modelled over `ℝ` (the one non-executable definition);
the character classes `\w` and `\d` are modelled by their ASCII meaning.
Raised exceptions are modelled by `Except`: an endpoint that raises
leaves the stored state unchanged, so a step function that returns an
error models a state transition that does not happen.
-/

namespace ConfettiTodo

/-! ## Python string primitives over `List Char` -/

/-- Python `str.isspace` for the characters `str.strip()` removes. -/
def pySpace (c : Char) : Bool :=
  c = ' ' || c = '\t' || c = '\n' || c = '\r' || c = '\x0b' || c = '\x0c'

/-- Python `str.lstrip()`. -/
def lstrip (s : List Char) : List Char := s.dropWhile pySpace

/-- Python `str.rstrip()`. -/
def rstrip (s : List Char) : List Char := (s.reverse.dropWhile pySpace).reverse

/-- Python `str.strip()`. -/
def pstrip (s : List Char) : List Char := rstrip (lstrip s)

/-- Python `s.split(chr(10))`: never empty, splits on every newline. -/
def splitNl : List Char → List (List Char)
  | [] => [[]]
  | c :: cs =>
    if c = '\n' then [] :: splitNl cs
    else
      match splitNl cs with
      | [] => [[c]]
      | l :: ls => (c :: l) :: ls

/-- Python `chr(10).join(lines)`. -/
def joinNl : List (List Char) → List Char
  | [] => []
  | [l] => l
  | l :: ls => l ++ '\n' :: joinNl ls

/-- ASCII model of the regex class `\w`. -/
def isWordChar (c : Char) : Bool :=
  ('a' ≤ c && c ≤ 'z') || ('A' ≤ c && c ≤ 'Z') || ('0' ≤ c && c ≤ '9') || c = '_'

/-- ASCII model of the regex class `\d`. -/
def isDigitChar (c : Char) : Bool := '0' ≤ c && c ≤ '9'

/-- Numeric value of a list of decimal digits (the happy path of Python `int`). -/
def digitsVal (s : List Char) : Nat :=
  s.foldl (fun acc c => acc * 10 + (c.toNat - '0'.toNat)) 0

/-- Python `int(s)` restricted to the shapes the server can feed it:
optional surrounding whitespace, optional sign, then decimal digits. -/
def pyInt (s : List Char) : Except Unit Int :=
  match pstrip s with
  | [] => .error ()
  | c :: ds =>
    if c = '-' then
      if ds ≠ [] ∧ ds.all isDigitChar then .ok (-(digitsVal ds : Int)) else .error ()
    else if c = '+' then
      if ds ≠ [] ∧ ds.all isDigitChar then .ok (digitsVal ds : Int) else .error ()
    else if (c :: ds).all isDigitChar then .ok (digitsVal (c :: ds) : Int)
    else .error ()

/-- Truncation toward zero of `a / b` for positive `b`: the value of
Python `int(a / b)` on the exact quotient. -/
def truncDiv (a : Int) (b : Int) : Int := Int.tdiv a b

/-! ## The five regular expressions of `parse_markdown_line`

Each matcher attempts a match anchored at the start of its input and
returns the captured group together with the characters after the whole
match.  `search` is `re.search` (leftmost match), `subAll` is
`re.sub(pattern, empty, s)` (remove every non-overlapping match, left to
right).  Because each pattern's repetition is followed by a character
class disjoint from the repeated class, Python's backtracking never
yields anything beyond the greedy attempt, so the greedy reading below
is exact. -/

/-- Anchored match of the category pattern: an at-sign followed by one
or more word characters, capturing the word characters. -/
def tryCat : List Char → Option (List Char × List Char)
  | [] => none
  | c :: rest =>
    if c = '@' then
      let run := rest.takeWhile isWordChar
      if run = [] then none else some (run, rest.drop run.length)
    else none

/-- Anchored match of the effort pattern: a bang, one or more digits,
then one of the letters m, h, d; capturing digits and unit letter. -/
def tryEff : List Char → Option (List Char × List Char)
  | [] => none
  | c :: rest =>
    if c = '!' then
      let ds := rest.takeWhile isDigitChar
      if ds = [] then none
      else
        match rest.drop ds.length with
        | [] => none
        | u :: rest2 =>
          if u = 'm' || u = 'h' || u = 'd' then some (ds ++ [u], rest2) else none
    else none

/-- Anchored match of the friction pattern: a percent sign followed by a
single digit, capturing the digit. -/
def tryPct : List Char → Option (List Char × List Char)
  | [] => none
  | c :: rest =>
    if c = '%' then
      match rest with
      | [] => none
      | d :: rest2 => if isDigitChar d then some ([d], rest2) else none
    else none

/-- Shape of the ten characters of a due date: four digits, dash, two
digits, dash, two digits. -/
def dueShape : List Char → Bool
  | [a, b, c, d, e, f, g, h, i, j] =>
    isDigitChar a && isDigitChar b && isDigitChar c && isDigitChar d && e = '-' &&
      isDigitChar f && isDigitChar g && h = '-' && isDigitChar i && isDigitChar j
  | _ => false

/-- Anchored match of the due-date pattern: a caret followed by ten
characters of date shape, capturing them. -/
def tryDue : List Char → Option (List Char × List Char)
  | [] => none
  | c :: rest =>
    if c = '^' then
      if dueShape (rest.take 10) then some (rest.take 10, rest.drop 10) else none
    else none

/-- Anchored match of the completed-at pattern: an opening brace, one or
more characters other than a closing brace, then a closing brace,
capturing the characters between the braces. -/
def tryBrace : List Char → Option (List Char × List Char)
  | [] => none
  | c :: rest =>
    if c = '{' then
      let run := rest.takeWhile (fun x => x ≠ '}')
      if run = [] then none
      else
        match rest.drop run.length with
        | [] => none
        | _ :: rest2 => some (run, rest2)
    else none

/-- A matcher: anchored match attempt returning capture and remainder. -/
def Matcher : Type := List Char → Option (List Char × List Char)

/-- Python `re.search(pattern, s)`: capture of the leftmost match. -/
def search (m : Matcher) : List Char → Option (List Char)
  | [] => none
  | c :: cs =>
    match m (c :: cs) with
    | some (cap, _) => some cap
    | none => search m cs

/-- Fuelled worker for `subAll`. -/
def subAllAux (m : Matcher) : Nat → List Char → List Char
  | 0, s => s
  | _ + 1, [] => []
  | n + 1, c :: cs =>
    match m (c :: cs) with
    | some (_, rest) => subAllAux m n rest
    | none => c :: subAllAux m n cs

/-- Python `re.sub(pattern, empty, s)`: delete every match, scanning
left to right.  Every matcher above consumes at least one character on
success, so `s.length` steps of fuel always suffice. -/
def subAll (m : Matcher) (s : List Char) : List Char := subAllAux m s.length s

/-! ## Task model and `parse_markdown_line` -/

/-- Exceptions the parser can raise: indexing a too-short string, or a
dictionary lookup with an unknown section name. -/
inductive PyErr where
  | indexError : PyErr
  | keyError : List Char → PyErr
  deriving Repr, DecidableEq

/-- The task record built by the parser and consumed by the serializer.
`id` is the source line number (the server renders it as the string
`task_` followed by the number), `friction` is a Python `int`. -/
inductive PTask where
  | mk : (id : Nat) → (title : List Char) → (is_idea : Bool) → (is_completed : Bool) →
      (category : Option (List Char)) → (effort : Option (List Char)) →
      (friction : Option Int) → (due_date : Option (List Char)) →
      (completed_at : Option (List Char)) → (parent_id : Option Nat) →
      (subtasks : List PTask) → PTask

def PTask.id : PTask → Nat
  | .mk i _ _ _ _ _ _ _ _ _ _ => i

def PTask.title : PTask → List Char
  | .mk _ t _ _ _ _ _ _ _ _ _ => t

def PTask.is_idea : PTask → Bool
  | .mk _ _ i _ _ _ _ _ _ _ _ => i

def PTask.is_completed : PTask → Bool
  | .mk _ _ _ c _ _ _ _ _ _ _ => c

def PTask.category : PTask → Option (List Char)
  | .mk _ _ _ _ c _ _ _ _ _ _ => c

def PTask.effort : PTask → Option (List Char)
  | .mk _ _ _ _ _ e _ _ _ _ _ => e

def PTask.friction : PTask → Option Int
  | .mk _ _ _ _ _ _ f _ _ _ _ => f

def PTask.due_date : PTask → Option (List Char)
  | .mk _ _ _ _ _ _ _ d _ _ _ => d

def PTask.completed_at : PTask → Option (List Char)
  | .mk _ _ _ _ _ _ _ _ c _ _ => c

def PTask.parent_id : PTask → Option Nat
  | .mk _ _ _ _ _ _ _ _ _ p _ => p

def PTask.subtasks : PTask → List PTask
  | .mk _ _ _ _ _ _ _ _ _ _ s => s

/-- Replace the subtask list of a task. -/
def PTask.withSubtasks : PTask → List PTask → PTask
  | .mk i t ii ic c e f d ca p _, s => .mk i t ii ic c e f d ca p s

/-- Replace the parent id of a task. -/
def PTask.withParent : PTask → Option Nat → PTask
  | .mk i t ii ic c e f d ca _ s, p => .mk i t ii ic c e f d ca p s

/-- The `parse_markdown_line` function of the server.  Returns `none`
for a line that does not start (after stripping) with dash, space,
opening bracket; raises `indexError` exactly when the stripped line is
that three-character prefix alone (the Python code indexes `line[3]`).
Otherwise produces the task record and the indentation level. -/
def parseLine (line : List Char) (lineNum : Nat) : Except PyErr (Option (PTask × Nat)) :=
  let indent := (line.length - (lstrip line).length) / 2
  let l := pstrip line
  if ¬ (('-' :: ' ' :: ['[']).isPrefixOf l) then .ok none
  else
    match l.get? 3 with
    | none => .error .indexError
    | some c3 =>
      let is_completed := c3 = 'x'
      let content0 := pstrip (l.drop 5)
      let is_idea := content0.head? = some '?'
      let content := if is_idea then pstrip (content0.drop 1) else content0
      let category := search tryCat content
      let effort := search tryEff content
      let friction := (search tryPct content).map (fun ds => (digitsVal ds : Int))
      let due := search tryDue content
      let completedAt := search tryBrace content
      let t1 := pstrip (subAll tryCat content)
      let t2 := pstrip (subAll tryEff t1)
      let t3 := pstrip (subAll tryPct t2)
      let t4 := pstrip (subAll tryDue t3)
      let title := pstrip (subAll tryBrace t4)
      .ok (some (.mk lineNum title is_idea is_completed category effort friction due
        completedAt none [], indent))

/-! ## `parse_markdown`: section dictionary and parent assignment

Python mutates the task dictionaries in place: the stack holds aliases
of records that already live inside the section lists.  The embedding
replaces aliases by paths: a path `[i]` denotes the `i`-th top-level
task of the current section, `i :: p` descends into its subtasks. -/

/-- The fixed three-section dictionary. -/
structure Sections where
  today : List PTask
  ideas : List PTask
  backlog : List PTask

/-- Dictionary read `sections[name]`; `none` models a `KeyError`. -/
def getSec (s : Sections) (name : List Char) : Option (List PTask) :=
  if name = "today".toList then some s.today
  else if name = "ideas".toList then some s.ideas
  else if name = "backlog".toList then some s.backlog
  else none

/-- Dictionary write `sections[name] = l` for a known name. -/
def setSec (s : Sections) (name : List Char) (l : List PTask) : Sections :=
  if name = "today".toList then { s with today := l }
  else if name = "ideas".toList then { s with ideas := l }
  else if name = "backlog".toList then { s with backlog := l }
  else s

/-- Update the element at an index, if present. -/
def modifyIdx (l : List PTask) (i : Nat) (f : PTask → PTask) : List PTask :=
  match l, i with
  | [], _ => []
  | x :: xs, 0 => f x :: xs
  | x :: xs, n + 1 => x :: modifyIdx xs n f

/-- The node a stack entry aliases. -/
def getAtPath (l : List PTask) : List Nat → Option PTask
  | [] => none
  | [i] => l.get? i
  | i :: p =>
    match l.get? i with
    | none => none
    | some t => getAtPath t.subtasks p

/-- The list of tasks a path locates: the root list for the empty path,
the subtasks of the addressed node otherwise. -/
def getListAt (l : List PTask) : List Nat → Option (List PTask)
  | [] => some l
  | i :: p =>
    match l.get? i with
    | none => none
    | some t => getListAt t.subtasks p

/-- Python `list.append(t)` on the list a path locates. -/
def appendAt (l : List PTask) (p : List Nat) (t : PTask) : List PTask :=
  match p with
  | [] => l ++ [t]
  | i :: rest => modifyIdx l i (fun nd => nd.withSubtasks (appendAt nd.subtasks rest t))

/-- Parser state: the section dictionary, the current section name (the
empty name is falsy in Python, hence never current), and the ancestor
stack as a list of paths into the current section's list. -/
structure PState where
  secs : Sections
  cur : Option (List Char)
  stack : List (List Nat)

/-- Parent assignment for one parsed task line, after the stack has been
popped down to the indentation level: attach to the last open ancestor
when the line is indented and an ancestor exists, otherwise append to
the current section (a `KeyError` when the section name is unknown);
push the task when its indentation equals the popped stack's length. -/
def attachTask (secs : Sections) (cur : List Char) (stack0 : List (List Nat))
    (td : PTask) (indent : Nat) : Except PyErr (Sections × List (List Nat)) :=
  let stack := stack0.take indent
  match (if 0 < indent then stack.getLast? else none) with
  | some p =>
    match getSec secs cur with
    | none => .ok (secs, stack)
    | some l =>
      match getAtPath l p, getListAt l p with
      | some parent, some sibs =>
        let td := td.withParent (some parent.id)
        let l := appendAt l p td
        let stack := if indent = stack.length then stack ++ [p ++ [sibs.length]] else stack
        .ok (setSec secs cur l, stack)
      | _, _ => .ok (secs, stack)
  | none =>
    match getSec secs cur with
    | none => .error (.keyError cur)
    | some l =>
      let stack := if indent = stack.length then stack ++ [[l.length]] else stack
      .ok (setSec secs cur (l ++ [td]), stack)

/-- One line of the `parse_markdown` loop. -/
def parseStep (st : PState) (line : List Char) (lineNum : Nat) : Except PyErr PState :=
  if ('#' :: [' ']).isPrefixOf (pstrip line) then
    .ok { st with cur := some (((pstrip line).drop 2).map Char.toLower), stack := [] }
  else
    match st.cur with
    | none => .ok st
    | some cur =>
      if cur = [] then .ok st
      else if ('-' :: ' ' :: ['[']).isPrefixOf (pstrip line) then
        match parseLine line lineNum with
        | .error e => .error e
        | .ok none => .ok st
        | .ok (some (td, indent)) =>
          match attachTask st.secs cur st.stack td indent with
          | .error e => .error e
          | .ok (secs, stack) => .ok { st with secs := secs, stack := stack }
      else .ok st

/-- The `enumerate` loop of `parse_markdown`. -/
def parseLinesAux (st : PState) (n : Nat) : List (List Char) → Except PyErr PState
  | [] => .ok st
  | l :: ls =>
    match parseStep st l n with
    | .error e => .error e
    | .ok st2 => parseLinesAux st2 (n + 1) ls

/-- The `parse_markdown` function of the server applied to file content
(the missing-file branch writes a default document and is not part of
the text-to-tree transform). -/
def parseMarkdown (input : List Char) : Except PyErr Sections :=
  match parseLinesAux ⟨⟨[], [], []⟩, none, []⟩ 0 (splitNl input) with
  | .error e => .error e
  | .ok st => .ok st.secs

/-! ## The serializer: `task_to_markdown` and `save_markdown` -/

/-- Decimal rendering of a Python integer. -/
def pyIntRepr (i : Int) : List Char := (toString i).toList

/-- The category part of a rendered task line (emitted only when
truthy: present and non-empty). -/
def catSeg (t : PTask) : List Char :=
  match t.category with
  | some c => if c ≠ [] then ' ' :: '@' :: c else []
  | none => []

/-- The effort part of a rendered task line. -/
def effSeg (t : PTask) : List Char :=
  match t.effort with
  | some e => if e ≠ [] then ' ' :: '!' :: e else []
  | none => []

/-- The friction part of a rendered task line (zero is falsy). -/
def pctSeg (t : PTask) : List Char :=
  match t.friction with
  | some f => if f ≠ 0 then ' ' :: '%' :: pyIntRepr f else []
  | none => []

/-- The due-date part of a rendered task line. -/
def dueSeg (t : PTask) : List Char :=
  match t.due_date with
  | some d => if d ≠ [] then ' ' :: '^' :: d else []
  | none => []

/-- The completed-at part of a rendered task line. -/
def braceSeg (t : PTask) : List Char :=
  match t.completed_at with
  | some c => if c ≠ [] then ' ' :: '{' :: (c ++ ['}']) else []
  | none => []

/-- All metadata parts of a rendered task line, in the serializer's
fixed order. -/
def segs (t : PTask) : List Char :=
  catSeg t ++ effSeg t ++ pctSeg t ++ dueSeg t ++ braceSeg t

/-- The single line `task_to_markdown` renders for one task: each
metadata field is appended only when truthy (non-`None`, non-empty,
non-zero), in the fixed order category, effort, friction, due date,
completed-at. -/
def renderTaskLine (t : PTask) (indent : Nat) : List Char :=
  List.replicate (2 * indent) ' ' ++ ('-' :: [' ']) ++
    (if t.is_completed then '[' :: 'x' :: [']'] else '[' :: ' ' :: [']']) ++ [' '] ++
    (if t.is_idea then '?' :: [' '] else []) ++
    t.title ++ segs t

/-- All lines of `task_to_markdown` for a task: its own line, then the
lines of each subtask one level deeper. -/
def renderTask (t : PTask) (indent : Nat) : List (List Char) :=
  renderTaskLine t indent ::
    (t.subtasks.attach.map (fun st => renderTask st.1 (indent + 1))).flatten
termination_by t
decreasing_by
  have h := st.2
  simp only [PTask.subtasks] at h
  cases t with
  | mk i ti ii ic c e f d ca p s =>
    simp only [PTask.subtasks] at h
    calc sizeOf st.1 < sizeOf s := List.sizeOf_lt_of_mem h
    _ < sizeOf (PTask.mk i ti ii ic c e f d ca p s) := by
        simp only [PTask.mk.sizeOf_spec]; omega

/-- The string `task_to_markdown` returns (its lines joined). -/
def taskToMarkdownStr (t : PTask) : List Char := joinNl (renderTask t 0)

/-- The `save_markdown` serialization of the three sections (the parser
emits the keys in the fixed order today, ideas, backlog, which is also
the dictionary insertion order of `parse_markdown`). -/
def serializeSections (s : Sections) : List Char :=
  joinNl
    ((('#' :: ' ' :: "today".toList) :: s.today.map taskToMarkdownStr ++ [[]]) ++
     (('#' :: ' ' :: "ideas".toList) :: s.ideas.map taskToMarkdownStr ++ [[]]) ++
     (('#' :: ' ' :: "backlog".toList) :: s.backlog.map taskToMarkdownStr ++ [[]]))

/-! ## The energy engine

Timestamps are integer epoch seconds (`datetime.now()` is passed in as
`now`), calendar dates are integer day numbers (`date.today()` is
`today`).  `REGENERATION_INTERVAL` is 900 seconds; a minute-valued float
quantity divided by 15 and truncated by `int()` equals the truncation
toward zero of the corresponding second-valued quantity divided by
900. -/

/-- The per-session `EnergyState` model. -/
structure EState where
  current_energy : Int
  max_energy : Int
  is_on_break : Bool
  break_end_time : Option Int
  last_reset_date : Option Int
  last_regeneration_time : Int
  is_regenerating : Bool
  regeneration_paused_at : Option Int
  deriving Repr, DecidableEq

/-- Seconds of `REGENERATION_INTERVAL` (15 minutes). -/
def REGENERATION_INTERVAL : Int := 15 * 60

/-- Points per regeneration interval. -/
def REGENERATION_AMOUNT : Int := 1

/-- The state `EnergyState(session_id=sid)` is constructed with:
full energy, no break, no reset date yet, regeneration on. -/
def freshEState (now : Int) : EState :=
  { current_energy := 12, max_energy := 12, is_on_break := false,
    break_end_time := none, last_reset_date := none,
    last_regeneration_time := now, is_regenerating := true,
    regeneration_paused_at := none }

/-- The daily-reset check of `get_or_create_energy_state`, run at the
start of every endpoint. -/
def resetIfNeeded (s : EState) (now today : Int) : EState :=
  if s.last_reset_date ≠ some today then
    { s with
      current_energy := s.max_energy, is_on_break := false,
      break_end_time := none, last_reset_date := some today,
      last_regeneration_time := now, is_regenerating := true,
      regeneration_paused_at := none }
  else s

/-- A Python dict passed as `task_metadata`: the two keys the server
reads, plus whether any other key makes the dict non-empty. -/
structure PyDict where
  effort : Option (List Char)
  friction : Option Int
  otherKeys : Bool
  deriving Repr, DecidableEq

/-- Python truthiness of the metadata dict. -/
def PyDict.truthy (d : PyDict) : Bool :=
  d.effort.isSome || d.friction.isSome || d.otherKeys

/-- Errors raised by the energy endpoints (`ValueError` from
`calculate_energy_cost`, `HTTPException` from the handlers). -/
inductive EErr where
  | valueError : EErr
  | httpError : String → EErr
  deriving Repr, DecidableEq

/-- The `calculate_energy_cost` function: requires a truthy metadata
dict, a truthy effort string of the form digits then m, h or d, and a
present friction; base cost one point per started 30 effort minutes,
shifted by friction minus two, clamped to one through twelve. -/
def calculate_energy_cost (d : PyDict) : Except EErr Int :=
  if ¬ d.truthy then .error .valueError
  else
    match d.effort with
    | none => .error .valueError
    | some e =>
      if e = [] then .error .valueError
      else
        match d.friction with
        | none => .error .valueError
        | some friction =>
          (if e.getLast? = some 'm' then (pyInt e.dropLast).mapError (fun _ => EErr.valueError)
           else if e.getLast? = some 'h' then
             ((pyInt e.dropLast).mapError (fun _ => EErr.valueError)).map (· * 60)
           else if e.getLast? = some 'd' then
             ((pyInt e.dropLast).mapError (fun _ => EErr.valueError)).map (· * 8 * 60)
           else .error .valueError).map
            (fun minutes => min 12 (max 1 (max 1 (Int.fdiv minutes 30) + (friction - 2))))

/-- The body of a `ConsumeEnergyRequest` (pydantic bounds `1 ≤ amount ≤ 12`
are checked by the framework before the handler runs). -/
structure ConsumeReq where
  amount : Int
  task_metadata : Option PyDict
  deriving Repr, DecidableEq

/-- The `consume_energy` endpoint after the daily-reset check: rejects
while on break; recomputes the cost from a truthy metadata dict;
rejects on insufficient energy; otherwise decrements.  Returns the new
state and the consumed amount. -/
def consumeBody (s : EState) (req : ConsumeReq) : Except EErr (EState × Int) :=
  if s.is_on_break then .error (.httpError "Cannot consume energy while on break")
  else
    (match req.task_metadata with
     | some d => if d.truthy then calculate_energy_cost d else .ok req.amount
     | none => .ok req.amount).bind
      (fun energy_cost =>
        if s.current_energy < energy_cost then
          .error (.httpError "Insufficient energy")
        else
          .ok ({ s with current_energy := s.current_energy - energy_cost }, energy_cost))

/-- The `consume_energy` endpoint. -/
def consume_energy (s : EState) (req : ConsumeReq) (now today : Int) :
    Except EErr (EState × Int) :=
  consumeBody (resetIfNeeded s now today) req

/-- Response of `start_break`. -/
structure BreakResp where
  break_end_time : Int
  duration_minutes : Int
  energy_to_restore : Int
  deriving Repr, DecidableEq

/-- The `start_break` endpoint after the daily-reset check. -/
def startBreakBody (s : EState) (duration_minutes : Int) (now : Int) :
    Except EErr (EState × BreakResp) :=
  if s.current_energy ≥ s.max_energy then .error (.httpError "Energy is already full")
  else if s.is_on_break then .error (.httpError "Already on break")
  else
    let d := max 5 (min 60 duration_minutes)
    let break_end_time := now + d * 60
    let energy_to_restore := min (s.max_energy - s.current_energy) (max 1 (Int.fdiv d 15))
    let paused := if s.is_regenerating ∧ s.regeneration_paused_at = none
      then some now else s.regeneration_paused_at
    .ok ({ s with
            is_on_break := true, break_end_time := some break_end_time,
            regeneration_paused_at := paused },
         ⟨break_end_time, d, energy_to_restore⟩)

/-- The `start_break` endpoint. -/
def start_break (s : EState) (duration_minutes : Int) (now today : Int) :
    Except EErr (EState × BreakResp) :=
  startBreakBody (resetIfNeeded s now today) duration_minutes now

/-- The `complete_break` endpoint after the daily-reset check: the
Python code reconstructs the break start as `break_end_time` minus
15 minutes, so `actual_duration` in seconds is `now - (endT - 900)`. -/
def completeBreakBody (s : EState) (now : Int) : Except EErr (EState × Int) :=
  if ¬ s.is_on_break then .error (.httpError "Not currently on break")
  else
    match s.break_end_time with
    | none => .error (.httpError "No break end time set")
    | some endT =>
      let actualSeconds := now - (endT - 900)
      let energy_restored := min (s.max_energy - s.current_energy)
        (max 1 (truncDiv actualSeconds 900))
      let cur := min s.max_energy (s.current_energy + energy_restored)
      let s := { s with
                  current_energy := cur, is_on_break := false,
                  break_end_time := none }
      let s := if cur < s.max_energy then
          { s with
            is_regenerating := true, regeneration_paused_at := none,
            last_regeneration_time := now }
        else s
      .ok (s, energy_restored)

/-- The `complete_break` endpoint. -/
def complete_break (s : EState) (now today : Int) : Except EErr (EState × Int) :=
  completeBreakBody (resetIfNeeded s now today) now

/-- The `get_energy` endpoint after the daily-reset check: when the
stored break has expired it restores energy from the (non-positive)
remaining duration `endT - now` and clears the break fields, touching
nothing else.  Returns the state and the restored amount, if any. -/
def getEnergyBody (s : EState) (now : Int) : EState × Option Int :=
  match s.break_end_time with
  | some endT =>
    if s.is_on_break ∧ now ≥ endT then
      let energy_restored := min (s.max_energy - s.current_energy)
        (max 1 (truncDiv (endT - now) 900))
      ({ s with
         current_energy := min s.max_energy (s.current_energy + energy_restored),
         is_on_break := false, break_end_time := none }, some energy_restored)
    else (s, none)
  | none => (s, none)

/-- The `get_energy` endpoint. -/
def get_energy (s : EState) (now today : Int) : EState × Option Int :=
  getEnergyBody (resetIfNeeded s now today) now

/-- The `pause_regeneration` endpoint after the daily-reset check. -/
def pauseBody (s : EState) (now : Int) : EState :=
  if s.is_regenerating ∧ s.regeneration_paused_at = none ∧ ¬ s.is_on_break then
    { s with regeneration_paused_at := some now }
  else s

/-- The `pause_regeneration` endpoint. -/
def pause_regeneration (s : EState) (now today : Int) : EState :=
  pauseBody (resetIfNeeded s now today) now

/-- The `resume_regeneration` endpoint after the daily-reset check:
shifts the regeneration anchor forward by the paused duration. -/
def resumeBody (s : EState) (now : Int) : EState :=
  match s.regeneration_paused_at with
  | some p =>
    if ¬ s.is_on_break then
      { s with
        last_regeneration_time := s.last_regeneration_time + (now - p),
        regeneration_paused_at := none, is_regenerating := true }
    else s
  | none => s

/-- The `resume_regeneration` endpoint. -/
def resume_regeneration (s : EState) (now today : Int) : EState :=
  resumeBody (resetIfNeeded s now today) now

/-- One visit of the background `regeneration_task` to one session (the
background task does not run the daily-reset check). -/
def regenTick (s : EState) (now : Int) : EState :=
  if ¬ s.is_regenerating ∨ s.regeneration_paused_at ≠ none then s
  else if s.is_on_break ∨ s.current_energy ≥ s.max_energy then s
  else if now - s.last_regeneration_time ≥ REGENERATION_INTERVAL then
    let cur := min s.max_energy (s.current_energy + REGENERATION_AMOUNT)
    let s := { s with current_energy := cur, last_regeneration_time := now }
    if cur ≥ s.max_energy then { s with is_regenerating := false } else s
  else s

/-! ## `calculate_xp`

The Python function computes with floats; the embedding computes the
same formula over `ℝ` (for every value the claims mention, the float
result and the real result round identically). -/

/-- The effort-to-minutes computation of `calculate_xp`: key absent or
falsy defaults to 30, an unrecognized suffix silently keeps 30, a
recognized suffix parses the digits with Python `int` (which can
raise). -/
def xpMinutes (effort : Option (List Char)) : Except Unit Int :=
  match effort with
  | none => .ok 30
  | some e =>
    if e = [] then .ok 30
    else if e.getLast? = some 'm' then pyInt e.dropLast
    else if e.getLast? = some 'h' then (pyInt e.dropLast).map (· * 60)
    else if e.getLast? = some 'd' then (pyInt e.dropLast).map (· * 8 * 60)
    else .ok 30

/-- Python `int(b * 1.5)` for an integer `b`: truncation toward zero of
three halves. -/
def truncHalfOfTriple (b : Int) : Int := Int.tdiv (3 * b) 2

/-- The `calculate_xp` function: XP is `100 * sqrt(1 + minutes/60)`
scaled by friction (a falsy friction defaults to 2) and rounded; a task
with subtasks that are all completed gets one and a half times that,
truncated. -/
noncomputable def calculate_xp (t : PTask) : Except Unit Int :=
  (xpMinutes t.effort).map (fun (minutes : Int) =>
    let friction : Int := match t.friction with
      | some f => if f ≠ 0 then f else 2
      | none => 2
    let base_xp : Int := round ((100 : ℝ) * Real.sqrt (1 + (minutes : ℝ) / 60) * (friction : ℝ))
    if t.subtasks.length ≠ 0 ∧ t.subtasks.countP (fun st => st.is_completed) = t.subtasks.length then
      truncHalfOfTriple base_xp
    else base_xp)

/-! ## Specification-side definitions

These are written from the wording of the specification, to be compared
with the code embeddings above. -/

/-- Wellformedness of an effort token in the spec's sense: digits
followed by one of m, h, d. -/
def effortPat (e : List Char) : Bool :=
  e.dropLast ≠ [] && e.dropLast.all isDigitChar &&
    (e.getLast? = some 'm' || e.getLast? = some 'h' || e.getLast? = some 'd')

/-- The spec's minutes mapping: m keeps the value, h scales by 60,
d scales by 8 times 60. -/
def specMinutes (e : List Char) : Nat :=
  digitsVal e.dropLast *
    (if e.getLast? = some 'h' then 60 else if e.getLast? = some 'd' then 8 * 60 else 1)

/-- The spec's clamp. -/
def clamp (lo hi x : Int) : Int := min hi (max lo x)

/-- The spec's energy-cost formula. -/
def specEnergyCost (e : List Char) (friction : Int) : Int :=
  clamp 1 12 (max 1 ((specMinutes e : Int) / 30) + (friction - 2))

/-! ## Claim C4: energy bounds

The operations of the claim.  A raised `HTTPException` or `ValueError`
leaves the stored state as the daily-reset check left it (the reset in
`get_or_create_energy_state` mutates the stored state before the
handler body runs); a request rejected by the pydantic bounds on
`amount` never reaches the handler at all. -/

/-- One operation of the energy engine. -/
inductive EOp where
  | consume (amount : Int) (md : Option PyDict) (now today : Int)
  | startBreak (dur now today : Int)
  | completeBreak (now today : Int)
  | pauseRegen (now today : Int)
  | resumeRegen (now today : Int)
  | dailyReset (now today : Int)
  | tick (now : Int)

/-- The state after one operation. -/
def stepOp (s : EState) : EOp → EState
  | .consume a md now today =>
    if 1 ≤ a ∧ a ≤ 12 then
      match consume_energy s ⟨a, md⟩ now today with
      | .ok (s2, _) => s2
      | .error _ => resetIfNeeded s now today
    else s
  | .startBreak d now today =>
    match start_break s d now today with
    | .ok (s2, _) => s2
    | .error _ => resetIfNeeded s now today
  | .completeBreak now today =>
    match complete_break s now today with
    | .ok (s2, _) => s2
    | .error _ => resetIfNeeded s now today
  | .pauseRegen now today => pause_regeneration s now today
  | .resumeRegen now today => resume_regeneration s now today
  | .dailyReset now today => resetIfNeeded s now today
  | .tick now => regenTick s now

/-- The invariant of the claim. -/
def EInv (s : EState) : Prop :=
  s.max_energy = 12 ∧ 0 ≤ s.current_energy ∧ s.current_energy ≤ s.max_energy


/-- The claim's required amount: the metadata cost whenever metadata is
given (the explicit amount is then ignored), the explicit amount
otherwise. -/
def requiredAmount (req : ConsumeReq) : Except EErr Int :=
  match req.task_metadata with
  | some d => calculate_energy_cost d
  | none => .ok req.amount

/-- The restoration the claim prescribes: actual elapsed break seconds
divided by 900, floored, at least 1, capped to the deficit. -/
def specBreakRestore (elapsedSeconds deficit : Int) : Int :=
  min deficit (max 1 (Int.fdiv elapsedSeconds 900))

/-- The spec's effort-to-minutes mapping with the 30m default. -/
def specXpMinutesNat (t : PTask) : Nat :=
  match t.effort with
  | none => 30
  | some e => specMinutes e

/-- The spec's friction with the default 2 when absent. -/
def specXpFriction (t : PTask) : Int :=
  match t.friction with
  | none => 2
  | some f => f

/-- The spec's XP function, written from its wording: minutes by the
m, h, d mapping with effort defaulting to 30m when absent, friction
defaulting to 2 when absent, XP is the rounded scaled square root, and
a task with at least one subtask, all completed, gets one and a half
times that, truncated toward zero. -/
noncomputable def computeXpSpec (t : PTask) : Int :=
  let base : Int :=
    round ((100 : ℝ) * Real.sqrt (1 + (specXpMinutesNat t : ℝ) / 60) * (specXpFriction t : ℝ))
  if t.subtasks.length ≠ 0 ∧ ∀ st ∈ t.subtasks, st.is_completed = true then
    Int.tdiv (3 * base) 2
  else base

/-- Wellformed effort for the XP claim: absent, or digits then a unit. -/
def effortOkXp : Option (List Char) → Bool
  | none => true
  | some e => effortPat e

/-- Wellformed friction for the XP claim: absent, or in the data
model's one-to-five range. -/
def frictionOkXp : Option Int → Bool
  | none => true
  | some f => decide (1 ≤ f ∧ f ≤ 5)

/-! ## Definitions for the round-trip claim -/

/-- Number of lines a task contributes to the serialization. -/
def sizeT (t : PTask) : Nat :=
  1 + (t.subtasks.attach.map (fun st => sizeT st.1)).sum
termination_by t
decreasing_by
  have h := st.2
  cases t with
  | mk i ti ii ic c e f d ca p sub =>
    simp only [PTask.subtasks] at h
    calc sizeOf st.1 < sizeOf sub := List.sizeOf_lt_of_mem h
    _ < sizeOf (PTask.mk i ti ii ic c e f d ca p sub) := by
        simp only [PTask.mk.sizeOf_spec]; omega

/-- Total number of lines of a task list. -/
def sizeL (ts : List PTask) : Nat := (ts.map sizeT).sum

mutual

/-- The task tree with ids renumbered the way the parser assigns them:
depth-first line numbers starting at `n`, parent back-references set. -/
def renum (t : PTask) (n : Nat) (pid : Option Nat) : PTask :=
  PTask.mk n t.title t.is_idea t.is_completed t.category t.effort t.friction
    t.due_date t.completed_at pid (renumList t.subtasks (n + 1) (some n))
termination_by sizeOf t
decreasing_by
  cases t with
  | mk i ti ii ic c e f d ca p sub =>
    simp only [PTask.subtasks, PTask.mk.sizeOf_spec]
    omega

/-- Renumber a sibling list, advancing the line counter by each
subtree's size. -/
def renumList (ts : List PTask) (n : Nat) (pid : Option Nat) : List PTask :=
  match ts with
  | [] => []
  | t :: rest => renum t n pid :: renumList rest (n + sizeT t) pid
termination_by sizeOf ts
decreasing_by
  all_goals simp only [List.cons.sizeOf_spec]
  all_goals omega

end

mutual

/-- Semantic task equality of the round-trip claim: equal titles, flags
and metadata and pointwise semantically equal subtasks; ids and parent
back-references are positional bookkeeping and are ignored. -/
def semEq (a b : PTask) : Bool :=
  decide (a.title = b.title) && decide (a.is_idea = b.is_idea) &&
    decide (a.is_completed = b.is_completed) && decide (a.category = b.category) &&
    decide (a.effort = b.effort) && decide (a.friction = b.friction) &&
    decide (a.due_date = b.due_date) && decide (a.completed_at = b.completed_at) &&
    semEqList a.subtasks b.subtasks
termination_by sizeOf a
decreasing_by
  cases a with
  | mk i ti ii ic c e f d ca p sub =>
    simp only [PTask.subtasks, PTask.mk.sizeOf_spec]
    omega

/-- Pointwise semantic equality of task lists, same length and order. -/
def semEqList (as2 bs : List PTask) : Bool :=
  match as2, bs with
  | [], [] => true
  | a :: as3, b :: bs2 => semEq a b && semEqList as3 bs2
  | _, _ => false
termination_by sizeOf as2
decreasing_by
  all_goals simp only [List.cons.sizeOf_spec]
  all_goals omega

end

/-- Semantic equality of full section trees. -/
def semEqSections (a b : Sections) : Bool :=
  semEqList a.today b.today && semEqList a.ideas b.ideas && semEqList a.backlog b.backlog

/-- A string free of the five metadata sigil characters. -/
def noSigil (l : List Char) : Bool :=
  l.all (fun c => !(c = '@' || c = '!' || c = '%' || c = '^' || c = '{'))

/-- A wellformed title: no metadata sigils (hence no metadata tokens),
no newline, no surrounding whitespace, and not starting with a question
mark (which would be re-parsed as the idea marker). -/
def wfTitle (l : List Char) : Bool :=
  noSigil l && decide (pstrip l = l) && !(l.contains '\n') &&
    !(decide (l.head? = some '?'))

/-- A wellformed category: absent, or a non-empty word. -/
def wfCat : Option (List Char) → Bool
  | none => true
  | some c => decide (c ≠ []) && c.all isWordChar

/-- A wellformed effort: absent, or digits then one of m, h, d. -/
def wfEff : Option (List Char) → Bool
  | none => true
  | some e => effortPat e

/-- A wellformed friction: absent, or in the one-to-five range. -/
def wfFr : Option Int → Bool
  | none => true
  | some f => decide (1 ≤ f ∧ f ≤ 5)

/-- A wellformed due date: absent, or ten characters of date shape. -/
def wfDue : Option (List Char) → Bool
  | none => true
  | some d => dueShape d

/-- A wellformed completion stamp: absent, or non-empty with no closing
brace, no metadata sigils, and no newline. -/
def wfCompl : Option (List Char) → Bool
  | none => true
  | some c => decide (c ≠ []) && noSigil c && !(c.contains '}') && !(c.contains '\n')

mutual

/-- Wellformedness of an in-memory task for the round-trip claim. -/
def wfTask (t : PTask) : Bool :=
  wfTitle t.title && wfCat t.category && wfEff t.effort && wfFr t.friction &&
    wfDue t.due_date && wfCompl t.completed_at && wfList t.subtasks
termination_by sizeOf t
decreasing_by
  cases t with
  | mk i ti ii ic c e f d ca p sub =>
    simp only [PTask.subtasks, PTask.mk.sizeOf_spec]
    omega

/-- Wellformedness of a task list. -/
def wfList (ts : List PTask) : Bool :=
  match ts with
  | [] => true
  | t :: rest => wfTask t && wfList rest
termination_by sizeOf ts
decreasing_by
  all_goals simp only [List.cons.sizeOf_spec]
  all_goals omega

end

/-- Wellformedness of a section tree. -/
def wfSections (s : Sections) : Bool :=
  wfList s.today && wfList s.ideas && wfList s.backlog

mutual

/-- The validity conditions the round-trip claim itself states: titles
contain no metadata tokens (none of the five patterns matches inside
the title), friction one to five, effort digits then m, h or d, due
date of date shape, completed-at free of closing braces. -/
def claimValidTask (t : PTask) : Bool :=
  (search tryCat t.title).isNone && (search tryEff t.title).isNone &&
    (search tryPct t.title).isNone && (search tryDue t.title).isNone &&
    (search tryBrace t.title).isNone &&
    wfFr t.friction && wfEff t.effort && wfDue t.due_date &&
    (match t.completed_at with
     | none => true
     | some c => !(c.contains '}')) &&
    claimValidList t.subtasks
termination_by sizeOf t
decreasing_by
  cases t with
  | mk i ti ii ic c e f d ca p sub =>
    simp only [PTask.subtasks, PTask.mk.sizeOf_spec]
    omega

/-- The claim's validity over a task list. -/
def claimValidList (ts : List PTask) : Bool :=
  match ts with
  | [] => true
  | t :: rest => claimValidTask t && claimValidList rest
termination_by sizeOf ts
decreasing_by
  all_goals simp only [List.cons.sizeOf_spec]
  all_goals omega

end

/-- The claim's validity over a section tree. -/
def claimValidSections (s : Sections) : Bool :=
  claimValidList s.today && claimValidList s.ideas && claimValidList s.backlog

/-- The task record `parse_markdown_line` returns for a line rendered
from `t` at line number `n`: same content fields, fresh bookkeeping. -/
def lineTask (t : PTask) (n : Nat) : PTask :=
  PTask.mk n t.title t.is_idea t.is_completed t.category t.effort t.friction
    t.due_date t.completed_at none []

/-- The five metadata sigil characters. -/
def sigilChar (c : Char) : Bool :=
  c = '@' || c = '!' || c = '%' || c = '^' || c = '{'

/-- Replace the list a path locates (the root list for the empty path,
the subtasks of the addressed node otherwise). -/
def setListAt (l : List PTask) (p : List Nat) (new : List PTask) : List PTask :=
  match p with
  | [] => new
  | i :: rest => modifyIdx l i (fun nd => nd.withSubtasks (setListAt nd.subtasks rest new))

/-- The ancestor-path chain the parser's stack holds while the subtree
at path `P` is open: the proper prefixes of `P`, shortest first,
excluding the empty one. -/
def chainOf (P : List Nat) : List (List Nat) :=
  (List.range P.length).map (fun i => P.take (i + 1))

/-- A wellformed example tree exercising nesting, every metadata field,
completion and idea flags, and an empty title. -/
def exSections : Sections :=
  ⟨[PTask.mk 0 "write report".toList false false (some "work".toList)
      (some "90m".toList) (some 3) (some "2025-01-31".toList) none none
      [PTask.mk 0 "draft".toList false true none (some "2h".toList) none none
         (some "10:30".toList) none [],
       PTask.mk 0 "review".toList true false none none (some 5) none none none []]],
   [PTask.mk 0 [] false false none none none none none none []],
   []⟩

/-- A tree satisfying the claim's stated validity conditions whose
round trip is not semantically equal: a non-idea task whose title
starts with a question mark. -/
def cexSections : Sections :=
  ⟨[PTask.mk 7 ('?' :: ['x']) false false none none none none none none []], [], []⟩

/-! ## Elementary string lemmas -/

theorem dropWhile_eq_self_of_not {p : Char → Bool} :
    ∀ {l : List Char}, (∀ c ∈ l, p c = false) → l.dropWhile p = l
  | [], _ => rfl
  | a :: l, h => by
    have ha := h a (List.mem_cons_self a l)
    simp [List.dropWhile, ha]

theorem pstrip_eq_self {l : List Char} (h : ∀ c ∈ l, pySpace c = false) :
    pstrip l = l := by
  have h1 : lstrip l = l := dropWhile_eq_self_of_not h
  have h2 : rstrip l = l := by
    unfold rstrip
    rw [dropWhile_eq_self_of_not (fun c hc => h c (List.mem_reverse.mp hc)), List.reverse_reverse]
  unfold pstrip
  rw [h1, h2]

theorem pySpace_of_digit {c : Char} (h : isDigitChar c = true) : pySpace c = false := by
  simp only [isDigitChar, Bool.and_eq_true, decide_eq_true_eq] at h
  simp only [pySpace, Bool.or_eq_false_iff, decide_eq_false_iff_not]
  have h1 := h.1
  have h2 := h.2
  refine ⟨⟨⟨⟨⟨?_, ?_⟩, ?_⟩, ?_⟩, ?_⟩, ?_⟩ <;>
    (intro hc; subst hc; revert h1 h2; decide)

theorem digit_ne_dash {c : Char} (h : isDigitChar c = true) : c ≠ '-' := by
  simp only [isDigitChar, Bool.and_eq_true, decide_eq_true_eq] at h
  intro hc; subst hc; revert h; decide

theorem digit_ne_plus {c : Char} (h : isDigitChar c = true) : c ≠ '+' := by
  simp only [isDigitChar, Bool.and_eq_true, decide_eq_true_eq] at h
  intro hc; subst hc; revert h; decide

/-- Python `int` on a non-empty string of decimal digits. -/
theorem pyInt_digits {ds : List Char} (h1 : ds ≠ []) (h2 : ds.all isDigitChar = true) :
    pyInt ds = .ok (digitsVal ds : Int) := by
  have hstrip : pstrip ds = ds := by
    refine pstrip_eq_self (fun c hc => ?_)
    exact pySpace_of_digit (by simpa using List.all_eq_true.mp h2 c hc)
  unfold pyInt
  rw [hstrip]
  cases ds with
  | nil => exact absurd rfl h1
  | cons c rest =>
    have hc : isDigitChar c = true := by simpa using (List.all_eq_true.mp h2 c (by simp))
    simp [digit_ne_dash hc, digit_ne_plus hc, h2]

/-! ## String lemmas for the round-trip development -/

theorem lstrip_cons_space {c : Char} (h : pySpace c = true) (l : List Char) :
    lstrip (c :: l) = lstrip l := by
  simp [lstrip, List.dropWhile, h]

theorem lstrip_cons_keep {c : Char} (h : pySpace c = false) (l : List Char) :
    lstrip (c :: l) = c :: l := by
  simp [lstrip, List.dropWhile, h]

theorem dropWhile_append_keep {p : Char → Bool} :
    ∀ (a b : List Char), (∀ c, b.head? = some c → p c = false) →
      (a ++ b).dropWhile p = a.dropWhile p ++ b
  | [], b, hb => by
    cases b with
    | nil => rfl
    | cons c b2 => simp [List.dropWhile, hb c rfl]
  | c :: a2, b, hb => by
    cases hc : p c with
    | true => simpa [List.dropWhile, hc] using dropWhile_append_keep a2 b hb
    | false => simp [List.dropWhile, hc]

theorem dropWhile_append_pos {p : Char → Bool} :
    ∀ (a b : List Char), a.dropWhile p ≠ [] →
      (a ++ b).dropWhile p = a.dropWhile p ++ b
  | [], _, h => absurd rfl h
  | c :: a2, b, h => by
    cases hc : p c with
    | true =>
      rw [List.dropWhile_cons_of_pos hc] at h
      simpa [List.dropWhile, hc] using dropWhile_append_pos a2 b h
    | false => simp [List.dropWhile, hc]

theorem dropWhile_append_allpass {p : Char → Bool} :
    ∀ (a b : List Char), (∀ c ∈ a, p c = true) →
      (a ++ b).dropWhile p = b.dropWhile p
  | [], _, _ => rfl
  | c :: a2, b, h => by
    have hc : p c = true := h c (by simp)
    simpa [List.dropWhile, hc] using
      dropWhile_append_allpass a2 b (fun x hx => h x (by simp [hx]))

theorem dropWhile_idem {p : Char → Bool} :
    ∀ (l : List Char), (l.dropWhile p).dropWhile p = l.dropWhile p
  | [] => rfl
  | c :: l2 => by
    cases hc : p c with
    | true => simpa [List.dropWhile, hc] using dropWhile_idem l2
    | false => simp [List.dropWhile, hc]

theorem dropWhile_len_le {p : Char → Bool} :
    ∀ (l : List Char), (l.dropWhile p).length ≤ l.length
  | [] => le_refl _
  | c :: l2 => by
    cases hc : p c with
    | true =>
      calc ((c :: l2).dropWhile p).length = (l2.dropWhile p).length := by
            simp [List.dropWhile, hc]
      _ ≤ l2.length := dropWhile_len_le l2
      _ ≤ (c :: l2).length := by simp
    | false => simp [List.dropWhile, hc]

theorem rstrip_append_keep {u : List Char} (v : List Char)
    (hu : ∀ c, u.getLast? = some c → pySpace c = false) :
    rstrip (u ++ v) = u ++ rstrip v := by
  unfold rstrip
  rw [List.reverse_append]
  rw [dropWhile_append_keep _ _ (by
    intro c hc
    exact hu c (by rwa [← List.head?_reverse]))]
  rw [List.reverse_append, List.reverse_reverse]

theorem rstrip_append_allspace {u : List Char} (v : List Char)
    (hv : ∀ c ∈ v, pySpace c = true) :
    rstrip (u ++ v) = rstrip u := by
  unfold rstrip
  rw [List.reverse_append]
  rw [dropWhile_append_allpass _ _ (fun c hc => hv c (List.mem_reverse.mp hc))]

theorem rstrip_cons (c : Char) (l : List Char) :
    rstrip (c :: l) = if rstrip l = [] then (if pySpace c then [] else [c])
      else c :: rstrip l := by
  unfold rstrip
  rw [show (c :: l).reverse = l.reverse ++ [c] from by simp]
  cases hd : l.reverse.dropWhile pySpace with
  | nil =>
    rw [dropWhile_append_allpass _ _ (by
      intro x hx
      exact List.dropWhile_eq_nil_iff.mp hd x hx)]
    rw [if_pos (by simp [hd])]
    cases hsp : pySpace c with
    | true => simp [List.dropWhile, hsp]
    | false => simp [List.dropWhile, hsp]
  | cons d rest =>
    rw [dropWhile_append_pos _ _ (by simp [hd])]
    rw [if_neg (by simp [hd])]
    simp [hd]

theorem lstrip_eq_nil_iff {l : List Char} :
    lstrip l = [] ↔ ∀ c ∈ l, pySpace c = true := by
  simp [lstrip, List.dropWhile_eq_nil_iff]

theorem rstrip_eq_nil_iff {l : List Char} :
    rstrip l = [] ↔ ∀ c ∈ l, pySpace c = true := by
  unfold rstrip
  simp [List.dropWhile_eq_nil_iff]

theorem lstrip_idem (l : List Char) : lstrip (lstrip l) = lstrip l :=
  dropWhile_idem l

theorem lstrip_len_le (l : List Char) : (lstrip l).length ≤ l.length :=
  dropWhile_len_le l

theorem rstrip_len_le (l : List Char) : (rstrip l).length ≤ l.length := by
  unfold rstrip
  calc (List.dropWhile pySpace l.reverse).reverse.length
      = (List.dropWhile pySpace l.reverse).length := by simp
    _ ≤ l.reverse.length := dropWhile_len_le _
    _ = l.length := by simp

theorem pstrip_len_le (l : List Char) : (pstrip l).length ≤ l.length :=
  le_trans (rstrip_len_le (lstrip l)) (lstrip_len_le l)

theorem lstrip_rstrip_comm (w : List Char) :
    lstrip (rstrip w) = rstrip (lstrip w) := by
  induction w with
  | nil => rfl
  | cons c w2 ih =>
    rw [rstrip_cons]
    cases hc : pySpace c with
    | true =>
      rw [lstrip_cons_space hc w2]
      cases hr : rstrip w2 with
      | nil =>
        have hl : lstrip w2 = [] := lstrip_eq_nil_iff.mpr (rstrip_eq_nil_iff.mp hr)
        simp [hc, hl, lstrip, rstrip]
        intro x hx
        rw [show List.dropWhile pySpace w2 = [] from hl] at hx
        cases hx
      | cons d rest =>
        rw [if_neg (by simp), lstrip_cons_space hc, ← hr, ih]
    | false =>
      have hR : rstrip (lstrip (c :: w2)) =
          if rstrip w2 = [] then (if pySpace c = true then [] else [c]) else c :: rstrip w2 := by
        rw [lstrip_cons_keep hc, rstrip_cons]
      rw [hR]
      cases hr : rstrip w2 with
      | nil =>
        simp [hc, lstrip, List.dropWhile]
      | cons d rest =>
        rw [if_neg (by simp), if_neg (by simp)]
        exact lstrip_cons_keep hc _

theorem pstrip_rstrip (w : List Char) : pstrip (rstrip w) = pstrip w := by
  unfold pstrip
  rw [lstrip_rstrip_comm]
  unfold rstrip
  rw [List.reverse_reverse, dropWhile_idem]

theorem pstrip_cons_space {c : Char} (h : pySpace c = true) (x : List Char) :
    pstrip (c :: x) = pstrip x := by
  unfold pstrip
  rw [lstrip_cons_space h]

theorem lstrip_replicate_space (k : Nat) (x : List Char) :
    lstrip (List.replicate k ' ' ++ x) = lstrip x := by
  induction k with
  | zero => rfl
  | succ n ih =>
    rw [List.replicate_succ, List.cons_append, lstrip_cons_space (by decide)]
    exact ih

theorem pstrip_fix_head {c : Char} {t : List Char} (h : pstrip (c :: t) = c :: t) :
    pySpace c = false := by
  cases hc : pySpace c with
  | false => rfl
  | true =>
    exfalso
    have h3 : pstrip (c :: t) = pstrip t := pstrip_cons_space hc t
    have h4 : (pstrip t).length ≤ t.length := pstrip_len_le t
    rw [h] at h3
    rw [← h3] at h4
    simp at h4

theorem getLast_mem_form {l : List Char} {c : Char} (h : l.getLast? = some c) :
    ∃ u, l = u ++ [c] := by
  induction l with
  | nil => cases h
  | cons d l2 ih =>
    cases l2 with
    | nil =>
      simp only [List.getLast?_singleton, Option.some.injEq] at h
      exact ⟨[], by simp [h]⟩
    | cons e l3 =>
      rw [List.getLast?_cons_cons] at h
      obtain ⟨u, hu⟩ := ih h
      exact ⟨d :: u, by simp [hu]⟩

theorem pstrip_fix_last {l : List Char} (h : pstrip l = l) :
    ∀ c, l.getLast? = some c → pySpace c = false := by
  intro c hc
  cases hcsp : pySpace c with
  | false => rfl
  | true =>
    exfalso
    obtain ⟨u, rfl⟩ := getLast_mem_form hc
    have h2 : pstrip (u ++ [c]) = pstrip u := by
      rw [← pstrip_rstrip (u ++ [c]),
        rstrip_append_allspace [c] (by intro x hx; simp at hx; rw [hx]; exact hcsp),
        pstrip_rstrip]
    rw [h] at h2
    have h4 : (pstrip u).length ≤ u.length := pstrip_len_le u
    rw [← h2] at h4
    simp at h4

theorem pstrip_nil : pstrip [] = [] := rfl

/-! ## Claim C6: the energy-cost formula -/

/-- Helper: the code's cost computation on a wellformed effort token
agrees with the spec formula. -/
theorem calculate_energy_cost_eq_spec (e : List Char) (fr : Int) (other : Bool)
    (h : effortPat e = true) :
    calculate_energy_cost ⟨some e, some fr, other⟩ = .ok (specEnergyCost e fr) := by
  simp only [effortPat, Bool.and_eq_true, Bool.or_eq_true, decide_eq_true_eq,
    ne_eq] at h
  obtain ⟨⟨hne, hdig⟩, hlast⟩ := h
  have hne2 : e ≠ [] := by
    intro he; rw [he] at hne; exact hne rfl
  have hpy : pyInt e.dropLast = .ok (digitsVal e.dropLast : Int) := pyInt_digits hne hdig
  have hcast : (0 : Int) ≤ (digitsVal e.dropLast : Int) := Int.ofNat_nonneg _
  have htruthy : (PyDict.mk (some e) (some fr) other).truthy = true := by
    simp [PyDict.truthy]
  rcases hlast with (hm | hh) | hd
  · simp only [calculate_energy_cost, htruthy, hne2, hm, hpy, Except.mapError, Except.map,
      specEnergyCost, specMinutes, clamp, Option.some.injEq]
    norm_num [show ('m' : Char) ≠ 'h' from by decide, show ('m' : Char) ≠ 'd' from by decide]
    try rw [Int.fdiv_eq_ediv _ (by norm_num)]
    try push_cast
    try ring_nf
  · simp only [calculate_energy_cost, htruthy, hne2, hh, hpy, Except.mapError, Except.map,
      specEnergyCost, specMinutes, clamp, Option.some.injEq]
    norm_num [show ('h' : Char) ≠ 'm' from by decide, show ('h' : Char) ≠ 'd' from by decide]
    try rw [Int.fdiv_eq_ediv _ (by norm_num)]
    try push_cast
    try ring_nf
  · simp only [calculate_energy_cost, htruthy, hne2, hd, hpy, Except.mapError, Except.map,
      specEnergyCost, specMinutes, clamp, Option.some.injEq]
    norm_num [show ('d' : Char) ≠ 'm' from by decide, show ('d' : Char) ≠ 'h' from by decide]
    try rw [Int.fdiv_eq_ediv _ (by norm_num)]
    try push_cast
    try ring_nf

/-- C6: for every metadata input whose effort is present and matches
digits-then-m-h-d and whose friction is present, `calculate_energy_cost`
returns `clamp(1, 12, max(1, floor(minutes/30)) + (friction - 2))` with
minutes mapped m to value, h to value times 60, d to value times 480;
in particular 2 for effort 1h friction 2, 4 for effort 30m friction 5,
and 12 for effort 2d friction 2. -/
theorem c6_energy_cost_formula :
    (∀ (e : List Char) (fr : Int) (other : Bool), effortPat e = true →
      calculate_energy_cost ⟨some e, some fr, other⟩ = .ok (specEnergyCost e fr)) ∧
    calculate_energy_cost ⟨some ('1' :: ['h']), some 2, false⟩ = .ok 2 ∧
    calculate_energy_cost ⟨some ('3' :: ['0', 'm']), some 5, false⟩ = .ok 4 ∧
    calculate_energy_cost ⟨some ('2' :: ['d']), some 2, false⟩ = .ok 12 :=
  ⟨calculate_energy_cost_eq_spec, rfl, rfl, rfl⟩

/-- Witness for C6 at a concrete input with the hypothesis discharged. -/
theorem c6_energy_cost_formula_witness :
    effortPat ('4' :: ['5', 'm']) = true ∧
    calculate_energy_cost ⟨some ('4' :: ['5', 'm']), some 3, false⟩ =
      .ok (specEnergyCost ('4' :: ['5', 'm']) 3) :=
  ⟨by decide, c6_energy_cost_formula.1 ('4' :: ['5', 'm']) 3 false (by decide)⟩

/-! ## Claim C5: attachment of over-indented task lines -/

/-- C5, refuting evaluation: in a section holding one top-level task
and a task line at indent level 2 (whose implied parent level 1 was
never opened, so its indent exceeds the depth of every open ancestor),
the parser attaches the second task as a subtask of the first, not as a
top-level task: the section has exactly one top-level task. -/
theorem c5_over_indent_counterexample :
    parseMarkdown ("# today\n- [ ] a\n    - [ ] b").toList =
      .ok ⟨[PTask.mk 1 ['a'] false false none none none none none none
              [PTask.mk 2 ['b'] false false none none none none none (some 1) []]],
           [], []⟩ ∧
    (parseMarkdown ("# today\n- [ ] a\n    - [ ] b").toList).map
      (fun r => r.today.length) = .ok 1 :=
  ⟨rfl, rfl⟩

/-- C5 as amended: a task line whose indent level exceeds the length of
the popped ancestor stack is attached to the deepest currently-open
ancestor when one exists (and is not pushed); only when no ancestor is
open at all (the popped stack is empty) does it fall back to a
top-level attachment in the current section. -/
theorem c5_over_indent_attaches_to_deepest_ancestor :
    (∀ (secs : Sections) (cur : List Char) (stack : List (List Nat)) (td : PTask)
        (indent : Nat),
      stack.take indent = [] →
      attachTask secs cur stack td indent =
        (match getSec secs cur with
         | none => .error (.keyError cur)
         | some l => .ok (setSec secs cur (l ++ [td]),
             if indent = 0 then [[l.length]] else []))) ∧
    (∀ (secs : Sections) (cur : List Char) (stack : List (List Nat)) (td : PTask)
        (indent : Nat) (p : List Nat) (l : List PTask) (parent : PTask) (sibs : List PTask),
      (stack.take indent).length < indent →
      (stack.take indent).getLast? = some p →
      getSec secs cur = some l →
      getAtPath l p = some parent →
      getListAt l p = some sibs →
      attachTask secs cur stack td indent =
        .ok (setSec secs cur (appendAt l p (td.withParent (some parent.id))),
          stack.take indent)) := by
  constructor
  · intro secs cur stack td indent h
    unfold attachTask
    rw [h]
    dsimp only
    have hnone : (if 0 < indent then ([] : List (List Nat)).getLast? else none) = none := by
      split <;> rfl
    rw [hnone]
    cases hsec : getSec secs cur with
    | none => rfl
    | some l =>
      dsimp only
      cases hind : indent with
      | zero => simp
      | succ k => simp
  · intro secs cur stack td indent p l parent sibs hlen hlast hsec hpar hsibs
    unfold attachTask
    dsimp only
    have hpos : 0 < indent := by omega
    rw [if_pos hpos, hlast]
    dsimp only
    rw [hsec]
    dsimp only
    rw [hpar, hsibs]
    dsimp only
    rw [if_neg (by omega)]

/-- Witness for the amended C5 at a concrete over-indented line. -/
theorem c5_over_indent_attaches_witness :
    (([[0]] : List (List Nat)).take 2).length < 2 ∧
    attachTask ⟨[PTask.mk 1 ['a'] false false none none none none none none []], [], []⟩
        "today".toList [[0]] (PTask.mk 2 ['b'] false false none none none none none none [])
        2 =
      .ok (setSec ⟨[PTask.mk 1 ['a'] false false none none none none none none []], [], []⟩
            "today".toList
            (appendAt [PTask.mk 1 ['a'] false false none none none none none none []] [0]
              ((PTask.mk 2 ['b'] false false none none none none none none []).withParent
                (some 1))),
          ([[0]] : List (List Nat)).take 2) :=
  ⟨by decide,
    c5_over_indent_attaches_to_deepest_ancestor.2
      ⟨[PTask.mk 1 ['a'] false false none none none none none none []], [], []⟩
      "today".toList [[0]] (PTask.mk 2 ['b'] false false none none none none none none [])
      2 [0] [PTask.mk 1 ['a'] false false none none none none none none []]
      (PTask.mk 1 ['a'] false false none none none none none none []) []
      (by decide) rfl rfl rfl rfl⟩

/-! ## Claim C8: the XP formula -/

theorem xpMinutes_eq_spec {e : List Char} (h : effortPat e = true) :
    xpMinutes (some e) = .ok (specMinutes e : Int) := by
  simp only [effortPat, Bool.and_eq_true, Bool.or_eq_true, decide_eq_true_eq, ne_eq] at h
  obtain ⟨⟨hne, hdig⟩, hlast⟩ := h
  have hne2 : e ≠ [] := by
    intro he; rw [he] at hne; exact hne rfl
  have hpy : pyInt e.dropLast = .ok (digitsVal e.dropLast : Int) := pyInt_digits hne hdig
  rcases hlast with (hm | hh) | hd
  · simp only [xpMinutes, hne2, if_false, hm, if_true, hpy, specMinutes]
    norm_num [show ('m' : Char) ≠ 'h' from by decide, show ('m' : Char) ≠ 'd' from by decide]
  · have h1 : e.getLast? ≠ some 'm' := by rw [hh]; simp
    simp only [xpMinutes, hne2, if_false, hh, h1, if_true, hpy, Except.map, specMinutes]
    norm_num [show ('h' : Char) ≠ 'm' from by decide, show ('h' : Char) ≠ 'd' from by decide]
  · have h1 : e.getLast? ≠ some 'm' := by rw [hd]; simp
    have h2 : e.getLast? ≠ some 'h' := by rw [hd]; simp
    simp only [xpMinutes, hne2, if_false, hd, h1, h2, if_true, hpy, Except.map, specMinutes]
    norm_num [show ('d' : Char) ≠ 'm' from by decide, show ('d' : Char) ≠ 'h' from by decide]
    ring

/-- The code's XP computation agrees with the spec formula on the data
model's domain. -/
theorem calculate_xp_eq_spec (t : PTask) (he : effortOkXp t.effort = true)
    (hf : frictionOkXp t.friction = true) :
    calculate_xp t = .ok (computeXpSpec t) := by
  have hmin : xpMinutes t.effort = .ok (specXpMinutesNat t : Int) := by
    unfold specXpMinutesNat
    cases heff : t.effort with
    | none => simp [xpMinutes]
    | some e =>
      rw [heff] at he
      exact xpMinutes_eq_spec he
  have hfr : (match t.friction with
      | some f => if f ≠ 0 then f else 2
      | none => (2 : Int)) = specXpFriction t := by
    unfold specXpFriction
    cases hfri : t.friction with
    | none => rfl
    | some f =>
      rw [hfri] at hf
      simp only [frictionOkXp, decide_eq_true_eq] at hf
      dsimp only
      rw [if_pos (show f ≠ 0 by omega)]
  have hcnt : (t.subtasks.countP (fun st => st.is_completed) = t.subtasks.length) ↔
      (∀ st ∈ t.subtasks, st.is_completed = true) := by
    constructor
    · intro h2 st hst
      simpa using List.countP_eq_length.mp h2 st hst
    · intro h2
      exact List.countP_eq_length.mpr (fun st hst => by simpa using h2 st hst)
  unfold calculate_xp computeXpSpec
  rw [hmin]
  simp only [Except.map, truncHalfOfTriple]
  rw [hfr]
  by_cases hb : t.subtasks.length ≠ 0 ∧ ∀ st ∈ t.subtasks, st.is_completed = true
  · rw [if_pos hb, if_pos ⟨hb.1, hcnt.mpr hb.2⟩]
    simp only [Int.cast_natCast]
  · rw [if_neg hb, if_neg (fun hc => hb ⟨hc.1, hcnt.mp hc.2⟩)]
    simp only [Int.cast_natCast]

/-- Helper bounds for the square root of two. -/
theorem sqrt_two_gt : (1.4117 : ℝ) < Real.sqrt 2 :=
  (Real.lt_sqrt (by norm_num)).mpr (by norm_num)

theorem sqrt_two_lt : Real.sqrt 2 < (1.415 : ℝ) :=
  (Real.sqrt_lt' (by norm_num)).mpr (by norm_num)

/-- C8: for every task with data-model-valid effort and friction,
`calculate_xp` returns the spec's rounded square-root formula with the
defaults and the one-and-a-half subtask bonus, and the quoted instance
(effort 1h, friction 3, no subtasks) evaluates to 424. -/
theorem c8_xp_formula :
    (∀ t : PTask, effortOkXp t.effort = true → frictionOkXp t.friction = true →
      calculate_xp t = .ok (computeXpSpec t)) ∧
    calculate_xp (PTask.mk 0 [] false false none (some ('1' :: ['h'])) (some 3) none none
      none []) = .ok 424 := by
  refine ⟨calculate_xp_eq_spec, ?_⟩
  have hmin : xpMinutes (some ('1' :: ['h'])) = .ok (60 : Int) := by
    have h0 := xpMinutes_eq_spec (e := '1' :: ['h']) (by decide)
    simpa [specMinutes] using h0
  unfold calculate_xp
  simp only [PTask.effort, PTask.friction, PTask.subtasks, hmin, Except.map]
  norm_num
  have hgt := sqrt_two_gt
  have hlt := sqrt_two_lt
  rw [round_eq, Int.floor_eq_iff]
  constructor
  · push_cast
    nlinarith
  · push_cast
    nlinarith

/-- Witness for C8 at a concrete task with subtask bonus, hypotheses
discharged. -/
theorem c8_xp_formula_witness :
    effortOkXp (some ('2' :: ['h'])) = true ∧ frictionOkXp (some 2) = true ∧
    calculate_xp (PTask.mk 0 [] false false none (some ('2' :: ['h'])) (some 2) none none none
        [PTask.mk 1 [] false true none none none none none none [],
         PTask.mk 2 [] false true none none none none none none []]) =
      .ok (computeXpSpec (PTask.mk 0 [] false false none (some ('2' :: ['h'])) (some 2) none
        none none
        [PTask.mk 1 [] false true none none none none none none [],
         PTask.mk 2 [] false true none none none none none none []])) :=
  ⟨by decide, by decide, c8_xp_formula.1 _ (by decide) (by decide)⟩

theorem except_map_ok {x : Except EErr Int} {f : Int → Int} {c : Int}
    (h : x.map f = .ok c) : ∃ v, x = .ok v ∧ c = f v := by
  cases x with
  | error e => cases h
  | ok v =>
    refine ⟨v, rfl, ?_⟩
    cases h
    rfl

/-- Every cost `calculate_energy_cost` returns is between 1 and 12. -/
theorem calculate_energy_cost_bounds {d : PyDict} {c : Int}
    (h : calculate_energy_cost d = .ok c) : 1 ≤ c ∧ c ≤ 12 := by
  unfold calculate_energy_cost at h
  split at h
  · cases h
  · split at h
    · cases h
    · split at h
      · cases h
      · split at h
        · cases h
        · obtain ⟨v, _, hc⟩ := except_map_ok h
          subst hc
          omega

theorem EInv_reset {s : EState} (h : EInv s) (now today : Int) :
    EInv (resetIfNeeded s now today) := by
  unfold EInv at h ⊢
  unfold resetIfNeeded
  split
  · dsimp only
    omega
  · exact h

theorem EInv_consumeBody {s s2 : EState} {req : ConsumeReq} {c : Int}
    (h : EInv s) (hreq : 1 ≤ req.amount ∧ req.amount ≤ 12)
    (hok : consumeBody s req = .ok (s2, c)) : EInv s2 := by
  obtain ⟨a, md⟩ := req
  have hreq2 : 1 ≤ a ∧ a ≤ 12 := hreq
  unfold consumeBody at hok
  split at hok
  · cases hok
  · have hc1 : ∃ v, (match md with
        | some d => if d.truthy then calculate_energy_cost d else .ok a
        | none => .ok (a : Int)) = .ok v ∧ 1 ≤ v := by
      cases md with
      | none => exact ⟨a, rfl, hreq2.1⟩
      | some d =>
        by_cases ht : d.truthy
        · rcases hcc : calculate_energy_cost d with e | v
          · simp only [ht, if_true, hcc, Except.bind] at hok
            exact Except.noConfusion hok
          · exact ⟨v, by simp [ht, hcc], (calculate_energy_cost_bounds hcc).1⟩
        · exact ⟨a, by simp [ht], hreq2.1⟩
    obtain ⟨v, hv, h1v⟩ := hc1
    rw [hv] at hok
    simp only [Except.bind] at hok
    by_cases hlt : s.current_energy < v
    · simp only [hlt, if_true] at hok
      exact Except.noConfusion hok
    · simp only [hlt, if_false] at hok
      cases hok
      unfold EInv at h ⊢
      dsimp only
      omega

theorem EInv_completeBody {s s2 : EState} {c now : Int}
    (h : EInv s) (hok : completeBreakBody s now = .ok (s2, c)) : EInv s2 := by
  unfold completeBreakBody at hok
  split at hok
  · cases hok
  · split at hok
    · cases hok
    · cases hok
      unfold EInv at h ⊢
      dsimp only
      generalize truncDiv _ 900 = t
      split <;> (dsimp only; omega)

theorem EInv_step {s : EState} (h : EInv s) (op : EOp) : EInv (stepOp s op) := by
  cases op with
  | consume a md now today =>
    simp only [stepOp]
    by_cases hb : 1 ≤ a ∧ a ≤ 12
    · rw [if_pos hb]
      rcases hcall : consume_energy s ⟨a, md⟩ now today with e | p
      · exact EInv_reset h now today
      · obtain ⟨s2, c⟩ := p
        unfold consume_energy at hcall
        exact EInv_consumeBody (EInv_reset h now today) hb hcall
    · rw [if_neg hb]
      exact h
  | startBreak d now today =>
    simp only [stepOp]
    rcases hcall : start_break s d now today with e | p
    · exact EInv_reset h now today
    · obtain ⟨s2, resp⟩ := p
      have h2 := EInv_reset h now today
      unfold start_break startBreakBody at hcall
      split at hcall
      · cases hcall
      · split at hcall
        · cases hcall
        · cases hcall
          unfold EInv at h2 ⊢
          exact h2
  | completeBreak now today =>
    simp only [stepOp]
    rcases hcall : complete_break s now today with e | p
    · exact EInv_reset h now today
    · obtain ⟨s2, c⟩ := p
      unfold complete_break at hcall
      exact EInv_completeBody (EInv_reset h now today) hcall
  | pauseRegen now today =>
    simp only [stepOp]
    unfold pause_regeneration pauseBody
    have h2 := EInv_reset h now today
    split
    · exact h2
    · exact h2
  | resumeRegen now today =>
    simp only [stepOp]
    unfold resume_regeneration resumeBody
    have h2 := EInv_reset h now today
    split
    · split
      · exact h2
      · exact h2
    · exact h2
  | dailyReset now today =>
    simp only [stepOp]
    exact EInv_reset h now today
  | tick now =>
    simp only [stepOp]
    unfold regenTick REGENERATION_AMOUNT
    split
    · exact h
    · split
      · exact h
      · split
        · unfold EInv at h ⊢
          dsimp only
          split <;> (dsimp only; omega)
        · exact h

theorem EInv_foldl {s : EState} (h : EInv s) : ∀ (ops : List EOp), EInv (ops.foldl stepOp s) := by
  intro ops
  induction ops generalizing s with
  | nil => exact h
  | cons op ops ih => exact ih (EInv_step h op)

/-- C4: for every sequence of consume, break, pause, resume, daily
reset and regeneration-tick operations starting from a fresh session,
the current energy stays within zero and `max_energy`, and `max_energy`
is 12, after every operation. -/
theorem c4_energy_bounds (ops : List EOp) (now0 : Int) :
    0 ≤ (ops.foldl stepOp (freshEState now0)).current_energy ∧
    (ops.foldl stepOp (freshEState now0)).current_energy ≤
      (ops.foldl stepOp (freshEState now0)).max_energy ∧
    (ops.foldl stepOp (freshEState now0)).max_energy = 12 := by
  have h : EInv (ops.foldl stepOp (freshEState now0)) :=
    EInv_foldl (by unfold EInv freshEState; norm_num) ops
  exact ⟨h.2.1, h.2.2, h.1⟩

/-! ## Claim C7: consume semantics -/

/-- A state whose reset date is current is unchanged by the daily-reset
check. -/
theorem resetIfNeeded_current {s : EState} {now today : Int}
    (h : s.last_reset_date = some today) : resetIfNeeded s now today = s := by
  simp [resetIfNeeded, h]

/-- A falsy metadata dict makes `calculate_energy_cost` raise. -/
theorem calculate_energy_cost_falsy {d : PyDict} (h : d.truthy = false) :
    calculate_energy_cost d = .error .valueError := by
  simp [calculate_energy_cost, h]

/-- C7: with the daily reset already applied, a consume with a
well-defined required amount fails exactly when on break or short of
energy (the failing request does not produce a successor state), and a
successful consume returns the state decremented by exactly that
amount. -/
theorem c7_consume_semantics (s : EState) (req : ConsumeReq) (now today r : Int)
    (hreset : s.last_reset_date = some today)
    (hreq : requiredAmount req = .ok r) :
    ((∃ e, consume_energy s req now today = .error e) ↔
      (s.is_on_break = true ∨ s.current_energy < r)) ∧
    (∀ s2 c, consume_energy s req now today = .ok (s2, c) →
      c = r ∧ s2 = { s with current_energy := s.current_energy - r }) := by
  have hbody : consume_energy s req now today = consumeBody s req := by
    unfold consume_energy
    rw [resetIfNeeded_current hreset]
  have hcost : (match req.task_metadata with
      | some d => if d.truthy then calculate_energy_cost d else .ok req.amount
      | none => .ok req.amount) = Except.ok r := by
    unfold requiredAmount at hreq
    cases hmd : req.task_metadata with
    | none => simp only [hmd] at hreq ⊢; exact hreq
    | some d =>
      simp only [hmd] at hreq ⊢
      cases htr : d.truthy with
      | true => simp only [htr, if_true]; exact hreq
      | false =>
        rw [calculate_energy_cost_falsy htr] at hreq
        cases hreq
  rw [hbody]
  unfold consumeBody
  rw [hcost]
  cases hbrk : s.is_on_break with
  | true =>
    simp only [hbrk, if_true]
    refine ⟨⟨fun _ => Or.inl trivial,
      fun _ => ⟨.httpError "Cannot consume energy while on break", rfl⟩⟩, ?_⟩
    intro s2 c hok
    cases hok
  | false =>
    simp only [hbrk, Bool.false_eq_true, if_false, false_or, Except.bind]
    by_cases hlt : s.current_energy < r
    · simp only [hlt, if_true]
      refine ⟨⟨fun _ => trivial, fun _ => ⟨.httpError "Insufficient energy", rfl⟩⟩, ?_⟩
      intro s2 c hok
      cases hok
    · simp only [hlt, if_false]
      refine ⟨⟨?_, fun h => h.elim⟩, ?_⟩
      · rintro ⟨e, he⟩
        cases he
      · intro s2 c hok
        simp only [Except.ok.injEq, Prod.mk.injEq] at hok
        exact ⟨hok.2.symm, hok.1.symm⟩

/-! ## Claim C10: automatic break completion on read -/

theorem tdiv_nonpos_of_nonpos {a : Int} (h : a ≤ 0) : Int.tdiv a 900 ≤ 0 := by
  have h2 : Int.tdiv a 900 = -(Int.tdiv (-a) 900) := by
    rw [← Int.neg_tdiv, neg_neg]
  have h3 := Int.tdiv_nonneg (a := -a) (b := 900) (by omega) (by norm_num)
  omega

/-- C10: with the daily reset already applied, reading the energy state
of a session whose break end time has passed restores exactly one
energy point (the non-positive remaining duration always hits the
max-with-one floor), clears the break fields, and touches neither
`is_regenerating` nor `regeneration_paused_at` nor the regeneration
anchor. -/
theorem c10_get_energy_autocompletes_break (s : EState) (now today endT : Int)
    (hrd : s.last_reset_date = some today)
    (hbrk : s.is_on_break = true)
    (hend : s.break_end_time = some endT)
    (hpassed : endT ≤ now)
    (hlt : s.current_energy < s.max_energy) :
    get_energy s now today =
      ({ s with
          current_energy := s.current_energy + 1, is_on_break := false,
          break_end_time := none }, some 1) := by
  unfold get_energy
  rw [resetIfNeeded_current hrd]
  unfold getEnergyBody
  rw [hend]
  dsimp only
  rw [if_pos ⟨by rw [hbrk], by omega⟩]
  have htd : truncDiv (endT - now) 900 ≤ 0 := tdiv_nonpos_of_nonpos (by omega)
  have hone : max 1 (truncDiv (endT - now) 900) = 1 := by omega
  rw [hone]
  have hrest : min (s.max_energy - s.current_energy) 1 = 1 := by omega
  rw [hrest]
  have hcur : min s.max_energy (s.current_energy + 1) = s.current_energy + 1 := by omega
  rw [hcur]

/-- Witness for C10 at a concrete expired break. -/
theorem c10_get_energy_autocompletes_break_witness :
    ((EState.mk 6 12 true (some 1800) (some 0) 0 true (some 0)).last_reset_date = some 0 ∧
      (EState.mk 6 12 true (some 1800) (some 0) 0 true (some 0)).is_on_break = true ∧
      (EState.mk 6 12 true (some 1800) (some 0) 0 true (some 0)).break_end_time = some 1800 ∧
      (1800 : Int) ≤ 2000 ∧
      (EState.mk 6 12 true (some 1800) (some 0) 0 true (some 0)).current_energy <
        (EState.mk 6 12 true (some 1800) (some 0) 0 true (some 0)).max_energy) ∧
    get_energy (EState.mk 6 12 true (some 1800) (some 0) 0 true (some 0)) 2000 0 =
      ({ EState.mk 6 12 true (some 1800) (some 0) 0 true (some 0) with
          current_energy :=
            (EState.mk 6 12 true (some 1800) (some 0) 0 true (some 0)).current_energy + 1,
          is_on_break := false, break_end_time := none }, some 1) :=
  ⟨⟨rfl, rfl, rfl, by norm_num, by norm_num⟩,
    c10_get_energy_autocompletes_break (EState.mk 6 12 true (some 1800) (some 0) 0 true (some 0))
      2000 0 1800 rfl rfl rfl (by norm_num) (by norm_num)⟩

/-! ## Claim C1: manual break completion and the hard-coded 15 minutes

`complete_break` reconstructs the break start as `break_end_time` minus
15 minutes although `start_break` schedules any clamped duration in 5
to 60 minutes, so the energy it restores depends on the scheduled
duration, against both the specification and the code's own comment
(`actual break duration`). -/

/-- C1, refuting evaluation: a session at 6 of 12 energy starts a
30-minute break at time 0 (scheduled to restore 2) and completes it
manually exactly at its scheduled end, 1800 elapsed seconds later; the
code restores only 1 energy point, while the claimed
actual-elapsed-time rule gives 2.  The code computes the break as if it
had been scheduled for 15 minutes. -/
theorem c1_complete_break_uses_hardcoded_schedule :
    start_break (EState.mk 6 12 false none (some 0) 0 true none) 30 0 0 =
      .ok (EState.mk 6 12 true (some 1800) (some 0) 0 true (some 0), ⟨1800, 30, 2⟩) ∧
    complete_break (EState.mk 6 12 true (some 1800) (some 0) 0 true (some 0)) 1800 0 =
      .ok (EState.mk 7 12 false none (some 0) 1800 true none, 1) ∧
    specBreakRestore (1800 - 0) (12 - 6) = 2 ∧ (1 : Int) ≠ 2 :=
  ⟨rfl, rfl, rfl, by norm_num⟩

/-! ## Claim C3: the parser is not total

A line whose stripped content is exactly dash, space, opening bracket
passes the task-line guard and then indexes `line[3]`, raising an
`IndexError`; a top-level task under a section header other than the
three known names raises a `KeyError`.  Both propagate out of
`parse_markdown`. -/

/-- C3, refuting evaluation: the three-character truncated task line
raises an `IndexError` out of the parser, and a task under an unknown
section raises a `KeyError`; neither input yields a three-section
result. -/
theorem c3_parser_raises_on_truncated_line :
    parseMarkdown ("# today\n- [").toList = .error .indexError ∧
    parseMarkdown ("# notes\n- [ ] x").toList = .error (.keyError "notes".toList) :=
  ⟨rfl, rfl⟩

/-! ## Claim C9: pause and resume fidelity -/

/-- C9: with the daily reset already applied, resuming with a pause
marker set and no break in progress shifts the regeneration anchor
forward by exactly the paused duration, clears the marker and turns
regeneration on; resuming with no marker or while on break changes
nothing; and after pausing at `t1` and resuming `N` seconds later the
background tick fires no earlier and no later than
`REGENERATION_INTERVAL + N` seconds after the original anchor. -/
theorem c9_resume_regeneration :
    (∀ (s : EState) (now today p : Int), s.last_reset_date = some today →
      s.regeneration_paused_at = some p → s.is_on_break = false →
      resume_regeneration s now today =
        { s with
          last_regeneration_time := s.last_regeneration_time + (now - p),
          regeneration_paused_at := none, is_regenerating := true }) ∧
    (∀ (s : EState) (now today : Int), s.last_reset_date = some today →
      (s.regeneration_paused_at = none ∨ s.is_on_break = true) →
      resume_regeneration s now today = s) ∧
    (∀ (s : EState) (today t1 N : Int), s.last_reset_date = some today →
      s.is_regenerating = true → s.regeneration_paused_at = none → s.is_on_break = false →
      s.current_energy < s.max_energy → 0 ≤ N →
      (∀ t, regenTick (pause_regeneration s t1 today) t = pause_regeneration s t1 today) ∧
      (∀ t, t < s.last_regeneration_time + REGENERATION_INTERVAL + N →
        regenTick (resume_regeneration (pause_regeneration s t1 today) (t1 + N) today) t =
          resume_regeneration (pause_regeneration s t1 today) (t1 + N) today) ∧
      (regenTick (resume_regeneration (pause_regeneration s t1 today) (t1 + N) today)
          (s.last_regeneration_time + REGENERATION_INTERVAL + N)).current_energy =
        min s.max_energy (s.current_energy + 1) ∧
      (regenTick (resume_regeneration (pause_regeneration s t1 today) (t1 + N) today)
          (s.last_regeneration_time + REGENERATION_INTERVAL + N)).last_regeneration_time =
        s.last_regeneration_time + REGENERATION_INTERVAL + N) := by
  have hresume : ∀ (s : EState) (now today p : Int), s.last_reset_date = some today →
      s.regeneration_paused_at = some p → s.is_on_break = false →
      resume_regeneration s now today =
        { s with
          last_regeneration_time := s.last_regeneration_time + (now - p),
          regeneration_paused_at := none, is_regenerating := true } := by
    intro s now today p hrd hp hbrk
    unfold resume_regeneration
    rw [resetIfNeeded_current hrd]
    unfold resumeBody
    rw [hp]
    simp [hbrk]
  refine ⟨hresume, ?_, ?_⟩
  · intro s now today hrd hcase
    unfold resume_regeneration
    rw [resetIfNeeded_current hrd]
    unfold resumeBody
    rcases hcase with hp | hb
    · rw [hp]
    · cases hp : s.regeneration_paused_at with
      | none => rfl
      | some p => simp [hb]
  · intro s today t1 N hrd hreg hp hbrk hlt hN
    have hpause : pause_regeneration s t1 today =
        { s with regeneration_paused_at := some t1 } := by
      unfold pause_regeneration
      rw [resetIfNeeded_current hrd]
      unfold pauseBody
      simp [hreg, hp, hbrk]
    have hres : resume_regeneration (pause_regeneration s t1 today) (t1 + N) today =
        { s with
          last_regeneration_time := s.last_regeneration_time + N,
          regeneration_paused_at := none, is_regenerating := true } := by
      rw [hpause, hresume _ _ _ t1 (by simpa using hrd) rfl (by simpa using hbrk)]
      congr 1
      dsimp only
      omega
    have hRI : REGENERATION_INTERVAL = 900 := rfl
    refine ⟨?_, ?_, ?_, ?_⟩
    · intro t
      rw [hpause]
      unfold regenTick
      simp
    · intro t ht
      rw [hres]
      unfold regenTick
      rw [if_neg (by dsimp only; simp)]
      rw [if_neg (by
        dsimp only
        rw [hbrk]
        simp only [Bool.false_eq_true, false_or, ge_iff_le, not_le]
        omega)]
      rw [if_neg (by
        dsimp only
        rw [hRI] at ht ⊢
        omega)]
    · rw [hres]
      unfold regenTick
      rw [if_neg (by dsimp only; simp)]
      rw [if_neg (by
        dsimp only
        rw [hbrk]
        simp only [Bool.false_eq_true, false_or, ge_iff_le, not_le]
        omega)]
      rw [if_pos (by dsimp only; rw [hRI]; omega)]
      dsimp only
      split <;> rfl
    · rw [hres]
      unfold regenTick
      rw [if_neg (by dsimp only; simp)]
      rw [if_neg (by
        dsimp only
        rw [hbrk]
        simp only [Bool.false_eq_true, false_or, ge_iff_le, not_le]
        omega)]
      rw [if_pos (by dsimp only; rw [hRI]; omega)]
      dsimp only
      split <;> rfl

/-- Witness for C9: a concrete session paused at 1500 and resumed 300
seconds later first regenerates at 1000 + 900 + 300. -/
theorem c9_resume_regeneration_witness :
    (EState.mk 6 12 false none (some 0) 1000 true none).last_reset_date = some 0 ∧
    ((∀ t, regenTick (pause_regeneration (EState.mk 6 12 false none (some 0) 1000 true none)
        1500 0) t =
        pause_regeneration (EState.mk 6 12 false none (some 0) 1000 true none) 1500 0) ∧
    (∀ t, t < (EState.mk 6 12 false none (some 0) 1000 true none).last_regeneration_time +
        REGENERATION_INTERVAL + 300 →
      regenTick (resume_regeneration
        (pause_regeneration (EState.mk 6 12 false none (some 0) 1000 true none) 1500 0) 1800 0)
          t =
        resume_regeneration
          (pause_regeneration (EState.mk 6 12 false none (some 0) 1000 true none) 1500 0)
          1800 0) ∧
    (regenTick (resume_regeneration
        (pause_regeneration (EState.mk 6 12 false none (some 0) 1000 true none) 1500 0) 1800 0)
        ((EState.mk 6 12 false none (some 0) 1000 true none).last_regeneration_time +
          REGENERATION_INTERVAL + 300)).current_energy =
      min (EState.mk 6 12 false none (some 0) 1000 true none).max_energy
        ((EState.mk 6 12 false none (some 0) 1000 true none).current_energy + 1) ∧
    (regenTick (resume_regeneration
        (pause_regeneration (EState.mk 6 12 false none (some 0) 1000 true none) 1500 0) 1800 0)
        ((EState.mk 6 12 false none (some 0) 1000 true none).last_regeneration_time +
          REGENERATION_INTERVAL + 300)).last_regeneration_time =
      (EState.mk 6 12 false none (some 0) 1000 true none).last_regeneration_time +
        REGENERATION_INTERVAL + 300) :=
  ⟨rfl, by
    have h := c9_resume_regeneration.2.2 (EState.mk 6 12 false none (some 0) 1000 true none)
      0 1500 300 rfl rfl rfl rfl (by norm_num) (by norm_num)
    simpa using h⟩

/-- Witness for C7 at a concrete state and request. -/
theorem c7_consume_semantics_witness :
    (EState.mk 12 12 false none (some 0) 0 true none).last_reset_date = some 0 ∧
    requiredAmount ⟨3, none⟩ = .ok 3 ∧
    (((∃ e, consume_energy (EState.mk 12 12 false none (some 0) 0 true none) ⟨3, none⟩ 0 0 =
        .error e) ↔
      ((EState.mk 12 12 false none (some 0) 0 true none).is_on_break = true ∨
        (EState.mk 12 12 false none (some 0) 0 true none).current_energy < 3)) ∧
    (∀ s2 c, consume_energy (EState.mk 12 12 false none (some 0) 0 true none) ⟨3, none⟩ 0 0 =
        .ok (s2, c) →
      c = 3 ∧ s2 = { EState.mk 12 12 false none (some 0) 0 true none with
        current_energy := (EState.mk 12 12 false none (some 0) 0 true none).current_energy - 3 })) :=
  ⟨rfl, rfl, c7_consume_semantics (EState.mk 12 12 false none (some 0) 0 true none) ⟨3, none⟩
    0 0 3 rfl rfl⟩

/-! ## Generic lemmas about `search` and `subAll` -/

theorem mem_lstrip {c : Char} {l : List Char} (h : c ∈ lstrip l) : c ∈ l :=
  (List.dropWhile_sublist _).subset h

theorem mem_rstrip {c : Char} {l : List Char} (h : c ∈ rstrip l) : c ∈ l := by
  unfold rstrip at h
  rw [List.mem_reverse] at h
  exact List.mem_reverse.mp ((List.dropWhile_sublist _).subset h)

theorem mem_pstrip {c : Char} {l : List Char} (h : c ∈ pstrip l) : c ∈ l :=
  mem_lstrip (mem_rstrip h)

theorem rstrip_idem (l : List Char) : rstrip (rstrip l) = rstrip l := by
  unfold rstrip
  rw [List.reverse_reverse, dropWhile_idem]

theorem pstrip_idem (l : List Char) : pstrip (pstrip l) = pstrip l := by
  show rstrip (lstrip (rstrip (lstrip l))) = rstrip (lstrip l)
  rw [lstrip_rstrip_comm (lstrip l), rstrip_idem, lstrip_idem]

theorem rstrip_append_last_keep {c : Char} (h : pySpace c = false) (Z : List Char) :
    rstrip (Z ++ [c]) = Z ++ [c] := by
  unfold rstrip
  rw [List.reverse_append]
  simp [List.dropWhile, h]

theorem rstrip_fix_last {Y : List Char} (h : rstrip Y = Y) :
    ∀ c, Y.getLast? = some c → pySpace c = false := by
  intro c hc
  cases hsp : pySpace c with
  | false => rfl
  | true =>
    exfalso
    obtain ⟨u, rfl⟩ := getLast_mem_form hc
    have h2 : rstrip (u ++ [c]) = rstrip u :=
      rstrip_append_allspace [c] (by intro x hx; simp at hx; rw [hx]; exact hsp)
    rw [h] at h2
    have h4 : (rstrip u).length ≤ u.length := rstrip_len_le u
    rw [← h2] at h4
    simp at h4

theorem rstrip_fix_of_ne {Y : List Char} (hne : Y ≠ []) (h : rstrip Y = Y)
    (X : List Char) : rstrip (X ++ Y) = X ++ Y := by
  obtain ⟨u, c, rfl⟩ : ∃ u c, Y = u ++ [c] := by
    cases hgl : Y.getLast? with
    | none =>
      cases Y with
      | nil => exact absurd rfl hne
      | cons a b => rw [List.getLast?_eq_none_iff] at hgl; cases hgl
    | some c =>
      obtain ⟨u, hu⟩ := getLast_mem_form hgl
      exact ⟨u, c, hu⟩
  have hc : pySpace c = false := rstrip_fix_last h c (by simp)
  rw [show X ++ (u ++ [c]) = (X ++ u) ++ [c] from by simp]
  exact rstrip_append_last_keep hc _

theorem rstrip_fix_append {A B : List Char} (hA : rstrip A = A) (hB : rstrip B = B) :
    rstrip (A ++ B) = A ++ B := by
  by_cases hBe : B = []
  · subst hBe; simpa using hA
  · exact rstrip_fix_of_ne hBe hB A

theorem pstrip_fix_lstrip {l : List Char} (h : pstrip l = l) : lstrip l = l := by
  cases l with
  | nil => rfl
  | cons c t => exact lstrip_cons_keep (pstrip_fix_head h) t

theorem pstrip_fix_rstrip {l : List Char} (h : pstrip l = l) : rstrip l = l := by
  cases hgl : l.getLast? with
  | none =>
    cases l with
    | nil => rfl
    | cons a b => rw [List.getLast?_eq_none_iff] at hgl; cases hgl
  | some c =>
    obtain ⟨u, rfl⟩ := getLast_mem_form hgl
    exact rstrip_append_last_keep (pstrip_fix_last h c hgl) u

theorem search_cons_none {m : Matcher} {c : Char} {cs : List Char}
    (h : m (c :: cs) = none) : search m (c :: cs) = search m cs := by
  simp only [search, h]

theorem search_cons_some {m : Matcher} {c : Char} {cs cap r : List Char}
    (h : m (c :: cs) = some (cap, r)) : search m (c :: cs) = some cap := by
  unfold search; rw [h]

theorem search_append_none {m : Matcher} :
    ∀ (U V : List Char), (∀ c ∈ U, ∀ cs, m (c :: cs) = none) →
      search m (U ++ V) = search m V
  | [], _, _ => rfl
  | c :: U2, V, h => by
    rw [List.cons_append, search_cons_none (h c (by simp) _)]
    exact search_append_none U2 V (fun x hx cs => h x (by simp [hx]) cs)

theorem search_none {m : Matcher} (U : List Char)
    (h : ∀ c ∈ U, ∀ cs, m (c :: cs) = none) : search m U = none := by
  have h2 := search_append_none (m := m) U [] h
  simpa using h2

theorem search_lstrip {m : Matcher}
    (hsp : ∀ c, pySpace c = true → ∀ cs, m (c :: cs) = none) :
    ∀ S, search m (lstrip S) = search m S
  | [] => rfl
  | c :: S2 => by
    cases hc : pySpace c with
    | true =>
      rw [lstrip_cons_space hc, search_lstrip hsp S2, search_cons_none (hsp c hc S2)]
    | false => rw [lstrip_cons_keep hc]

theorem subAllAux_nil {m : Matcher} : ∀ n, subAllAux m n [] = []
  | 0 => rfl
  | _ + 1 => rfl

theorem subAllAux_id {m : Matcher} :
    ∀ (s : List Char) (n : Nat), (∀ c ∈ s, ∀ cs, m (c :: cs) = none) → s.length ≤ n →
      subAllAux m n s = s
  | [], n, _, _ => subAllAux_nil n
  | c :: s2, n, h, hlen => by
    cases n with
    | zero => simp at hlen
    | succ n2 =>
      have hc := h c (by simp) s2
      simp only [subAllAux, hc]
      rw [subAllAux_id s2 n2 (fun x hx cs => h x (by simp [hx]) cs)
        (by simp only [List.length_cons] at hlen; omega)]

theorem subAllAux_skip {m : Matcher} :
    ∀ (U : List Char) (n : Nat) (V : List Char), (∀ c ∈ U, ∀ cs, m (c :: cs) = none) →
      subAllAux m (U.length + n) (U ++ V) = U ++ subAllAux m n V
  | [], n, V, _ => by simp
  | c :: U2, n, V, h => by
    have hc := h c (by simp) (U2 ++ V)
    rw [show (c :: U2).length + n = (U2.length + n) + 1 from by
      simp only [List.length_cons]; omega]
    simp only [List.cons_append, List.append_eq, subAllAux, hc]
    rw [subAllAux_skip U2 n V (fun x hx cs => h x (by simp [hx]) cs)]

theorem subAll_id {m : Matcher} (s : List Char)
    (h : ∀ c ∈ s, ∀ cs, m (c :: cs) = none) : subAll m s = s :=
  subAllAux_id s s.length h (le_refl _)

theorem subAll_extract {m : Matcher} (U b X cap : List Char)
    (hU : ∀ c ∈ U, ∀ cs, m (c :: cs) = none)
    (hX : ∀ c ∈ X, ∀ cs, m (c :: cs) = none)
    (hb : m (b ++ X) = some (cap, X)) (hbne : b ≠ []) :
    subAll m (U ++ (b ++ X)) = U ++ X := by
  unfold subAll
  rw [show (U ++ (b ++ X)).length = U.length + (b.length + X.length) from by simp]
  rw [subAllAux_skip U _ _ hU]
  congr 1
  cases b with
  | nil => exact absurd rfl hbne
  | cons c b2 =>
    rw [show (c :: b2).length + X.length = (b2.length + X.length) + 1 from by
      simp only [List.length_cons]; omega]
    have hb2 : m (c :: (b2 ++ X)) = some (cap, X) := by
      rw [← List.cons_append]; exact hb
    simp only [List.cons_append, List.append_eq, subAllAux, hb2]
    exact subAllAux_id X (b2.length + X.length) hX (by omega)

theorem takeWhile_append_pass {p : Char → Bool} :
    ∀ (a b : List Char), (∀ x ∈ a, p x = true) →
      (a ++ b).takeWhile p = a ++ b.takeWhile p
  | [], _, _ => rfl
  | c :: a2, b, h => by
    have hc := h c (by simp)
    simp only [List.cons_append, List.takeWhile_cons_of_pos hc]
    rw [takeWhile_append_pass a2 b (fun x hx => h x (by simp [hx]))]

theorem takeWhile_head_neg {p : Char → Bool} {b : List Char}
    (h : ∀ x, b.head? = some x → p x = false) : b.takeWhile p = [] := by
  cases b with
  | nil => rfl
  | cons x b2 => simp [List.takeWhile, h x rfl]

/-! ## The five matchers: guard and fire lemmas -/

theorem tryCat_guard {c : Char} {cs : List Char} (h : c ≠ '@') :
    tryCat (c :: cs) = none := by
  simp [tryCat, h]

theorem tryEff_guard {c : Char} {cs : List Char} (h : c ≠ '!') :
    tryEff (c :: cs) = none := by
  simp [tryEff, h]

theorem tryPct_guard {c : Char} {cs : List Char} (h : c ≠ '%') :
    tryPct (c :: cs) = none := by
  simp [tryPct, h]

theorem tryDue_guard {c : Char} {cs : List Char} (h : c ≠ '^') :
    tryDue (c :: cs) = none := by
  simp [tryDue, h]

theorem tryBrace_guard {c : Char} {cs : List Char} (h : c ≠ '{') :
    tryBrace (c :: cs) = none := by
  simp [tryBrace, h]

theorem guards_cat {U : List Char} (h : '@' ∉ U) :
    ∀ c ∈ U, ∀ cs, tryCat (c :: cs) = none :=
  fun c hc _ => tryCat_guard (fun he => h (he ▸ hc))

theorem guards_eff {U : List Char} (h : '!' ∉ U) :
    ∀ c ∈ U, ∀ cs, tryEff (c :: cs) = none :=
  fun c hc _ => tryEff_guard (fun he => h (he ▸ hc))

theorem guards_pct {U : List Char} (h : '%' ∉ U) :
    ∀ c ∈ U, ∀ cs, tryPct (c :: cs) = none :=
  fun c hc _ => tryPct_guard (fun he => h (he ▸ hc))

theorem guards_due {U : List Char} (h : '^' ∉ U) :
    ∀ c ∈ U, ∀ cs, tryDue (c :: cs) = none :=
  fun c hc _ => tryDue_guard (fun he => h (he ▸ hc))

theorem guards_brace {U : List Char} (h : '{' ∉ U) :
    ∀ c ∈ U, ∀ cs, tryBrace (c :: cs) = none :=
  fun c hc _ => tryBrace_guard (fun he => h (he ▸ hc))

theorem spguard_cat : ∀ c, pySpace c = true → ∀ cs, tryCat (c :: cs) = none :=
  fun c hc _ => tryCat_guard (fun he => by rw [he] at hc; exact absurd hc (by decide))

theorem spguard_eff : ∀ c, pySpace c = true → ∀ cs, tryEff (c :: cs) = none :=
  fun c hc _ => tryEff_guard (fun he => by rw [he] at hc; exact absurd hc (by decide))

theorem spguard_pct : ∀ c, pySpace c = true → ∀ cs, tryPct (c :: cs) = none :=
  fun c hc _ => tryPct_guard (fun he => by rw [he] at hc; exact absurd hc (by decide))

theorem spguard_due : ∀ c, pySpace c = true → ∀ cs, tryDue (c :: cs) = none :=
  fun c hc _ => tryDue_guard (fun he => by rw [he] at hc; exact absurd hc (by decide))

theorem spguard_brace : ∀ c, pySpace c = true → ∀ cs, tryBrace (c :: cs) = none :=
  fun c hc _ => tryBrace_guard (fun he => by rw [he] at hc; exact absurd hc (by decide))

theorem pySpace_of_word {c : Char} (h : isWordChar c = true) : pySpace c = false := by
  simp only [isWordChar, Bool.or_eq_true, Bool.and_eq_true, decide_eq_true_eq] at h
  simp only [pySpace, Bool.or_eq_false_iff, decide_eq_false_iff_not]
  refine ⟨⟨⟨⟨⟨?_, ?_⟩, ?_⟩, ?_⟩, ?_⟩, ?_⟩ <;> (intro hc; subst hc; revert h; decide)

theorem sigil_not_space {c : Char} (h : sigilChar c = true) : pySpace c = false := by
  simp only [sigilChar, Bool.or_eq_true, decide_eq_true_eq] at h
  rcases h with (((h | h) | h) | h) | h <;> subst h <;> decide

theorem tryCat_fire {c R : List Char} (hc : c ≠ []) (hword : c.all isWordChar = true)
    (hR : ∀ x, R.head? = some x → isWordChar x = false) :
    tryCat ('@' :: (c ++ R)) = some (c, R) := by
  have hrun : (c ++ R).takeWhile isWordChar = c := by
    rw [takeWhile_append_pass c R (fun x hx => by simpa using List.all_eq_true.mp hword x hx),
      takeWhile_head_neg hR, List.append_nil]
  simp only [tryCat]
  rw [if_pos trivial]
  simp only [hrun]
  rw [if_neg hc, List.drop_left]

theorem tryEff_fire {ds R : List Char} {u : Char} (hne : ds ≠ [])
    (hdig : ds.all isDigitChar = true) (hu : u = 'm' ∨ u = 'h' ∨ u = 'd') :
    tryEff ('!' :: (ds ++ [u] ++ R)) = some (ds ++ [u], R) := by
  have hds : (ds ++ ([u] ++ R)).takeWhile isDigitChar = ds := by
    rw [takeWhile_append_pass ds _ (fun x hx => by simpa using List.all_eq_true.mp hdig x hx)]
    rw [takeWhile_head_neg (fun x hx => by
      simp at hx
      subst hx
      rcases hu with rfl | rfl | rfl <;> decide), List.append_nil]
  simp only [tryEff]
  rw [if_pos trivial, List.append_assoc]
  simp only [hds]
  rw [if_neg hne, List.drop_left]
  rcases hu with rfl | rfl | rfl <;> simp

theorem tryPct_fire {d : Char} {R : List Char} (hd : isDigitChar d = true) :
    tryPct ('%' :: (d :: R)) = some ([d], R) := by
  simp only [tryPct]
  rw [if_pos trivial]
  simp [hd]

theorem dueShape_parts {d : List Char} (h : dueShape d = true) :
    d.length = 10 ∧ ∀ x ∈ d, isDigitChar x = true ∨ x = '-' := by
  unfold dueShape at h
  split at h
  next a b c d2 e f g h2 i j =>
    simp only [Bool.and_eq_true, decide_eq_true_eq] at h
    obtain ⟨⟨⟨⟨⟨⟨⟨⟨⟨h1, h2b⟩, h3⟩, h4⟩, h5⟩, h6⟩, h7⟩, h8⟩, h9⟩, h10⟩ := h
    refine ⟨rfl, fun x hx => ?_⟩
    simp only [List.mem_cons, List.not_mem_nil, or_false] at hx
    rcases hx with rfl | rfl | rfl | rfl | rfl | rfl | rfl | rfl | rfl | rfl
    exacts [Or.inl h1, Or.inl h2b, Or.inl h3, Or.inl h4, Or.inr h5, Or.inl h6,
      Or.inl h7, Or.inr h8, Or.inl h9, Or.inl h10]
  next => cases h

theorem tryDue_fire {d R : List Char} (h : dueShape d = true) :
    tryDue ('^' :: (d ++ R)) = some (d, R) := by
  have hlen := (dueShape_parts h).1
  simp only [tryDue]
  rw [if_pos trivial]
  rw [show (d ++ R).take 10 = d from by rw [← hlen]; exact List.take_left d R]
  rw [if_pos h]
  rw [show (d ++ R).drop 10 = R from by rw [← hlen]; exact List.drop_left d R]

theorem tryBrace_fire {c R : List Char} (hne : c ≠ []) (hnob : ∀ x ∈ c, x ≠ '}') :
    tryBrace ('{' :: (c ++ '}' :: R)) = some (c, R) := by
  have hrun : (c ++ '}' :: R).takeWhile (fun x => x ≠ '}') = c := by
    rw [takeWhile_append_pass c _ (fun x hx => by simp [hnob x hx])]
    rw [takeWhile_head_neg (fun x hx => by simp at hx; subst hx; simp), List.append_nil]
  simp only [tryBrace]
  rw [if_pos trivial]
  simp only [hrun]
  rw [if_neg hne, List.drop_left]

theorem effort_decomp {e : List Char} (h : effortPat e = true) :
    ∃ ds u, e = ds ++ [u] ∧ ds ≠ [] ∧ ds.all isDigitChar = true ∧
      (u = 'm' ∨ u = 'h' ∨ u = 'd') := by
  simp only [effortPat, Bool.and_eq_true, Bool.or_eq_true, decide_eq_true_eq] at h
  obtain ⟨⟨hne, hdig⟩, hlast⟩ := h
  rcases hlast with (hu | hu) | hu <;>
  · obtain ⟨v, hv⟩ := getLast_mem_form hu
    refine ⟨v, _, hv, ?_, ?_, by simp⟩
    · rwa [hv, List.dropLast_concat] at hne
    · rwa [hv, List.dropLast_concat] at hdig

/-! ## Characterisation of the serializer segments -/

theorem pyIntRepr_small (f : Int) (h1 : 1 ≤ f) (h5 : f ≤ 5) :
    ∃ d, pyIntRepr f = [d] ∧ isDigitChar d = true ∧ (digitsVal [d] : Int) = f := by
  interval_cases f
  · exact ⟨'1', by decide, by decide, by decide⟩
  · exact ⟨'2', by decide, by decide, by decide⟩
  · exact ⟨'3', by decide, by decide, by decide⟩
  · exact ⟨'4', by decide, by decide, by decide⟩
  · exact ⟨'5', by decide, by decide, by decide⟩

theorem catSeg_none {t : PTask} (h : t.category = none) : catSeg t = [] := by
  simp [catSeg, h]

theorem catSeg_some {t : PTask} {c : List Char} (hc : t.category = some c)
    (hne : c ≠ []) : catSeg t = ' ' :: '@' :: c := by
  simp [catSeg, hc, hne]

theorem effSeg_none {t : PTask} (h : t.effort = none) : effSeg t = [] := by
  simp [effSeg, h]

theorem effSeg_some {t : PTask} {e : List Char} (he : t.effort = some e)
    (hne : e ≠ []) : effSeg t = ' ' :: '!' :: e := by
  simp [effSeg, he, hne]

theorem pctSeg_none {t : PTask} (h : t.friction = none) : pctSeg t = [] := by
  simp [pctSeg, h]

theorem pctSeg_some {t : PTask} {f : Int} (hf : t.friction = some f)
    (hne : f ≠ 0) : pctSeg t = ' ' :: '%' :: pyIntRepr f := by
  simp [pctSeg, hf, hne]

theorem dueSeg_none {t : PTask} (h : t.due_date = none) : dueSeg t = [] := by
  simp [dueSeg, h]

theorem dueSeg_some {t : PTask} {d : List Char} (hd : t.due_date = some d)
    (hne : d ≠ []) : dueSeg t = ' ' :: '^' :: d := by
  simp [dueSeg, hd, hne]

theorem braceSeg_none {t : PTask} (h : t.completed_at = none) : braceSeg t = [] := by
  simp [braceSeg, h]

theorem braceSeg_some {t : PTask} {c : List Char} (hc : t.completed_at = some c)
    (hne : c ≠ []) : braceSeg t = ' ' :: '{' :: (c ++ ['}']) := by
  simp [braceSeg, hc, hne]

theorem noSigil_chars {l : List Char} (h : noSigil l = true) :
    ∀ x ∈ l, sigilChar x = false := by
  intro x hx
  have h2 := List.all_eq_true.mp h x hx
  simp only [Bool.not_eq_true'] at h2
  simpa [sigilChar] using h2

theorem noSigil_not_mem {l : List Char} (h : noSigil l = true) :
    '@' ∉ l ∧ '!' ∉ l ∧ '%' ∉ l ∧ '^' ∉ l ∧ '{' ∉ l := by
  refine ⟨fun hx => ?_, fun hx => ?_, fun hx => ?_, fun hx => ?_, fun hx => ?_⟩ <;>
  · have h2 := noSigil_chars h _ hx
    revert h2
    decide

theorem wfTitle_parts {l : List Char} (h : wfTitle l = true) :
    noSigil l = true ∧ pstrip l = l ∧ l.contains '\n' = false ∧ l.head? ≠ some '?' := by
  simp only [wfTitle, Bool.and_eq_true, decide_eq_true_eq, Bool.not_eq_true'] at h
  refine ⟨h.1.1.1, h.1.1.2, h.1.2, ?_⟩
  have h2 := h.2
  simp only [decide_eq_false_iff_not] at h2
  exact h2

theorem mem_catSeg {t : PTask} (h : wfCat t.category = true) :
    ∀ x ∈ catSeg t, x = ' ' ∨ x = '@' ∨ isWordChar x = true := by
  intro x hx
  cases hc : t.category with
  | none => rw [catSeg_none hc] at hx; cases hx
  | some c =>
    rw [hc] at h
    simp only [wfCat, Bool.and_eq_true, decide_eq_true_eq] at h
    rw [catSeg_some hc h.1] at hx
    simp only [List.mem_cons] at hx
    rcases hx with rfl | rfl | hx
    · exact Or.inl rfl
    · exact Or.inr (Or.inl rfl)
    · exact Or.inr (Or.inr (by simpa using List.all_eq_true.mp h.2 x hx))

theorem mem_effSeg {t : PTask} (h : wfEff t.effort = true) :
    ∀ x ∈ effSeg t, x = ' ' ∨ x = '!' ∨ isDigitChar x = true ∨ x = 'm' ∨ x = 'h' ∨ x = 'd' := by
  intro x hx
  cases he : t.effort with
  | none => rw [effSeg_none he] at hx; cases hx
  | some e =>
    rw [he] at h
    simp only [wfEff] at h
    obtain ⟨ds, u, rfl, hne, hdig, hu⟩ := effort_decomp h
    rw [effSeg_some he (by simp)] at hx
    simp only [List.mem_cons, List.mem_append, List.mem_singleton, List.not_mem_nil,
      or_false] at hx
    rcases hx with rfl | rfl | hx | rfl
    · exact Or.inl rfl
    · exact Or.inr (Or.inl rfl)
    · exact Or.inr (Or.inr (Or.inl (by simpa using List.all_eq_true.mp hdig x hx)))
    · rcases hu with rfl | rfl | rfl
      · exact Or.inr (Or.inr (Or.inr (Or.inl rfl)))
      · exact Or.inr (Or.inr (Or.inr (Or.inr (Or.inl rfl))))
      · exact Or.inr (Or.inr (Or.inr (Or.inr (Or.inr rfl))))

theorem mem_pctSeg {t : PTask} (h : wfFr t.friction = true) :
    ∀ x ∈ pctSeg t, x = ' ' ∨ x = '%' ∨ isDigitChar x = true := by
  intro x hx
  cases hf : t.friction with
  | none => rw [pctSeg_none hf] at hx; cases hx
  | some f =>
    rw [hf] at h
    simp only [wfFr, decide_eq_true_eq] at h
    obtain ⟨d, hrepr, hdig, _⟩ := pyIntRepr_small f h.1 h.2
    rw [pctSeg_some hf (by omega), hrepr] at hx
    simp only [List.mem_cons, List.not_mem_nil, or_false] at hx
    rcases hx with rfl | rfl | rfl
    · exact Or.inl rfl
    · exact Or.inr (Or.inl rfl)
    · exact Or.inr (Or.inr hdig)

theorem mem_dueSeg {t : PTask} (h : wfDue t.due_date = true) :
    ∀ x ∈ dueSeg t, x = ' ' ∨ x = '^' ∨ isDigitChar x = true ∨ x = '-' := by
  intro x hx
  cases hd : t.due_date with
  | none => rw [dueSeg_none hd] at hx; cases hx
  | some d =>
    rw [hd] at h
    simp only [wfDue] at h
    have hps := dueShape_parts h
    rw [dueSeg_some hd (by intro h0; rw [h0] at hps; simp at hps)] at hx
    simp only [List.mem_cons] at hx
    rcases hx with rfl | rfl | hx
    · exact Or.inl rfl
    · exact Or.inr (Or.inl rfl)
    · rcases hps.2 x hx with h2 | h2
      · exact Or.inr (Or.inr (Or.inl h2))
      · exact Or.inr (Or.inr (Or.inr h2))

theorem wfCompl_parts {c : List Char} (h : wfCompl (some c) = true) :
    c ≠ [] ∧ noSigil c = true ∧ c.contains '}' = false ∧ c.contains '\n' = false := by
  simp only [wfCompl, Bool.and_eq_true, decide_eq_true_eq, Bool.not_eq_true'] at h
  exact ⟨h.1.1.1, h.1.1.2, h.1.2, h.2⟩

theorem mem_braceSeg {t : PTask} (h : wfCompl t.completed_at = true) :
    ∀ x ∈ braceSeg t, x = ' ' ∨ x = '{' ∨ x = '}' ∨ sigilChar x = false := by
  intro x hx
  cases hc : t.completed_at with
  | none => rw [braceSeg_none hc] at hx; cases hx
  | some c =>
    rw [hc] at h
    obtain ⟨hne, hnos, _, _⟩ := wfCompl_parts h
    rw [braceSeg_some hc hne] at hx
    simp only [List.mem_cons, List.mem_append, List.mem_singleton, List.not_mem_nil,
      or_false] at hx
    rcases hx with rfl | rfl | hx | rfl
    · exact Or.inl rfl
    · exact Or.inr (Or.inl rfl)
    · exact Or.inr (Or.inr (Or.inr (noSigil_chars hnos x hx)))
    · exact Or.inr (Or.inr (Or.inl rfl))

theorem exists_concat_of_ne {Y : List Char} (h : Y ≠ []) : ∃ v c, Y = v ++ [c] := by
  cases hgl : Y.getLast? with
  | none =>
    cases Y with
    | nil => exact absurd rfl h
    | cons a b => rw [List.getLast?_eq_none_iff] at hgl; cases hgl
  | some lc =>
    obtain ⟨v, hv⟩ := getLast_mem_form hgl
    exact ⟨v, lc, hv⟩

theorem catSeg_sigils {t : PTask} (h : wfCat t.category = true) :
    '!' ∉ catSeg t ∧ '%' ∉ catSeg t ∧ '^' ∉ catSeg t ∧ '{' ∉ catSeg t := by
  refine ⟨fun hx => ?_, fun hx => ?_, fun hx => ?_, fun hx => ?_⟩ <;>
  · rcases mem_catSeg h _ hx with h2 | h2 | h2 <;> revert h2 <;> decide

theorem effSeg_sigils {t : PTask} (h : wfEff t.effort = true) :
    '@' ∉ effSeg t ∧ '%' ∉ effSeg t ∧ '^' ∉ effSeg t ∧ '{' ∉ effSeg t := by
  refine ⟨fun hx => ?_, fun hx => ?_, fun hx => ?_, fun hx => ?_⟩ <;>
  · rcases mem_effSeg h _ hx with h2 | h2 | h2 | h2 | h2 | h2 <;> revert h2 <;> decide

theorem pctSeg_sigils {t : PTask} (h : wfFr t.friction = true) :
    '@' ∉ pctSeg t ∧ '!' ∉ pctSeg t ∧ '^' ∉ pctSeg t ∧ '{' ∉ pctSeg t := by
  refine ⟨fun hx => ?_, fun hx => ?_, fun hx => ?_, fun hx => ?_⟩ <;>
  · rcases mem_pctSeg h _ hx with h2 | h2 | h2 <;> revert h2 <;> decide

theorem dueSeg_sigils {t : PTask} (h : wfDue t.due_date = true) :
    '@' ∉ dueSeg t ∧ '!' ∉ dueSeg t ∧ '%' ∉ dueSeg t ∧ '{' ∉ dueSeg t := by
  refine ⟨fun hx => ?_, fun hx => ?_, fun hx => ?_, fun hx => ?_⟩ <;>
  · rcases mem_dueSeg h _ hx with h2 | h2 | h2 | h2 <;> revert h2 <;> decide

theorem braceSeg_sigils {t : PTask} (h : wfCompl t.completed_at = true) :
    '@' ∉ braceSeg t ∧ '!' ∉ braceSeg t ∧ '%' ∉ braceSeg t ∧ '^' ∉ braceSeg t := by
  refine ⟨fun hx => ?_, fun hx => ?_, fun hx => ?_, fun hx => ?_⟩ <;>
  · rcases mem_braceSeg h _ hx with h2 | h2 | h2 | h2 <;> revert h2 <;> decide

theorem rstrip_catSeg {t : PTask} (h : wfCat t.category = true) :
    rstrip (catSeg t) = catSeg t := by
  cases hc : t.category with
  | none => rw [catSeg_none hc]; rfl
  | some c =>
    rw [hc] at h
    simp only [wfCat, Bool.and_eq_true, decide_eq_true_eq] at h
    obtain ⟨v, lc, hv⟩ := exists_concat_of_ne h.1
    have hw : isWordChar lc = true := by
      simpa using List.all_eq_true.mp h.2 lc (by simp [hv])
    rw [catSeg_some hc h.1, hv]
    rw [show ' ' :: '@' :: (v ++ [lc]) = (' ' :: '@' :: v) ++ [lc] from by simp]
    exact rstrip_append_last_keep (pySpace_of_word hw) _

theorem rstrip_effSeg {t : PTask} (h : wfEff t.effort = true) :
    rstrip (effSeg t) = effSeg t := by
  cases he : t.effort with
  | none => rw [effSeg_none he]; rfl
  | some e =>
    rw [he] at h
    simp only [wfEff] at h
    obtain ⟨ds, u, rfl, _, _, hu⟩ := effort_decomp h
    rw [effSeg_some he (by simp)]
    rw [show ' ' :: '!' :: (ds ++ [u]) = (' ' :: '!' :: ds) ++ [u] from by simp]
    refine rstrip_append_last_keep ?_ _
    rcases hu with rfl | rfl | rfl <;> decide

theorem rstrip_pctSeg {t : PTask} (h : wfFr t.friction = true) :
    rstrip (pctSeg t) = pctSeg t := by
  cases hf : t.friction with
  | none => rw [pctSeg_none hf]; rfl
  | some f =>
    rw [hf] at h
    simp only [wfFr, decide_eq_true_eq] at h
    obtain ⟨d, hrepr, hdig, _⟩ := pyIntRepr_small f h.1 h.2
    rw [pctSeg_some hf (by omega), hrepr]
    rw [show ' ' :: '%' :: [d] = [' ', '%'] ++ [d] from by simp]
    exact rstrip_append_last_keep (pySpace_of_digit hdig) _

theorem rstrip_dueSeg {t : PTask} (h : wfDue t.due_date = true) :
    rstrip (dueSeg t) = dueSeg t := by
  cases hd : t.due_date with
  | none => rw [dueSeg_none hd]; rfl
  | some d =>
    rw [hd] at h
    simp only [wfDue] at h
    have hps := dueShape_parts h
    have hne : d ≠ [] := by intro h0; rw [h0] at hps; simp at hps
    obtain ⟨v, lc, hv⟩ := exists_concat_of_ne hne
    have hlc : isDigitChar lc = true ∨ lc = '-' := hps.2 lc (by simp [hv])
    rw [dueSeg_some hd hne, hv]
    rw [show ' ' :: '^' :: (v ++ [lc]) = (' ' :: '^' :: v) ++ [lc] from by simp]
    refine rstrip_append_last_keep ?_ _
    rcases hlc with h2 | rfl
    · exact pySpace_of_digit h2
    · decide

theorem rstrip_braceSeg {t : PTask} (h : wfCompl t.completed_at = true) :
    rstrip (braceSeg t) = braceSeg t := by
  cases hc : t.completed_at with
  | none => rw [braceSeg_none hc]; rfl
  | some c =>
    rw [hc] at h
    obtain ⟨hne, _, _, _⟩ := wfCompl_parts h
    rw [braceSeg_some hc hne]
    rw [show ' ' :: '{' :: (c ++ ['}']) = (' ' :: '{' :: c) ++ ['}'] from by simp]
    exact rstrip_append_last_keep (by decide) _

theorem rstrip_segs {t : PTask} (h2 : wfCat t.category = true) (h3 : wfEff t.effort = true)
    (h4 : wfFr t.friction = true) (h5 : wfDue t.due_date = true)
    (h6 : wfCompl t.completed_at = true) : rstrip (segs t) = segs t := by
  unfold segs
  exact rstrip_fix_append (rstrip_fix_append (rstrip_fix_append
    (rstrip_fix_append (rstrip_catSeg h2) (rstrip_effSeg h3)) (rstrip_pctSeg h4))
    (rstrip_dueSeg h5)) (rstrip_braceSeg h6)

theorem head_space_append {A B : List Char}
    (hA : A = [] ∨ A.head? = some ' ') (hB : B = [] ∨ B.head? = some ' ') :
    A ++ B = [] ∨ (A ++ B).head? = some ' ' := by
  rcases hA with rfl | hA
  · simpa using hB
  · cases A with
    | nil => simp at hA
    | cons a A2 => right; simpa using hA

theorem catSeg_head (t : PTask) : catSeg t = [] ∨ (catSeg t).head? = some ' ' := by
  rcases hc : t.category with _ | c
  · exact Or.inl (catSeg_none hc)
  · by_cases hne : c = []
    · exact Or.inl (by simp [catSeg, hc, hne])
    · exact Or.inr (by rw [catSeg_some hc hne]; rfl)

theorem effSeg_head (t : PTask) : effSeg t = [] ∨ (effSeg t).head? = some ' ' := by
  rcases he : t.effort with _ | e
  · exact Or.inl (effSeg_none he)
  · by_cases hne : e = []
    · exact Or.inl (by simp [effSeg, he, hne])
    · exact Or.inr (by rw [effSeg_some he hne]; rfl)

theorem pctSeg_head (t : PTask) : pctSeg t = [] ∨ (pctSeg t).head? = some ' ' := by
  rcases hf : t.friction with _ | f
  · exact Or.inl (pctSeg_none hf)
  · by_cases hne : f = 0
    · exact Or.inl (by simp [pctSeg, hf, hne])
    · exact Or.inr (by rw [pctSeg_some hf hne]; rfl)

theorem dueSeg_head (t : PTask) : dueSeg t = [] ∨ (dueSeg t).head? = some ' ' := by
  rcases hd : t.due_date with _ | d
  · exact Or.inl (dueSeg_none hd)
  · by_cases hne : d = []
    · exact Or.inl (by simp [dueSeg, hd, hne])
    · exact Or.inr (by rw [dueSeg_some hd hne]; rfl)

theorem braceSeg_head (t : PTask) : braceSeg t = [] ∨ (braceSeg t).head? = some ' ' := by
  rcases hc : t.completed_at with _ | c
  · exact Or.inl (braceSeg_none hc)
  · by_cases hne : c = []
    · exact Or.inl (by simp [braceSeg, hc, hne])
    · exact Or.inr (by rw [braceSeg_some hc hne]; rfl)

/-! ## The title-reconstruction chain of `parse_markdown_line` -/

theorem pstrip_pad_seg {title : List Char} {body R : List Char} (j : Nat)
    (htitle : pstrip title = title)
    (hbody : ∃ σ b2, body = σ :: b2 ∧ pySpace σ = false)
    (hbfix : rstrip body = body)
    (hRfix : rstrip R = R) :
    pstrip (title ++ List.replicate j ' ' ++ (' ' :: body) ++ R) =
      if title = [] then body ++ R
      else title ++ List.replicate j ' ' ++ (' ' :: body) ++ R := by
  obtain ⟨σ, b2, rfl, hσ⟩ := hbody
  have hBR : rstrip ((σ :: b2) ++ R) = (σ :: b2) ++ R := rstrip_fix_append hbfix hRfix
  by_cases hT : title = []
  · rw [if_pos hT, hT]
    show rstrip (lstrip ([] ++ List.replicate j ' ' ++ (' ' :: σ :: b2) ++ R)) = σ :: b2 ++ R
    rw [show ([] : List Char) ++ List.replicate j ' ' ++ (' ' :: σ :: b2) ++ R =
      List.replicate j ' ' ++ (' ' :: σ :: (b2 ++ R)) from by simp]
    rw [lstrip_replicate_space, lstrip_cons_space (by decide), lstrip_cons_keep hσ]
    simpa using hBR
  · rw [if_neg hT]
    obtain ⟨c0, t0, rfl⟩ : ∃ c0 t0, title = c0 :: t0 := by
      cases title with
      | nil => exact absurd rfl hT
      | cons a b => exact ⟨a, b, rfl⟩
    have hc0 : pySpace c0 = false := pstrip_fix_head htitle
    show rstrip (lstrip ((c0 :: t0) ++ List.replicate j ' ' ++ (' ' :: σ :: b2) ++ R)) = _
    rw [show (c0 :: t0) ++ List.replicate j ' ' ++ (' ' :: σ :: b2) ++ R =
        c0 :: (t0 ++ List.replicate j ' ' ++ (' ' :: σ :: b2) ++ R) from by simp]
    rw [lstrip_cons_keep hc0]
    rw [show c0 :: (t0 ++ List.replicate j ' ' ++ (' ' :: σ :: b2) ++ R) =
        ((c0 :: t0) ++ List.replicate j ' ' ++ [' ']) ++ ((σ :: b2) ++ R) from by simp]
    rw [rstrip_fix_of_ne (by simp) hBR _]

theorem stage_absent {m : Matcher} {σ : Char}
    (hguard : ∀ c cs, c ≠ σ → m (c :: cs) = none)
    {title R : List Char} {j : Nat}
    (hσsp : pySpace σ = false)
    (hσT : σ ∉ title) (hσR : σ ∉ R) :
    pstrip (subAll m (pstrip (title ++ List.replicate j ' ' ++ R))) =
      pstrip (title ++ List.replicate j ' ' ++ R) := by
  have hg : ∀ c ∈ pstrip (title ++ List.replicate j ' ' ++ R), ∀ cs, m (c :: cs) = none := by
    intro c hc cs
    refine hguard c cs (fun he => ?_)
    subst he
    have h2 := mem_pstrip hc
    simp only [List.mem_append, List.mem_replicate] at h2
    rcases h2 with (h2 | h2) | h2
    · exact hσT h2
    · rw [h2.2] at hσsp; exact absurd hσsp (by decide)
    · exact hσR h2
  rw [subAll_id _ hg, pstrip_idem]

theorem stage_present {m : Matcher} {σ : Char}
    {title body R cap : List Char} {j : Nat}
    (htitle : pstrip title = title)
    (hσT : σ ∉ title)
    (hbody : ∃ b2, body = σ :: b2) (hσsp : pySpace σ = false)
    (hbfix : rstrip body = body)
    (hRfix : rstrip R = R)
    (hfire : m (body ++ R) = some (cap, R))
    (hguard : ∀ c cs, c ≠ σ → m (c :: cs) = none)
    (hσR : σ ∉ R) :
    ∃ j2, pstrip (subAll m (pstrip (title ++ List.replicate j ' ' ++ (' ' :: body) ++ R))) =
      pstrip (title ++ List.replicate j2 ' ' ++ R) := by
  obtain ⟨b2, rfl⟩ := hbody
  have hX : ∀ c ∈ R, ∀ cs, m (c :: cs) = none :=
    fun c hc cs => hguard c cs (fun he => hσR (he ▸ hc))
  rw [pstrip_pad_seg j htitle ⟨σ, b2, rfl, hσsp⟩ hbfix hRfix]
  by_cases hT : title = []
  · rw [if_pos hT]
    refine ⟨0, ?_⟩
    have hsub : subAll m (σ :: b2 ++ R) = R := by
      have h2 := subAll_extract [] (σ :: b2) R cap (by simp) hX hfire (by simp)
      simpa using h2
    rw [hsub, hT]
    simp
  · rw [if_neg hT]
    refine ⟨j + 1, ?_⟩
    have hU : ∀ c ∈ title ++ List.replicate j ' ' ++ [' '], ∀ cs, m (c :: cs) = none := by
      intro c hc cs
      refine hguard c cs (fun he => ?_)
      subst he
      simp only [List.mem_append, List.mem_replicate, List.mem_singleton] at hc
      rcases hc with (hc | hc) | hc
      · exact hσT hc
      · rw [hc.2] at hσsp; exact absurd hσsp (by decide)
      · rw [hc] at hσsp; exact absurd hσsp (by decide)
    have hsub : subAll m (title ++ List.replicate j ' ' ++ (' ' :: σ :: b2) ++ R) =
        title ++ List.replicate j ' ' ++ [' '] ++ R := by
      have h2 := subAll_extract (title ++ List.replicate j ' ' ++ [' ']) (σ :: b2) R cap
        hU hX hfire (by simp)
      rw [show title ++ List.replicate j ' ' ++ (' ' :: σ :: b2) ++ R =
        (title ++ List.replicate j ' ' ++ [' ']) ++ ((σ :: b2) ++ R) from by simp]
      rw [h2]
    rw [hsub]
    congr 1
    rw [List.replicate_succ']
    simp

theorem pstrip_title_pad {title : List Char} (htitle : pstrip title = title) (j : Nat) :
    pstrip (title ++ List.replicate j ' ') = title := by
  show rstrip (lstrip (title ++ List.replicate j ' ')) = title
  cases ht : title with
  | nil =>
    rw [show ([] : List Char) ++ List.replicate j ' ' = List.replicate j ' ' ++ [] from by simp]
    rw [lstrip_replicate_space]
    rfl
  | cons c0 t0 =>
    have hc0 : pySpace c0 = false := by rw [ht] at htitle; exact pstrip_fix_head htitle
    rw [show (c0 :: t0) ++ List.replicate j ' ' = c0 :: (t0 ++ List.replicate j ' ')
      from by simp]
    rw [lstrip_cons_keep hc0]
    rw [show c0 :: (t0 ++ List.replicate j ' ') = (c0 :: t0) ++ List.replicate j ' '
      from by simp]
    rw [rstrip_append_allspace _ (fun c hc => by
      rw [List.eq_of_mem_replicate hc]; decide)]
    exact pstrip_fix_rstrip (ht ▸ htitle)

/-! ## Shape of a rendered task line -/

theorem rstrip_append (u v : List Char) :
    rstrip (u ++ v) = if rstrip v = [] then rstrip u else u ++ rstrip v := by
  induction u with
  | nil =>
    by_cases hv : rstrip v = []
    · rw [List.nil_append, if_pos hv, hv]; rfl
    · rw [List.nil_append, if_neg hv, List.nil_append]
  | cons c u2 ih =>
    by_cases hv : rstrip v = []
    · rw [if_pos hv, List.cons_append, rstrip_cons, ih, if_pos hv, rstrip_cons]
    · rw [if_neg hv, List.cons_append, rstrip_cons, ih, if_neg hv]
      rw [if_neg (by simp [hv])]
      simp

theorem rstrip_append_fix_left {u : List Char} (hu : rstrip u = u) (v : List Char) :
    rstrip (u ++ v) = u ++ rstrip v := by
  rw [rstrip_append]
  by_cases hv : rstrip v = []
  · rw [if_pos hv, hu, hv, List.append_nil]
  · rw [if_neg hv]

theorem lstrip_first {σ : Char} {b rest : List Char} (hσ : pySpace σ = false) :
    lstrip ((' ' :: σ :: b) ++ rest) = σ :: (b ++ rest) := by
  rw [List.cons_append, lstrip_cons_space (by decide), List.cons_append,
    lstrip_cons_keep hσ]

theorem flat_head_sigil :
    ∀ (L : List (List Char)),
      (∀ s ∈ L, s = [] ∨ ∃ σ b, s = ' ' :: σ :: b ∧ sigilChar σ = true) →
      L.flatten = [] ∨ ∃ σ rest2, lstrip L.flatten = σ :: rest2 ∧ sigilChar σ = true
  | [], _ => Or.inl rfl
  | s :: L2, h => by
    rcases h s (by simp) with hs | ⟨σ, b, hs, hσ⟩
    · rw [List.flatten_cons, hs, List.nil_append]
      exact flat_head_sigil L2 (fun x hx => h x (by simp [hx]))
    · right
      refine ⟨σ, b ++ L2.flatten, ?_, hσ⟩
      rw [List.flatten_cons, hs, lstrip_first (sigil_not_space hσ)]

theorem catSeg_profile {t : PTask} (h : wfCat t.category = true) :
    catSeg t = [] ∨ ∃ σ b, catSeg t = ' ' :: σ :: b ∧ sigilChar σ = true := by
  rcases hc : t.category with _ | c
  · exact Or.inl (catSeg_none hc)
  · rw [hc] at h
    simp only [wfCat, Bool.and_eq_true, decide_eq_true_eq] at h
    exact Or.inr ⟨'@', c, catSeg_some hc h.1, by decide⟩

theorem effSeg_profile {t : PTask} (h : wfEff t.effort = true) :
    effSeg t = [] ∨ ∃ σ b, effSeg t = ' ' :: σ :: b ∧ sigilChar σ = true := by
  rcases he : t.effort with _ | e
  · exact Or.inl (effSeg_none he)
  · rw [he] at h
    simp only [wfEff] at h
    obtain ⟨ds, u, rfl, _, _, _⟩ := effort_decomp h
    exact Or.inr ⟨'!', ds ++ [u], effSeg_some he (by simp), by decide⟩

theorem pctSeg_profile {t : PTask} (h : wfFr t.friction = true) :
    pctSeg t = [] ∨ ∃ σ b, pctSeg t = ' ' :: σ :: b ∧ sigilChar σ = true := by
  rcases hf : t.friction with _ | f
  · exact Or.inl (pctSeg_none hf)
  · rw [hf] at h
    simp only [wfFr, decide_eq_true_eq] at h
    exact Or.inr ⟨'%', pyIntRepr f, pctSeg_some hf (by omega), by decide⟩

theorem dueSeg_profile {t : PTask} (h : wfDue t.due_date = true) :
    dueSeg t = [] ∨ ∃ σ b, dueSeg t = ' ' :: σ :: b ∧ sigilChar σ = true := by
  rcases hd : t.due_date with _ | d
  · exact Or.inl (dueSeg_none hd)
  · rw [hd] at h
    simp only [wfDue] at h
    have hps := dueShape_parts h
    exact Or.inr ⟨'^', d, dueSeg_some hd (by intro h0; rw [h0] at hps; simp at hps),
      by decide⟩

theorem braceSeg_profile {t : PTask} (h : wfCompl t.completed_at = true) :
    braceSeg t = [] ∨ ∃ σ b, braceSeg t = ' ' :: σ :: b ∧ sigilChar σ = true := by
  rcases hc : t.completed_at with _ | c
  · exact Or.inl (braceSeg_none hc)
  · rw [hc] at h
    exact Or.inr ⟨'{', c ++ ['}'], braceSeg_some hc (wfCompl_parts h).1, by decide⟩

theorem segs_eq_flatten (t : PTask) :
    segs t = List.flatten [catSeg t, effSeg t, pctSeg t, dueSeg t, braceSeg t] := by
  simp [segs]

theorem segs_head_sigil {t : PTask} (h2 : wfCat t.category = true)
    (h3 : wfEff t.effort = true) (h4 : wfFr t.friction = true)
    (h5 : wfDue t.due_date = true) (h6 : wfCompl t.completed_at = true) :
    segs t = [] ∨ ∃ σ rest2, lstrip (segs t) = σ :: rest2 ∧ sigilChar σ = true := by
  rw [segs_eq_flatten]
  refine flat_head_sigil _ (fun x hx => ?_)
  simp only [List.mem_cons, List.not_mem_nil, or_false] at hx
  rcases hx with rfl | rfl | rfl | rfl | rfl
  · exact catSeg_profile h2
  · exact effSeg_profile h3
  · exact pctSeg_profile h4
  · exact dueSeg_profile h5
  · exact braceSeg_profile h6

theorem pstripZ_eq_lstrip {t : PTask} (hTp : pstrip t.title = t.title)
    (hsegs : rstrip (segs t) = segs t) :
    pstrip (t.title ++ segs t) = lstrip (t.title ++ segs t) := by
  have hfix : rstrip (t.title ++ segs t) = t.title ++ segs t :=
    rstrip_fix_append (pstrip_fix_rstrip hTp) hsegs
  show rstrip (lstrip (t.title ++ segs t)) = lstrip (t.title ++ segs t)
  rw [← lstrip_rstrip_comm, hfix]

theorem pstripZ_head {t : PTask} (hT : wfTitle t.title = true)
    (h2 : wfCat t.category = true) (h3 : wfEff t.effort = true)
    (h4 : wfFr t.friction = true) (h5 : wfDue t.due_date = true)
    (h6 : wfCompl t.completed_at = true) :
    (pstrip (t.title ++ segs t)).head? ≠ some '?' := by
  obtain ⟨hTs, hTp, _, hTq⟩ := wfTitle_parts hT
  rw [pstripZ_eq_lstrip hTp (rstrip_segs h2 h3 h4 h5 h6)]
  cases ht : t.title with
  | cons c0 t0 =>
    have hc0 : pySpace c0 = false := pstrip_fix_head (ht ▸ hTp)
    rw [List.cons_append, lstrip_cons_keep hc0]
    rw [ht] at hTq
    simpa using hTq
  | nil =>
    rw [List.nil_append]
    rcases segs_head_sigil h2 h3 h4 h5 h6 with hnil | ⟨σ, r2, hl, hσ⟩
    · rw [hnil]; simp [lstrip]
    · rw [hl]
      simp only [List.head?_cons, ne_eq, Option.some.injEq]
      intro heq
      rw [heq] at hσ
      exact absurd hσ (by decide)

/-! ## The five metadata searches on rendered content -/

theorem wfTask_parts {t : PTask} (h : wfTask t = true) :
    wfTitle t.title = true ∧ wfCat t.category = true ∧ wfEff t.effort = true ∧
    wfFr t.friction = true ∧ wfDue t.due_date = true ∧ wfCompl t.completed_at = true ∧
    wfList t.subtasks = true := by
  unfold wfTask at h
  simp only [Bool.and_eq_true] at h
  exact ⟨h.1.1.1.1.1.1, h.1.1.1.1.1.2, h.1.1.1.1.2, h.1.1.1.2, h.1.1.2, h.1.2, h.2⟩

theorem mem_segs_cases {t : PTask} {x : Char} (hx : x ∈ segs t) :
    x ∈ catSeg t ∨ x ∈ effSeg t ∨ x ∈ pctSeg t ∨ x ∈ dueSeg t ∨ x ∈ braceSeg t := by
  simp only [segs, List.mem_append] at hx
  rcases hx with (((hx | hx) | hx) | hx) | hx
  · exact Or.inl hx
  · exact Or.inr (Or.inl hx)
  · exact Or.inr (Or.inr (Or.inl hx))
  · exact Or.inr (Or.inr (Or.inr (Or.inl hx)))
  · exact Or.inr (Or.inr (Or.inr (Or.inr hx)))

theorem search_cat {t : PTask} (hT : wfTitle t.title = true) (hC : wfCat t.category = true)
    (hE : wfEff t.effort = true) (hF : wfFr t.friction = true)
    (hD : wfDue t.due_date = true) (hA : wfCompl t.completed_at = true) :
    search tryCat (pstrip (t.title ++ segs t)) = t.category := by
  obtain ⟨hTs, hTp, _, _⟩ := wfTitle_parts hT
  have hns := noSigil_not_mem hTs
  rw [pstripZ_eq_lstrip hTp (rstrip_segs hC hE hF hD hA), search_lstrip spguard_cat]
  rcases hcat : t.category with _ | c
  · refine search_none _ (guards_cat (fun hx => ?_))
    simp only [List.mem_append] at hx
    rcases hx with hx | hx
    · exact hns.1 hx
    · rcases mem_segs_cases hx with hx | hx | hx | hx | hx
      · rw [catSeg_none hcat] at hx; cases hx
      · exact (effSeg_sigils hE).1 hx
      · exact (pctSeg_sigils hF).1 hx
      · exact (dueSeg_sigils hD).1 hx
      · exact (braceSeg_sigils hA).1 hx
  · rw [hcat] at hC
    simp only [wfCat, Bool.and_eq_true, decide_eq_true_eq] at hC
    have hR1 : effSeg t ++ pctSeg t ++ dueSeg t ++ braceSeg t = [] ∨
        (effSeg t ++ pctSeg t ++ dueSeg t ++ braceSeg t).head? = some ' ' :=
      head_space_append (head_space_append (head_space_append (effSeg_head t)
        (pctSeg_head t)) (dueSeg_head t)) (braceSeg_head t)
    rw [show t.title ++ segs t = (t.title ++ [' ']) ++
        ('@' :: (c ++ (effSeg t ++ pctSeg t ++ dueSeg t ++ braceSeg t))) from by
      rw [segs, catSeg_some hcat hC.1]; simp]
    rw [search_append_none _ _ (guards_cat (fun hx => by
      simp only [List.mem_append, List.mem_singleton] at hx
      rcases hx with hx | hx
      · exact hns.1 hx
      · exact absurd hx (by decide)))]
    rw [search_cons_some (tryCat_fire hC.1 hC.2 (fun x hx => by
      rcases hR1 with h0 | h0
      · rw [h0] at hx; cases hx
      · rw [h0] at hx
        have h1 := Option.some.inj hx
        subst h1
        decide))]

theorem search_eff {t : PTask} (hT : wfTitle t.title = true) (hC : wfCat t.category = true)
    (hE : wfEff t.effort = true) (hF : wfFr t.friction = true)
    (hD : wfDue t.due_date = true) (hA : wfCompl t.completed_at = true) :
    search tryEff (pstrip (t.title ++ segs t)) = t.effort := by
  obtain ⟨hTs, hTp, _, _⟩ := wfTitle_parts hT
  have hns := noSigil_not_mem hTs
  rw [pstripZ_eq_lstrip hTp (rstrip_segs hC hE hF hD hA), search_lstrip spguard_eff]
  rcases heff : t.effort with _ | e
  · refine search_none _ (guards_eff (fun hx => ?_))
    simp only [List.mem_append] at hx
    rcases hx with hx | hx
    · exact hns.2.1 hx
    · rcases mem_segs_cases hx with hx | hx | hx | hx | hx
      · exact (catSeg_sigils hC).1 hx
      · rw [effSeg_none heff] at hx; cases hx
      · exact (pctSeg_sigils hF).2.1 hx
      · exact (dueSeg_sigils hD).2.1 hx
      · exact (braceSeg_sigils hA).2.1 hx
  · rw [heff] at hE
    simp only [wfEff] at hE
    obtain ⟨ds, u, rfl, hne, hdig, hu⟩ := effort_decomp hE
    rw [show t.title ++ segs t = (t.title ++ catSeg t ++ [' ']) ++
        ('!' :: (ds ++ [u] ++ (pctSeg t ++ dueSeg t ++ braceSeg t))) from by
      rw [segs, effSeg_some heff (by simp)]; simp]
    rw [search_append_none _ _ (guards_eff (fun hx => by
      simp only [List.mem_append, List.mem_singleton] at hx
      rcases hx with (hx | hx) | hx
      · exact hns.2.1 hx
      · exact (catSeg_sigils hC).1 hx
      · exact absurd hx (by decide)))]
    rw [search_cons_some (tryEff_fire hne hdig hu)]

theorem search_pct {t : PTask} (hT : wfTitle t.title = true) (hC : wfCat t.category = true)
    (hE : wfEff t.effort = true) (hF : wfFr t.friction = true)
    (hD : wfDue t.due_date = true) (hA : wfCompl t.completed_at = true) :
    (search tryPct (pstrip (t.title ++ segs t))).map
      (fun ds => (digitsVal ds : Int)) = t.friction := by
  obtain ⟨hTs, hTp, _, _⟩ := wfTitle_parts hT
  have hns := noSigil_not_mem hTs
  rw [pstripZ_eq_lstrip hTp (rstrip_segs hC hE hF hD hA), search_lstrip spguard_pct]
  rcases hfr : t.friction with _ | f
  · rw [search_none _ (guards_pct (fun hx => ?_))]
    · rfl
    simp only [List.mem_append] at hx
    rcases hx with hx | hx
    · exact hns.2.2.1 hx
    · rcases mem_segs_cases hx with hx | hx | hx | hx | hx
      · exact (catSeg_sigils hC).2.1 hx
      · exact (effSeg_sigils hE).2.1 hx
      · rw [pctSeg_none hfr] at hx; cases hx
      · exact (dueSeg_sigils hD).2.2.1 hx
      · exact (braceSeg_sigils hA).2.2.1 hx
  · rw [hfr] at hF
    simp only [wfFr, decide_eq_true_eq] at hF
    obtain ⟨d, hrepr, hdig, hdv⟩ := pyIntRepr_small f hF.1 hF.2
    rw [show t.title ++ segs t = (t.title ++ catSeg t ++ effSeg t ++ [' ']) ++
        ('%' :: (d :: (dueSeg t ++ braceSeg t))) from by
      rw [segs, pctSeg_some hfr (by omega), hrepr]; simp]
    rw [search_append_none _ _ (guards_pct (fun hx => by
      simp only [List.mem_append, List.mem_singleton] at hx
      rcases hx with ((hx | hx) | hx) | hx
      · exact hns.2.2.1 hx
      · exact (catSeg_sigils hC).2.1 hx
      · exact (effSeg_sigils hE).2.1 hx
      · exact absurd hx (by decide)))]
    rw [search_cons_some (tryPct_fire hdig)]
    simp [hdv]

theorem search_due {t : PTask} (hT : wfTitle t.title = true) (hC : wfCat t.category = true)
    (hE : wfEff t.effort = true) (hF : wfFr t.friction = true)
    (hD : wfDue t.due_date = true) (hA : wfCompl t.completed_at = true) :
    search tryDue (pstrip (t.title ++ segs t)) = t.due_date := by
  obtain ⟨hTs, hTp, _, _⟩ := wfTitle_parts hT
  have hns := noSigil_not_mem hTs
  rw [pstripZ_eq_lstrip hTp (rstrip_segs hC hE hF hD hA), search_lstrip spguard_due]
  rcases hdd : t.due_date with _ | d
  · refine search_none _ (guards_due (fun hx => ?_))
    simp only [List.mem_append] at hx
    rcases hx with hx | hx
    · exact hns.2.2.2.1 hx
    · rcases mem_segs_cases hx with hx | hx | hx | hx | hx
      · exact (catSeg_sigils hC).2.2.1 hx
      · exact (effSeg_sigils hE).2.2.1 hx
      · exact (pctSeg_sigils hF).2.2.1 hx
      · rw [dueSeg_none hdd] at hx; cases hx
      · exact (braceSeg_sigils hA).2.2.2 hx
  · rw [hdd] at hD
    simp only [wfDue] at hD
    have hps := dueShape_parts hD
    rw [show t.title ++ segs t = (t.title ++ catSeg t ++ effSeg t ++ pctSeg t ++ [' ']) ++
        ('^' :: (d ++ braceSeg t)) from by
      rw [segs, dueSeg_some hdd (by intro h0; rw [h0] at hps; simp at hps)]; simp]
    rw [search_append_none _ _ (guards_due (fun hx => by
      simp only [List.mem_append, List.mem_singleton] at hx
      rcases hx with (((hx | hx) | hx) | hx) | hx
      · exact hns.2.2.2.1 hx
      · exact (catSeg_sigils hC).2.2.1 hx
      · exact (effSeg_sigils hE).2.2.1 hx
      · exact (pctSeg_sigils hF).2.2.1 hx
      · exact absurd hx (by decide)))]
    rw [search_cons_some (tryDue_fire hD)]

theorem search_brace {t : PTask} (hT : wfTitle t.title = true) (hC : wfCat t.category = true)
    (hE : wfEff t.effort = true) (hF : wfFr t.friction = true)
    (hD : wfDue t.due_date = true) (hA : wfCompl t.completed_at = true) :
    search tryBrace (pstrip (t.title ++ segs t)) = t.completed_at := by
  obtain ⟨hTs, hTp, _, _⟩ := wfTitle_parts hT
  have hns := noSigil_not_mem hTs
  rw [pstripZ_eq_lstrip hTp (rstrip_segs hC hE hF hD hA), search_lstrip spguard_brace]
  rcases hca : t.completed_at with _ | c
  · refine search_none _ (guards_brace (fun hx => ?_))
    simp only [List.mem_append] at hx
    rcases hx with hx | hx
    · exact hns.2.2.2.2 hx
    · rcases mem_segs_cases hx with hx | hx | hx | hx | hx
      · exact (catSeg_sigils hC).2.2.2 hx
      · exact (effSeg_sigils hE).2.2.2 hx
      · exact (pctSeg_sigils hF).2.2.2 hx
      · exact (dueSeg_sigils hD).2.2.2 hx
      · rw [braceSeg_none hca] at hx; cases hx
  · rw [hca] at hA
    obtain ⟨hne, _, hnob, _⟩ := wfCompl_parts hA
    have hnob2 : ∀ x ∈ c, x ≠ '}' := by
      intro x hx he
      subst he
      have h0 : '}' ∈ c ↔ c.contains '}' = true := by
        simp [List.contains]
      rw [h0, hnob] at hx
      cases hx
    rw [show t.title ++ segs t =
        (t.title ++ catSeg t ++ effSeg t ++ pctSeg t ++ dueSeg t ++ [' ']) ++
        ('{' :: (c ++ '}' :: [])) from by
      rw [segs, braceSeg_some hca hne]; simp]
    rw [search_append_none _ _ (guards_brace (fun hx => by
      simp only [List.mem_append, List.mem_singleton] at hx
      rcases hx with ((((hx | hx) | hx) | hx) | hx) | hx
      · exact hns.2.2.2.2 hx
      · exact (catSeg_sigils hC).2.2.2 hx
      · exact (effSeg_sigils hE).2.2.2 hx
      · exact (pctSeg_sigils hF).2.2.2 hx
      · exact (dueSeg_sigils hD).2.2.2 hx
      · exact absurd hx (by decide)))]
    rw [search_cons_some (tryBrace_fire hne hnob2)]

theorem rstrip_tail {c : Char} {body : List Char} (h : rstrip (c :: body) = c :: body) :
    rstrip body = body := by
  rw [rstrip_cons] at h
  by_cases hb : rstrip body = []
  · rw [if_pos hb] at h
    cases hc : pySpace c with
    | true => rw [hc] at h; simp at h
    | false =>
      rw [hc] at h
      rw [if_neg (by simp)] at h
      have hbody : body = [] := by
        have h2 := congrArg List.tail h
        simpa using h2
      rw [hbody]
      rfl
  · rw [if_neg hb] at h
    injection h with h1 h2

/-- The five-stage substitution chain of `parse_markdown_line` recovers
exactly the title of a wellformed task from its rendered content. -/
theorem title_chain {t : PTask} (hT : wfTitle t.title = true)
    (hC : wfCat t.category = true) (hE : wfEff t.effort = true)
    (hF : wfFr t.friction = true) (hD : wfDue t.due_date = true)
    (hA : wfCompl t.completed_at = true) :
    pstrip (subAll tryBrace (pstrip (subAll tryDue (pstrip (subAll tryPct
      (pstrip (subAll tryEff (pstrip (subAll tryCat
        (pstrip (t.title ++ segs t))))))))))) = t.title := by
  obtain ⟨hTs, hTp, _, _⟩ := wfTitle_parts hT
  have hns := noSigil_not_mem hTs
  have hfixC := rstrip_catSeg hC
  have hfixE := rstrip_effSeg hE
  have hfixP := rstrip_pctSeg hF
  have hfixD := rstrip_dueSeg hD
  have hfixB := rstrip_braceSeg hA
  have inv1 : ∃ j, pstrip (subAll tryCat (pstrip (t.title ++ segs t))) =
      pstrip (t.title ++ List.replicate j ' ' ++
        (effSeg t ++ (pctSeg t ++ (dueSeg t ++ braceSeg t)))) := by
    have hσR : '@' ∉ effSeg t ++ (pctSeg t ++ (dueSeg t ++ braceSeg t)) := by
      intro hx
      simp only [List.mem_append] at hx
      rcases hx with hx | hx | hx | hx
      · exact (effSeg_sigils hE).1 hx
      · exact (pctSeg_sigils hF).1 hx
      · exact (dueSeg_sigils hD).1 hx
      · exact (braceSeg_sigils hA).1 hx
    rcases hcat : t.category with _ | c
    · refine ⟨0, ?_⟩
      rw [show t.title ++ segs t = t.title ++ List.replicate 0 ' ' ++
          (effSeg t ++ (pctSeg t ++ (dueSeg t ++ braceSeg t))) from by
        rw [segs, catSeg_none hcat]; simp]
      exact stage_absent (fun c cs h => tryCat_guard h) (by decide) hns.1 hσR
    · rw [hcat] at hC
      simp only [wfCat, Bool.and_eq_true, decide_eq_true_eq] at hC
      have hR1 : effSeg t ++ (pctSeg t ++ (dueSeg t ++ braceSeg t)) = [] ∨
          (effSeg t ++ (pctSeg t ++ (dueSeg t ++ braceSeg t))).head? = some ' ' :=
        head_space_append (effSeg_head t) (head_space_append (pctSeg_head t)
          (head_space_append (dueSeg_head t) (braceSeg_head t)))
      rw [show t.title ++ segs t = t.title ++ List.replicate 0 ' ' ++
          (' ' :: ('@' :: c)) ++ (effSeg t ++ (pctSeg t ++ (dueSeg t ++ braceSeg t)))
          from by rw [segs, catSeg_some hcat hC.1]; simp]
      exact stage_present hTp hns.1 ⟨c, rfl⟩ (by decide)
        (rstrip_tail (by rw [← catSeg_some hcat hC.1]; exact hfixC))
        (rstrip_fix_append hfixE (rstrip_fix_append hfixP
          (rstrip_fix_append hfixD hfixB)))
        (tryCat_fire hC.1 hC.2 (fun x hx => by
          rcases hR1 with h0 | h0
          · rw [h0] at hx; cases hx
          · rw [h0] at hx
            have h1 := Option.some.inj hx
            subst h1
            decide))
        (fun c2 cs h => tryCat_guard h) hσR
  obtain ⟨j1, hs1⟩ := inv1
  have inv2 : ∃ j, pstrip (subAll tryEff (pstrip (subAll tryCat
      (pstrip (t.title ++ segs t))))) =
      pstrip (t.title ++ List.replicate j ' ' ++
        (pctSeg t ++ (dueSeg t ++ braceSeg t))) := by
    rw [hs1]
    have hσR : '!' ∉ pctSeg t ++ (dueSeg t ++ braceSeg t) := by
      intro hx
      simp only [List.mem_append] at hx
      rcases hx with hx | hx | hx
      · exact (pctSeg_sigils hF).2.1 hx
      · exact (dueSeg_sigils hD).2.1 hx
      · exact (braceSeg_sigils hA).2.1 hx
    rcases heff : t.effort with _ | e
    · refine ⟨j1, ?_⟩
      rw [show t.title ++ List.replicate j1 ' ' ++
          (effSeg t ++ (pctSeg t ++ (dueSeg t ++ braceSeg t))) =
          t.title ++ List.replicate j1 ' ' ++ (pctSeg t ++ (dueSeg t ++ braceSeg t))
          from by rw [effSeg_none heff]; simp]
      exact stage_absent (fun c cs h => tryEff_guard h) (by decide) hns.2.1 hσR
    · rw [heff] at hE
      simp only [wfEff] at hE
      obtain ⟨ds, u, rfl, hne, hdig, hu⟩ := effort_decomp hE
      rw [show t.title ++ List.replicate j1 ' ' ++
          (effSeg t ++ (pctSeg t ++ (dueSeg t ++ braceSeg t))) =
          t.title ++ List.replicate j1 ' ' ++ (' ' :: ('!' :: (ds ++ [u]))) ++
          (pctSeg t ++ (dueSeg t ++ braceSeg t)) from by
        rw [effSeg_some heff (by simp)]; simp]
      exact stage_present hTp hns.2.1 ⟨ds ++ [u], rfl⟩ (by decide)
        (rstrip_tail (by rw [← effSeg_some heff (by simp)]; exact hfixE))
        (rstrip_fix_append hfixP (rstrip_fix_append hfixD hfixB))
        (tryEff_fire hne hdig hu)
        (fun c2 cs h => tryEff_guard h) hσR
  obtain ⟨j2, hs2⟩ := inv2
  have inv3 : ∃ j, pstrip (subAll tryPct (pstrip (subAll tryEff (pstrip (subAll tryCat
      (pstrip (t.title ++ segs t))))))) =
      pstrip (t.title ++ List.replicate j ' ' ++ (dueSeg t ++ braceSeg t)) := by
    rw [hs2]
    have hσR : '%' ∉ dueSeg t ++ braceSeg t := by
      intro hx
      simp only [List.mem_append] at hx
      rcases hx with hx | hx
      · exact (dueSeg_sigils hD).2.2.1 hx
      · exact (braceSeg_sigils hA).2.2.1 hx
    rcases hfr : t.friction with _ | f
    · refine ⟨j2, ?_⟩
      rw [show t.title ++ List.replicate j2 ' ' ++
          (pctSeg t ++ (dueSeg t ++ braceSeg t)) =
          t.title ++ List.replicate j2 ' ' ++ (dueSeg t ++ braceSeg t) from by
        rw [pctSeg_none hfr]; simp]
      exact stage_absent (fun c cs h => tryPct_guard h) (by decide) hns.2.2.1 hσR
    · rw [hfr] at hF
      simp only [wfFr, decide_eq_true_eq] at hF
      obtain ⟨d, hrepr, hdig, _⟩ := pyIntRepr_small f hF.1 hF.2
      rw [show t.title ++ List.replicate j2 ' ' ++
          (pctSeg t ++ (dueSeg t ++ braceSeg t)) =
          t.title ++ List.replicate j2 ' ' ++ (' ' :: ('%' :: [d])) ++
          (dueSeg t ++ braceSeg t) from by
        rw [pctSeg_some hfr (by omega), hrepr]; simp]
      exact stage_present hTp hns.2.2.1 ⟨[d], rfl⟩ (by decide)
        (rstrip_tail (by rw [← hrepr, ← pctSeg_some hfr (by omega)]; exact hfixP))
        (rstrip_fix_append hfixD hfixB)
        (tryPct_fire hdig)
        (fun c2 cs h => tryPct_guard h) hσR
  obtain ⟨j3, hs3⟩ := inv3
  have inv4 : ∃ j, pstrip (subAll tryDue (pstrip (subAll tryPct (pstrip (subAll tryEff
      (pstrip (subAll tryCat (pstrip (t.title ++ segs t))))))))) =
      pstrip (t.title ++ List.replicate j ' ' ++ braceSeg t) := by
    rw [hs3]
    have hσR : '^' ∉ braceSeg t := (braceSeg_sigils hA).2.2.2
    rcases hdd : t.due_date with _ | d
    · refine ⟨j3, ?_⟩
      rw [show t.title ++ List.replicate j3 ' ' ++ (dueSeg t ++ braceSeg t) =
          t.title ++ List.replicate j3 ' ' ++ braceSeg t from by
        rw [dueSeg_none hdd]; simp]
      exact stage_absent (fun c cs h => tryDue_guard h) (by decide) hns.2.2.2.1 hσR
    · rw [hdd] at hD
      simp only [wfDue] at hD
      have hps := dueShape_parts hD
      have hdne : d ≠ [] := by intro h0; rw [h0] at hps; simp at hps
      rw [show t.title ++ List.replicate j3 ' ' ++ (dueSeg t ++ braceSeg t) =
          t.title ++ List.replicate j3 ' ' ++ (' ' :: ('^' :: d)) ++ braceSeg t from by
        rw [dueSeg_some hdd hdne]; simp]
      exact stage_present hTp hns.2.2.2.1 ⟨d, rfl⟩ (by decide)
        (rstrip_tail (by rw [← dueSeg_some hdd hdne]; exact hfixD))
        hfixB
        (tryDue_fire hD)
        (fun c2 cs h => tryDue_guard h) hσR
  obtain ⟨j4, hs4⟩ := inv4
  have inv5 : ∃ j, pstrip (subAll tryBrace (pstrip (subAll tryDue (pstrip (subAll tryPct
      (pstrip (subAll tryEff (pstrip (subAll tryCat
        (pstrip (t.title ++ segs t))))))))))) =
      pstrip (t.title ++ List.replicate j ' ' ++ ([] : List Char)) := by
    rw [hs4]
    rcases hca : t.completed_at with _ | c
    · refine ⟨j4, ?_⟩
      rw [show t.title ++ List.replicate j4 ' ' ++ braceSeg t =
          t.title ++ List.replicate j4 ' ' ++ ([] : List Char) from by
        rw [braceSeg_none hca]]
      exact stage_absent (fun c cs h => tryBrace_guard h) (by decide) hns.2.2.2.2
        (by simp)
    · rw [hca] at hA
      obtain ⟨hne, _, hnob, _⟩ := wfCompl_parts hA
      have hnob2 : ∀ x ∈ c, x ≠ '}' := by
        intro x hx he
        subst he
        have h0 : '}' ∈ c ↔ c.contains '}' = true := by simp [List.contains]
        rw [h0, hnob] at hx
        cases hx
      rw [show t.title ++ List.replicate j4 ' ' ++ braceSeg t =
          t.title ++ List.replicate j4 ' ' ++ (' ' :: ('{' :: (c ++ ['}']))) ++
          ([] : List Char) from by
        rw [braceSeg_some hca hne]; simp]
      exact stage_present hTp hns.2.2.2.2 ⟨c ++ ['}'], rfl⟩ (by decide)
        (rstrip_tail (by rw [← braceSeg_some hca hne]; exact hfixB))
        (by rfl)
        (by rw [List.append_nil]; exact tryBrace_fire hne hnob2)
        (fun c2 cs h => tryBrace_guard h) (by simp)
  obtain ⟨j5, hs5⟩ := inv5
  rw [hs5]
  rw [show t.title ++ List.replicate j5 ' ' ++ ([] : List Char) =
    t.title ++ List.replicate j5 ' ' from by simp]
  exact pstrip_title_pad hTp j5

theorem rstrip_cons_keep {c : Char} (hc : pySpace c = false) (X : List Char) :
    rstrip (c :: X) = c :: rstrip X := by
  rw [rstrip_cons]
  by_cases hX : rstrip X = []
  · rw [if_pos hX, hX, hc]
    simp
  · rw [if_neg hX]

theorem indent_of_rep {k : Nat} {A : List Char}
    (hA : ∀ c, A.head? = some c → pySpace c = false) :
    (List.replicate k ' ' ++ A).length - (lstrip (List.replicate k ' ' ++ A)).length
      = k := by
  rw [lstrip_replicate_space]
  have hlA : lstrip A = A := by
    cases A with
    | nil => rfl
    | cons a b => exact lstrip_cons_keep (hA a rfl) b
  rw [hlA]
  simp

theorem renderTaskLine_eq (t : PTask) (ind : Nat) :
    renderTaskLine t ind = List.replicate (2 * ind) ' ' ++
      ('-' :: ' ' :: ((if t.is_completed then '[' :: 'x' :: [']'] else '[' :: ' ' :: [']']) ++
        (' ' :: ((if t.is_idea then '?' :: [' '] else []) ++ (t.title ++ segs t))))) := by
  unfold renderTaskLine
  simp

theorem pstrip_render {t : PTask} (hTp : pstrip t.title = t.title)
    (hsegs : rstrip (segs t) = segs t) (ind : Nat) :
    pstrip (renderTaskLine t ind) =
      ('-' :: ' ' :: (if t.is_completed then '[' :: 'x' :: [']'] else '[' :: ' ' :: [']'])) ++
      rstrip (' ' :: ((if t.is_idea then '?' :: [' '] else []) ++ (t.title ++ segs t))) := by
  rw [renderTaskLine_eq]
  show rstrip (lstrip _) = _
  rw [lstrip_replicate_space, lstrip_cons_keep (by decide)]
  rw [show '-' :: ' ' :: ((if t.is_completed then '[' :: 'x' :: [']'] else '[' :: ' ' :: [']']) ++
      (' ' :: ((if t.is_idea then '?' :: [' '] else []) ++ (t.title ++ segs t)))) =
      ('-' :: ' ' :: (if t.is_completed then '[' :: 'x' :: [']'] else '[' :: ' ' :: [']'])) ++
      (' ' :: ((if t.is_idea then '?' :: [' '] else []) ++ (t.title ++ segs t))) from by simp]
  rw [rstrip_append_fix_left (by cases hic : t.is_completed <;> simp [hic] <;> decide)]

/-- `parse_markdown_line` inverts `task_to_markdown`'s single-line rendering
of a wellformed task, recovering every field and the indentation level. -/
theorem parseLine_render {t : PTask} (hwf : wfTask t = true) (ind n : Nat) :
    parseLine (renderTaskLine t ind) n = Except.ok (some (lineTask t n, ind)) := by
  obtain ⟨hT, hC, hE, hF, hD, hA, _⟩ := wfTask_parts hwf
  obtain ⟨hTs, hTp, _, hTq⟩ := wfTitle_parts hT
  have hsegs := rstrip_segs hC hE hF hD hA
  have hl := pstrip_render hTp hsegs ind
  have hind : ((renderTaskLine t ind).length - (lstrip (renderTaskLine t ind)).length) / 2
      = ind := by
    rw [renderTaskLine_eq t ind]
    rw [indent_of_rep (fun c hc => by
      simp only [List.head?_cons, Option.some.injEq] at hc
      rw [← hc]; decide)]
    exact Nat.mul_div_cancel_left ind (by norm_num)
  have hcat := search_cat hT hC hE hF hD hA
  have heff := search_eff hT hC hE hF hD hA
  have hpct := search_pct hT hC hE hF hD hA
  have hdue := search_due hT hC hE hF hD hA
  have hbra := search_brace hT hC hE hF hD hA
  have htit := title_chain hT hC hE hF hD hA
  have hhd := pstripZ_head hT hC hE hF hD hA
  simp only [parseLine, hind, hl]
  rcases hic : t.is_completed with _ | _ <;> rcases hidea : t.is_idea with _ | _ <;>
    simp only [Bool.false_eq_true, if_false, if_true, List.nil_append, List.cons_append]
  · -- not completed, not idea
    have hG : pstrip (rstrip (' ' :: (t.title ++ segs t))) = pstrip (t.title ++ segs t) := by
      rw [pstrip_rstrip]
      exact pstrip_cons_space (by decide) _
    rw [if_neg (by simp [List.isPrefixOf])]
    simp only [List.get?, List.drop]
    simp only [hG]
    rw [if_neg hhd, decide_eq_false hhd]
    rw [hcat, heff, hpct, hdue, hbra, htit]
    simp [lineTask, hic, hidea]
  · -- not completed, idea
    have hg0 : pstrip (rstrip (' ' :: '?' :: ' ' :: (t.title ++ segs t))) =
        '?' :: rstrip (' ' :: (t.title ++ segs t)) := by
      rw [pstrip_rstrip, pstrip_cons_space (by decide)]
      show rstrip (lstrip ('?' :: ' ' :: (t.title ++ segs t))) = _
      rw [lstrip_cons_keep (by decide), rstrip_cons_keep (by decide)]
    have hg1 : pstrip (List.drop 1 ('?' :: rstrip (' ' :: (t.title ++ segs t)))) =
        pstrip (t.title ++ segs t) := by
      show pstrip (rstrip (' ' :: (t.title ++ segs t))) = _
      rw [pstrip_rstrip]
      exact pstrip_cons_space (by decide) _
    rw [if_neg (by simp [List.isPrefixOf])]
    simp only [List.get?, List.drop]
    simp only [hg0]
    rw [if_pos (show ('?' :: rstrip (' ' :: (t.title ++ segs t))).head? = some '?' from rfl)]
    rw [decide_eq_true (show ('?' :: rstrip (' ' :: (t.title ++ segs t))).head? = some '?'
      from rfl)]
    simp only [hg1]
    rw [hcat, heff, hpct, hdue, hbra, htit]
    simp [lineTask, hic, hidea]
  · -- completed, not idea
    have hG : pstrip (rstrip (' ' :: (t.title ++ segs t))) = pstrip (t.title ++ segs t) := by
      rw [pstrip_rstrip]
      exact pstrip_cons_space (by decide) _
    rw [if_neg (by simp [List.isPrefixOf])]
    simp only [List.get?, List.drop]
    simp only [hG]
    rw [if_neg hhd, decide_eq_false hhd]
    rw [hcat, heff, hpct, hdue, hbra, htit]
    simp [lineTask, hic, hidea]
  · -- completed, idea
    have hg0 : pstrip (rstrip (' ' :: '?' :: ' ' :: (t.title ++ segs t))) =
        '?' :: rstrip (' ' :: (t.title ++ segs t)) := by
      rw [pstrip_rstrip, pstrip_cons_space (by decide)]
      show rstrip (lstrip ('?' :: ' ' :: (t.title ++ segs t))) = _
      rw [lstrip_cons_keep (by decide), rstrip_cons_keep (by decide)]
    have hg1 : pstrip (List.drop 1 ('?' :: rstrip (' ' :: (t.title ++ segs t)))) =
        pstrip (t.title ++ segs t) := by
      show pstrip (rstrip (' ' :: (t.title ++ segs t))) = _
      rw [pstrip_rstrip]
      exact pstrip_cons_space (by decide) _
    rw [if_neg (by simp [List.isPrefixOf])]
    simp only [List.get?, List.drop]
    simp only [hg0]
    rw [if_pos (show ('?' :: rstrip (' ' :: (t.title ++ segs t))).head? = some '?' from rfl)]
    rw [decide_eq_true (show ('?' :: rstrip (' ' :: (t.title ++ segs t))).head? = some '?'
      from rfl)]
    simp only [hg1]
    rw [hcat, heff, hpct, hdue, hbra, htit]
    simp [lineTask, hic, hidea]

/-! ## Lines of a serialized tree -/

theorem splitNl_no_nl {x : List Char} (h : '\n' ∉ x) : splitNl x = [x] := by
  induction x with
  | nil => rfl
  | cons c cs ih =>
    have hc : c ≠ '\n' := fun he => h (he ▸ List.mem_cons_self c cs)
    have ih2 := ih (fun hm => h (List.mem_cons_of_mem c hm))
    simp only [splitNl, if_neg hc, ih2]

theorem splitNl_append_nl {x : List Char} (r : List Char) (h : '\n' ∉ x) :
    splitNl (x ++ '\n' :: r) = x :: splitNl r := by
  induction x with
  | nil => simp [splitNl]
  | cons c cs ih =>
    have hc : c ≠ '\n' := fun he => h (he ▸ List.mem_cons_self c cs)
    have ih2 := ih (fun hm => h (List.mem_cons_of_mem c hm))
    simp only [List.cons_append, List.append_eq, splitNl, if_neg hc, ih2]

theorem joinNl_cons_of_ne {x : List Char} {L : List (List Char)} (h : L ≠ []) :
    joinNl (x :: L) = x ++ '\n' :: joinNl L := by
  cases L with
  | nil => exact absurd rfl h
  | cons y L2 => rfl

theorem splitNl_joinNl : ∀ (L : List (List Char)), (∀ l ∈ L, '\n' ∉ l) → L ≠ [] →
    splitNl (joinNl L) = L
  | [], _, h => absurd rfl h
  | [x], h, _ => splitNl_no_nl (h x (by simp))
  | x :: y :: L2, h, _ => by
    rw [joinNl_cons_of_ne (by simp)]
    rw [splitNl_append_nl _ (h x (by simp))]
    rw [splitNl_joinNl (y :: L2) (fun l hl => h l (List.mem_cons_of_mem x hl)) (by simp)]

theorem renderTask_eq (t : PTask) (d : Nat) :
    renderTask t d = renderTaskLine t d ::
      (t.subtasks.map (fun st => renderTask st (d + 1))).flatten := by
  rw [renderTask]
  congr 1
  exact congrArg List.flatten (List.attach_map_val t.subtasks (fun st => renderTask st (d + 1)))

theorem sizeT_eq (t : PTask) : sizeT t = 1 + sizeL t.subtasks := by
  rw [sizeT]
  unfold sizeL
  congr 1
  exact congrArg List.sum (List.attach_map_val t.subtasks sizeT)

theorem sizeL_nil : sizeL [] = 0 := rfl

theorem sizeL_cons (t : PTask) (ts : List PTask) :
    sizeL (t :: ts) = sizeT t + sizeL ts := by
  simp [sizeL]

theorem sizeT_pos (t : PTask) : 1 ≤ sizeT t := by
  rw [sizeT_eq]; omega

theorem renderTask_length (t : PTask) (d : Nat) :
    (renderTask t d).length = sizeT t := by
  rw [renderTask_eq, sizeT_eq]
  simp only [List.length_cons]
  rw [List.length_flatten, List.map_map]
  have h2 : t.subtasks.map (List.length ∘ fun st => renderTask st (d + 1)) =
      t.subtasks.map sizeT := by
    refine List.map_congr_left (fun st hst => ?_)
    exact renderTask_length st (d + 1)
  rw [h2]
  unfold sizeL
  omega
termination_by sizeOf t
decreasing_by
  cases t with
  | mk i ti ii ic c e f dd ca p sub =>
    simp only [PTask.subtasks] at hst
    calc sizeOf st < sizeOf sub := List.sizeOf_lt_of_mem hst
    _ < sizeOf (PTask.mk i ti ii ic c e f dd ca p sub) := by
        simp only [PTask.mk.sizeOf_spec]; omega

theorem wfList_mem : ∀ {ts : List PTask}, wfList ts = true → ∀ {t}, t ∈ ts →
    wfTask t = true
  | [], _, _, h => by cases h
  | t0 :: rest, h, t, hm => by
    unfold wfList at h
    simp only [Bool.and_eq_true] at h
    rcases List.mem_cons.mp hm with rfl | hm2
    · exact h.1
    · exact wfList_mem h.2 hm2

theorem mem_contains_iff (c : Char) (l : List Char) :
    c ∈ l ↔ l.contains c = true := by
  simp [List.contains]

theorem nl_braceSeg {t : PTask} (h : wfCompl t.completed_at = true) :
    '\n' ∉ braceSeg t := by
  intro hx
  cases hc : t.completed_at with
  | none => rw [braceSeg_none hc] at hx; cases hx
  | some c =>
    rw [hc] at h
    obtain ⟨hne, _, _, hnl⟩ := wfCompl_parts h
    rw [braceSeg_some hc hne] at hx
    simp only [List.mem_cons, List.mem_append, List.mem_singleton] at hx
    rcases hx with h1 | h1 | h1 | h1
    · exact absurd h1 (by decide)
    · exact absurd h1 (by decide)
    · rw [mem_contains_iff, hnl] at h1; cases h1
    · exact absurd h1 (by decide)

theorem nl_renderTaskLine {t : PTask} (hwf : wfTask t = true) (d : Nat) :
    '\n' ∉ renderTaskLine t d := by
  obtain ⟨hT, hC, hE, hF, hD, hA, _⟩ := wfTask_parts hwf
  obtain ⟨_, _, hTn, _⟩ := wfTitle_parts hT
  intro hx
  rw [renderTaskLine_eq] at hx
  simp only [List.mem_append, List.mem_cons, List.mem_replicate] at hx
  rcases hx with h1 | h1 | h1 | h1
  · exact absurd h1.2 (by decide)
  · exact absurd h1 (by decide)
  · exact absurd h1 (by decide)
  rcases h1 with h1 | h1
  · rcases hic : t.is_completed with _ | _ <;> rw [hic] at h1 <;> revert h1 <;> decide
  rcases h1 with h1 | h1
  · exact absurd h1 (by decide)
  rcases h1 with h1 | h1
  · rcases hid : t.is_idea with _ | _ <;> rw [hid] at h1 <;> revert h1 <;> decide
  rcases h1 with h1 | h1
  · rw [mem_contains_iff, hTn] at h1; cases h1
  · rcases mem_segs_cases h1 with h2 | h2 | h2 | h2 | h2
    · rcases mem_catSeg hC _ h2 with h3 | h3 | h3 <;> revert h3 <;> decide
    · rcases mem_effSeg hE _ h2 with h3 | h3 | h3 | h3 | h3 | h3 <;> revert h3 <;> decide
    · rcases mem_pctSeg hF _ h2 with h3 | h3 | h3 <;> revert h3 <;> decide
    · rcases mem_dueSeg hD _ h2 with h3 | h3 | h3 | h3 <;> revert h3 <;> decide
    · exact nl_braceSeg hA h2

theorem nl_renderTask : ∀ (t : PTask), wfTask t = true → ∀ (d : Nat),
    ∀ l ∈ renderTask t d, '\n' ∉ l := by
  intro t hwf d l hl
  rw [renderTask_eq] at hl
  rcases List.mem_cons.mp hl with rfl | hl2
  · exact nl_renderTaskLine hwf d
  · rw [List.mem_flatten] at hl2
    obtain ⟨lines, hlines, hlmem⟩ := hl2
    rw [List.mem_map] at hlines
    obtain ⟨st, hst, rfl⟩ := hlines
    have hstwf : wfTask st = true := wfList_mem (wfTask_parts hwf).2.2.2.2.2.2 hst
    exact nl_renderTask st hstwf (d + 1) l hlmem
termination_by t => sizeOf t
decreasing_by
  cases t with
  | mk i ti ii ic c e f dd ca p sub =>
    simp only [PTask.subtasks] at hst
    calc sizeOf st < sizeOf sub := List.sizeOf_lt_of_mem hst
    _ < sizeOf (PTask.mk i ti ii ic c e f dd ca p sub) := by
        simp only [PTask.mk.sizeOf_spec]; omega

/-! ## Paths, stacks and section plumbing -/

theorem list_concat_of_ne {α : Type} {Y : List α} (h : Y ≠ []) :
    ∃ v c, Y = v ++ [c] := by
  induction Y with
  | nil => exact absurd rfl h
  | cons a b ih =>
    cases b with
    | nil => exact ⟨[], a, rfl⟩
    | cons a2 b2 =>
      obtain ⟨v, c, hv⟩ := ih (by simp)
      exact ⟨a :: v, c, by rw [hv]; rfl⟩

theorem subtasks_withSubtasks (t : PTask) (s : List PTask) :
    (t.withSubtasks s).subtasks = s := by cases t; rfl

theorem withSubtasks_withSubtasks (t : PTask) (a b : List PTask) :
    ((t.withSubtasks a).withSubtasks b) = t.withSubtasks b := by cases t; rfl

theorem withSubtasks_self (t : PTask) : t.withSubtasks t.subtasks = t := by cases t; rfl

theorem id_withSubtasks (t : PTask) (s : List PTask) : (t.withSubtasks s).id = t.id := by
  cases t; rfl

theorem id_withParent (t : PTask) (p : Option Nat) : (t.withParent p).id = t.id := by
  cases t; rfl

theorem subtasks_withParent (t : PTask) (p : Option Nat) :
    (t.withParent p).subtasks = t.subtasks := by cases t; rfl

theorem modifyIdx_append_length (L : List PTask) (td : PTask) (f : PTask → PTask) :
    modifyIdx (L ++ [td]) L.length f = L ++ [f td] := by
  induction L with
  | nil => rfl
  | cons x xs ih => simp only [List.cons_append, List.append_eq, List.length_cons,
      modifyIdx, ih]

theorem get?_append_length (L : List PTask) (td : PTask) :
    (L ++ [td]).get? L.length = some td := by
  induction L with
  | nil => rfl
  | cons x xs ih => simpa only [List.cons_append, List.length_cons, List.get?] using ih

theorem modifyIdx_modifyIdx (l : List PTask) (i : Nat) (f g : PTask → PTask) :
    modifyIdx (modifyIdx l i f) i g = modifyIdx l i (fun x => g (f x)) := by
  induction l generalizing i with
  | nil => rfl
  | cons x xs ih =>
    cases i with
    | zero => rfl
    | succ n => simp only [modifyIdx, ih]

theorem modifyIdx_congr_at {l : List PTask} {i : Nat} {nd : PTask}
    (h : l.get? i = some nd) {f g : PTask → PTask} (hfg : f nd = g nd) :
    modifyIdx l i f = modifyIdx l i g := by
  induction l generalizing i with
  | nil => rfl
  | cons x xs ih =>
    cases i with
    | zero =>
      simp only [List.get?] at h
      obtain rfl := Option.some.inj h
      simp only [modifyIdx, hfg]
    | succ n =>
      simp only [List.get?] at h
      simp only [modifyIdx, ih h]

theorem modifyIdx_eq_self {l : List PTask} {i : Nat} {nd : PTask}
    (h : l.get? i = some nd) {f : PTask → PTask} (hf : f nd = nd) :
    modifyIdx l i f = l := by
  induction l generalizing i with
  | nil => rfl
  | cons x xs ih =>
    cases i with
    | zero =>
      simp only [List.get?] at h
      obtain rfl := Option.some.inj h
      simp only [modifyIdx, hf]
    | succ n =>
      simp only [List.get?] at h
      simp only [modifyIdx, ih h]

theorem get?_modifyIdx_self {l : List PTask} {i : Nat} {nd : PTask}
    (h : l.get? i = some nd) (f : PTask → PTask) :
    (modifyIdx l i f).get? i = some (f nd) := by
  induction l generalizing i with
  | nil => cases h
  | cons x xs ih =>
    cases i with
    | zero =>
      simp only [List.get?] at h
      obtain rfl := Option.some.inj h
      rfl
    | succ n =>
      simp only [List.get?] at h
      simp only [modifyIdx, List.get?, ih h]

theorem setListAt_appendAt {L : List PTask} {P : List Nat} {M : List PTask}
    (hM : getListAt L P = some M) (td : PTask) (Z : List PTask) :
    setListAt (appendAt L P td) (P ++ [M.length]) Z =
      setListAt L P (M ++ [td.withSubtasks Z]) := by
  induction P generalizing L with
  | nil =>
    simp only [getListAt] at hM
    obtain rfl := Option.some.inj hM
    show setListAt (L ++ [td]) (L.length :: []) Z = L ++ [td.withSubtasks Z]
    simp only [setListAt]
    exact modifyIdx_append_length L td _
  | cons i P2 ih =>
    cases hnd : L.get? i with
    | none =>
      simp only [getListAt, hnd] at hM
      exact Option.noConfusion hM
    | some nd =>
      simp only [getListAt, hnd] at hM
      show setListAt (modifyIdx L i _) (i :: (P2 ++ [M.length])) Z = modifyIdx L i _
      simp only [setListAt, appendAt]
      rw [modifyIdx_modifyIdx]
      refine modifyIdx_congr_at hnd ?_
      simp only [subtasks_withSubtasks, withSubtasks_withSubtasks]
      rw [ih hM]

theorem getListAt_appendAt_new {L : List PTask} {P : List Nat} {M : List PTask}
    (hM : getListAt L P = some M) (td : PTask) :
    getListAt (appendAt L P td) (P ++ [M.length]) = some td.subtasks ∧
    getAtPath (appendAt L P td) (P ++ [M.length]) = some td := by
  induction P generalizing L with
  | nil =>
    simp only [getListAt] at hM
    obtain rfl := Option.some.inj hM
    have hget : (L ++ [td]).get? L.length = some td := get?_append_length L td
    constructor
    · show getListAt (L ++ [td]) (L.length :: []) = some td.subtasks
      simp only [getListAt, hget]
    · show getAtPath (L ++ [td]) [L.length] = some td
      simp only [getAtPath, hget]
  | cons i P2 ih =>
    cases hnd : L.get? i with
    | none =>
      simp only [getListAt, hnd] at hM
      exact Option.noConfusion hM
    | some nd =>
      simp only [getListAt, hnd] at hM
      have hget : (appendAt L (i :: P2) td).get? i =
          some (nd.withSubtasks (appendAt nd.subtasks P2 td)) := by
        simp only [appendAt]
        exact get?_modifyIdx_self hnd _
      obtain ⟨ih1, ih2⟩ := ih hM
      constructor
      · show getListAt (appendAt L (i :: P2) td) (i :: (P2 ++ [M.length])) = some td.subtasks
        cases hP2 : P2 ++ [M.length] with
        | nil => simp at hP2
        | cons q qs =>
          rw [← hP2]
          simp only [getListAt, hget, subtasks_withSubtasks]
          exact ih1
      · show getAtPath (appendAt L (i :: P2) td) (i :: (P2 ++ [M.length])) = some td
        cases hP2 : P2 ++ [M.length] with
        | nil => simp at hP2
        | cons q qs =>
          rw [← hP2]
          rw [show getAtPath (appendAt L (i :: P2) td) (i :: (P2 ++ [M.length])) =
            match (appendAt L (i :: P2) td).get? i with
            | none => none
            | some t2 => getAtPath t2.subtasks (P2 ++ [M.length]) from by
              rw [hP2]; rfl]
          simp only [hget, subtasks_withSubtasks]
          exact ih2

theorem getListAt_setListAt {L : List PTask} {P : List Nat} {M : List PTask}
    (hM : getListAt L P = some M) (Z : List PTask) :
    getListAt (setListAt L P Z) P = some Z := by
  induction P generalizing L with
  | nil => rfl
  | cons i P2 ih =>
    cases hnd : L.get? i with
    | none =>
      simp only [getListAt, hnd] at hM
      exact Option.noConfusion hM
    | some nd =>
      simp only [getListAt, hnd] at hM
      have hget : (setListAt L (i :: P2) Z).get? i =
          some (nd.withSubtasks (setListAt nd.subtasks P2 Z)) := by
        simp only [setListAt]
        exact get?_modifyIdx_self hnd _
      simp only [getListAt, hget, subtasks_withSubtasks]
      exact ih hM

theorem setListAt_getListAt_self {L : List PTask} {P : List Nat} {M : List PTask}
    (hM : getListAt L P = some M) : setListAt L P M = L := by
  induction P generalizing L with
  | nil =>
    simp only [getListAt] at hM
    obtain rfl := Option.some.inj hM
    rfl
  | cons i P2 ih =>
    cases hnd : L.get? i with
    | none =>
      simp only [getListAt, hnd] at hM
      exact Option.noConfusion hM
    | some nd =>
      simp only [getListAt, hnd] at hM
      simp only [setListAt]
      refine modifyIdx_eq_self hnd ?_
      rw [ih hM, withSubtasks_self]

theorem chainOf_nil : chainOf [] = [] := rfl

theorem chainOf_length (P : List Nat) : (chainOf P).length = P.length := by
  simp [chainOf]

theorem chainOf_snoc (P : List Nat) (i : Nat) :
    chainOf (P ++ [i]) = chainOf P ++ [P ++ [i]] := by
  unfold chainOf
  rw [show (P ++ [i]).length = P.length + 1 from by simp]
  rw [List.range_succ, List.map_append]
  congr 1
  · refine List.map_congr_left (fun k hk => ?_)
    rw [List.mem_range] at hk
    rw [List.take_append_of_le_length (by omega)]
  · simp only [List.map_cons, List.map_nil]
    congr 1
    rw [show P.length + 1 = (P ++ [i]).length from by simp, List.take_length]

theorem chainOf_getLast {P : List Nat} (h : P ≠ []) :
    (chainOf P).getLast? = some P := by
  obtain ⟨v, c, rfl⟩ := list_concat_of_ne h
  rw [chainOf_snoc]
  exact List.getLast?_concat _

theorem chainOf_take (P : List Nat) (k : Nat) (hk : k ≤ P.length) :
    (chainOf P).take k = chainOf (P.take k) := by
  unfold chainOf
  rw [List.length_take, Nat.min_eq_left hk]
  rw [← List.map_take, List.take_range, Nat.min_eq_left hk]
  refine List.map_congr_left (fun i hi => ?_)
  rw [List.mem_range] at hi
  rw [List.take_take, Nat.min_eq_left (by omega)]

theorem getSec_setSec_same {s : Sections} {name : List Char}
    (h : name = "today".toList ∨ name = "ideas".toList ∨ name = "backlog".toList)
    (X : List PTask) : getSec (setSec s name X) name = some X := by
  rcases h with rfl | rfl | rfl <;> rfl

theorem attachTask_zero (secs : Sections) (cur : List Char) (stack0 : List (List Nat))
    (td : PTask) {L : List PTask} (hsec : getSec secs cur = some L) :
    attachTask secs cur stack0 td 0 =
      .ok (setSec secs cur (L ++ [td]), [[L.length]]) := by
  simp [attachTask, hsec]

theorem attachTask_deep {secs : Sections} {cur : List Char} {stack0 : List (List Nat)}
    {P : List Nat} {L M : List PTask} {par : PTask} (td : PTask) (d : Nat) (hd : 0 < d)
    (hstack : stack0.take d = chainOf P) (hlen : P.length = d)
    (hsec : getSec secs cur = some L)
    (hpar : getAtPath L P = some par) (hM : getListAt L P = some M) :
    attachTask secs cur stack0 td d =
      .ok (setSec secs cur (appendAt L P (td.withParent (some par.id))),
        chainOf P ++ [P ++ [M.length]]) := by
  simp only [attachTask, hstack]
  rw [if_pos hd, chainOf_getLast (by intro h0; rw [h0] at hlen; simp at hlen; omega)]
  simp only [hsec, hpar, hM]
  rw [if_pos (by rw [chainOf_length, hlen])]

theorem parseStep_task {t : PTask} (hwf : wfTask t = true) (secs : Sections)
    (cur : List Char) (stack : List (List Nat)) (d n : Nat) (hcur_ne : cur ≠ []) :
    parseStep ⟨secs, some cur, stack⟩ (renderTaskLine t d) n =
      match attachTask secs cur stack (lineTask t n) d with
      | .error e => .error e
      | .ok (secs2, stack2) => .ok ⟨secs2, some cur, stack2⟩ := by
  obtain ⟨hT, hC, hE, hF, hD, hA, _⟩ := wfTask_parts hwf
  obtain ⟨_, hTp, _, _⟩ := wfTitle_parts hT
  have hl := pstrip_render hTp (rstrip_segs hC hE hF hD hA) d
  have hPL := parseLine_render hwf d n
  cases hic : t.is_completed with
  | false =>
    rw [hic] at hl
    simp only [Bool.false_eq_true, if_false] at hl
    simp only [parseStep]
    rw [if_neg (by rw [hl]; simp [List.isPrefixOf])]
    rw [if_neg hcur_ne]
    rw [if_pos (by rw [hl]; simp [List.isPrefixOf])]
    rw [hPL]
  | true =>
    rw [hic] at hl
    simp only [if_true] at hl
    simp only [parseStep]
    rw [if_neg (by rw [hl]; simp [List.isPrefixOf])]
    rw [if_neg hcur_ne]
    rw [if_pos (by rw [hl]; simp [List.isPrefixOf])]
    rw [hPL]

theorem parseLinesAux_append (st : PState) (n : Nat) :
    ∀ (A B : List (List Char)),
      parseLinesAux st n (A ++ B) =
        match parseLinesAux st n A with
        | .error e => .error e
        | .ok st2 => parseLinesAux st2 (n + A.length) B := by
  intro A
  induction A generalizing st n with
  | nil => intro B; simp [parseLinesAux]
  | cons l A2 ih =>
    intro B
    simp only [List.cons_append, parseLinesAux]
    cases parseStep st l n with
    | error e => rfl
    | ok st2 =>
      dsimp only [List.append_eq]
      rw [ih st2 (n + 1)]
      cases parseLinesAux st2 (n + 1) A2 with
      | error e => rfl
      | ok st3 =>
        dsimp only [List.length_cons]
        rw [show n + 1 + A2.length = n + (A2.length + 1) from by omega]

/-! ## Renumbering is semantically invisible -/

theorem renumList_nil (n : Nat) (pid : Option Nat) : renumList [] n pid = [] := by
  rw [renumList]

theorem renumList_cons (t : PTask) (ts : List PTask) (n : Nat) (pid : Option Nat) :
    renumList (t :: ts) n pid = renum t n pid :: renumList ts (n + sizeT t) pid := by
  rw [renumList]

theorem renum_as_withSubtasks (t : PTask) (n : Nat) (pid : Option Nat) :
    renum t n pid = ((lineTask t n).withParent pid).withSubtasks
      (renumList t.subtasks (n + 1) (some n)) := by
  cases t with
  | mk i ti ii ic c e f dd ca p sub =>
    rw [renum]
    rfl

mutual

theorem semEq_renum (t : PTask) : ∀ (n : Nat) (pid : Option Nat),
    semEq (renum t n pid) t = true := by
  intro n pid
  cases t with
  | mk i ti ii ic c e f dd ca p sub =>
    rw [show renum (PTask.mk i ti ii ic c e f dd ca p sub) n pid =
        PTask.mk n ti ii ic c e f dd ca pid
          (renumList sub (n + 1) (some n)) from by rw [renum]; rfl]
    rw [semEq]
    dsimp only [PTask.title, PTask.is_idea, PTask.is_completed, PTask.category,
      PTask.effort, PTask.friction, PTask.due_date, PTask.completed_at, PTask.subtasks]
    rw [semEqList_renumList sub (n + 1) (some n)]
    simp
termination_by sizeOf t
decreasing_by
  simp only [PTask.mk.sizeOf_spec]
  omega

theorem semEqList_renumList (ts : List PTask) : ∀ (n : Nat) (pid : Option Nat),
    semEqList (renumList ts n pid) ts = true := by
  intro n pid
  cases ts with
  | nil => rw [renumList_nil]; simp [semEqList]
  | cons t rest =>
    rw [renumList_cons, semEqList]
    rw [semEq_renum t n pid, semEqList_renumList rest (n + sizeT t) pid]
    rfl
termination_by sizeOf ts
decreasing_by
  all_goals simp only [List.cons.sizeOf_spec]
  all_goals omega

end

theorem semEqSections_renum (s : Sections) (n1 n2 n3 : Nat) :
    semEqSections ⟨renumList s.today n1 none, renumList s.ideas n2 none,
      renumList s.backlog n3 none⟩ s = true := by
  unfold semEqSections
  show (semEqList (renumList s.today n1 none) s.today &&
    semEqList (renumList s.ideas n2 none) s.ideas &&
    semEqList (renumList s.backlog n3 none) s.backlog) = true
  rw [semEqList_renumList, semEqList_renumList, semEqList_renumList]
  rfl

theorem setSec_getSec_self {secs : Sections} {cur : List Char} {L : List PTask}
    (hname : cur = "today".toList ∨ cur = "ideas".toList ∨ cur = "backlog".toList)
    (hsec : getSec secs cur = some L) : setSec secs cur L = secs := by
  cases secs with
  | mk td id bl =>
    rcases hname with rfl | rfl | rfl <;>
    · obtain rfl := Option.some.inj hsec.symm
      rfl

theorem setSec_setSec {secs : Sections} {cur : List Char}
    (hname : cur = "today".toList ∨ cur = "ideas".toList ∨ cur = "backlog".toList)
    (a b : List PTask) : setSec (setSec secs cur a) cur b = setSec secs cur b := by
  cases secs with
  | mk td id bl => rcases hname with rfl | rfl | rfl <;> rfl

theorem setListAt_setListAt {L : List PTask} {P : List Nat} {M : List PTask}
    (hM : getListAt L P = some M) (Z Z2 : List PTask) :
    setListAt (setListAt L P Z) P Z2 = setListAt L P Z2 := by
  induction P generalizing L with
  | nil => rfl
  | cons i P2 ih =>
    cases hnd : L.get? i with
    | none =>
      simp only [getListAt, hnd] at hM
      exact Option.noConfusion hM
    | some nd =>
      simp only [getListAt, hnd] at hM
      simp only [setListAt]
      rw [modifyIdx_modifyIdx]
      refine modifyIdx_congr_at hnd ?_
      simp only [subtasks_withSubtasks, withSubtasks_withSubtasks]
      rw [ih hM]

theorem getAtPath_setListAt {L : List PTask} {P : List Nat} {M : List PTask}
    {par : PTask} (hM : getListAt L P = some M) (hpar : getAtPath L P = some par)
    (Z : List PTask) :
    getAtPath (setListAt L P Z) P = some (par.withSubtasks Z) := by
  induction P generalizing L with
  | nil =>
    simp only [getAtPath] at hpar
    exact Option.noConfusion hpar
  | cons i P2 ih =>
    cases hnd : L.get? i with
    | none =>
      simp only [getListAt, hnd] at hM
      exact Option.noConfusion hM
    | some nd =>
      simp only [getListAt, hnd] at hM
      have hget : (setListAt L (i :: P2) Z).get? i =
          some (nd.withSubtasks (setListAt nd.subtasks P2 Z)) := by
        simp only [setListAt]
        exact get?_modifyIdx_self hnd _
      cases hP2 : P2 with
      | nil =>
        subst hP2
        simp only [getAtPath, hnd] at hpar
        obtain rfl := Option.some.inj hpar
        show getAtPath (setListAt L [i] Z) [i] = some (nd.withSubtasks Z)
        simp only [getAtPath]
        rw [show setListAt L [i] Z = modifyIdx L i
          (fun nd2 => nd2.withSubtasks (setListAt nd2.subtasks [] Z)) from rfl]
        rw [get?_modifyIdx_self hnd]
        rfl
      | cons q qs =>
        subst hP2
        have hpar2 : getAtPath nd.subtasks (q :: qs) = some par := by
          rw [show getAtPath L (i :: q :: qs) = match L.get? i with
            | none => none
            | some t2 => getAtPath t2.subtasks (q :: qs) from rfl] at hpar
          rw [hnd] at hpar
          exact hpar
        rw [show getAtPath (setListAt L (i :: q :: qs) Z) (i :: q :: qs) =
          match (setListAt L (i :: q :: qs) Z).get? i with
          | none => none
          | some t2 => getAtPath t2.subtasks (q :: qs) from rfl]
        rw [hget]
        simp only [subtasks_withSubtasks]
        exact ih hM hpar2

theorem lineTask_withParent_none (t : PTask) (n : Nat) :
    (lineTask t n).withParent none = lineTask t n := rfl

theorem lineTask_withParent_subtasks (t : PTask) (n : Nat) (pid : Option Nat) :
    ((lineTask t n).withParent pid).subtasks = [] := rfl

theorem lineTask_withParent_id (t : PTask) (n : Nat) (pid : Option Nat) :
    ((lineTask t n).withParent pid).id = n := rfl

/-- Base case of the forest lemma: no tasks, nothing changes. -/
theorem process_forest_nil (d : Nat) (P : List Nat) (secs : Sections)
    (cur : List Char) (L M : List PTask) (stack : List (List Nat)) (n : Nat)
    (rest : List (List Char)) (pid : Option Nat)
    (hname : cur = "today".toList ∨ cur = "ideas".toList ∨ cur = "backlog".toList)
    (hsec : getSec secs cur = some L)
    (hM : getListAt L P = some M)
    (hstack : stack.take d = chainOf P)
    (hdlen : d ≤ stack.length) :
    ∃ stack2,
      parseLinesAux ⟨secs, some cur, stack⟩ n
          ((([] : List PTask).map (fun t => renderTask t d)).flatten ++ rest) =
        parseLinesAux ⟨setSec secs cur (setListAt L P (M ++ renumList [] n pid)),
          some cur, stack2⟩ (n + sizeL []) rest ∧
      stack2.take d = chainOf P ∧ d ≤ stack2.length := by
  refine ⟨stack, ?_, hstack, hdlen⟩
  rw [renumList_nil, List.append_nil, setListAt_getListAt_self hM,
    setSec_getSec_self hname hsec]
  simp only [List.map_nil, List.flatten_nil, List.nil_append, sizeL_nil, Nat.add_zero]

/-- The `parse_markdown` loop on the rendered lines of a wellformed forest
appends exactly the renumbered forest at the current insertion path. -/
theorem process_forest : ∀ (fuel : Nat) (ts : List PTask) (d : Nat) (P : List Nat)
    (secs : Sections) (cur : List Char) (L M : List PTask) (stack : List (List Nat))
    (n : Nat) (rest : List (List Char)) (pid : Option Nat),
    sizeL ts ≤ fuel →
    wfList ts = true →
    (cur = "today".toList ∨ cur = "ideas".toList ∨ cur = "backlog".toList) →
    getSec secs cur = some L →
    P.length = d →
    getListAt L P = some M →
    (d = 0 → pid = none) →
    (0 < d → ∃ par, getAtPath L P = some par ∧ pid = some par.id) →
    stack.take d = chainOf P →
    d ≤ stack.length →
    ∃ stack2,
      parseLinesAux ⟨secs, some cur, stack⟩ n
          ((ts.map (fun t => renderTask t d)).flatten ++ rest) =
        parseLinesAux ⟨setSec secs cur (setListAt L P (M ++ renumList ts n pid)),
          some cur, stack2⟩ (n + sizeL ts) rest ∧
      stack2.take d = chainOf P ∧ d ≤ stack2.length := by
  intro fuel
  induction fuel with
  | zero =>
    intro ts d P secs cur L M stack n rest pid hfuel hwf hname hsec hlen hM hpid0 hpidS
      hstack hdlen
    have hts : ts = [] := by
      cases ts with
      | nil => rfl
      | cons t ts2 =>
        rw [sizeL_cons] at hfuel
        have := sizeT_pos t
        omega
    subst hts
    exact process_forest_nil d P secs cur L M stack n rest pid hname hsec hM hstack hdlen
  | succ fuel2 ih =>
    intro ts d P secs cur L M stack n rest pid hfuel hwf hname hsec hlen hM hpid0 hpidS
      hstack hdlen
    cases ts with
    | nil =>
      exact process_forest_nil d P secs cur L M stack n rest pid hname hsec hM hstack hdlen
    | cons t ts2 =>
    have hfuel2 : sizeT t + sizeL ts2 ≤ fuel2 + 1 := by rw [sizeL_cons] at hfuel; omega
    have hfsub : sizeL t.subtasks ≤ fuel2 := by
      have := sizeT_eq t
      omega
    have hfsib : sizeL ts2 ≤ fuel2 := by
      have := sizeT_pos t
      omega
    have hwt : wfTask t = true := by
      unfold wfList at hwf; simp only [Bool.and_eq_true] at hwf; exact hwf.1
    have hwts2 : wfList ts2 = true := by
      unfold wfList at hwf; simp only [Bool.and_eq_true] at hwf; exact hwf.2
    have hcur_ne : cur ≠ [] := by rcases hname with rfl | rfl | rfl <;> decide
    rw [List.map_cons, List.flatten_cons]
    rw [show (renderTask t d ++ (ts2.map (fun t2 => renderTask t2 d)).flatten) ++ rest =
        renderTaskLine t d :: ((t.subtasks.map (fun st => renderTask st (d + 1))).flatten ++
          ((ts2.map (fun t2 => renderTask t2 d)).flatten ++ rest)) from by
      rw [renderTask_eq]; simp]
    rw [show parseLinesAux ⟨secs, some cur, stack⟩ n
        (renderTaskLine t d :: ((t.subtasks.map (fun st => renderTask st (d + 1))).flatten ++
          ((ts2.map (fun t2 => renderTask t2 d)).flatten ++ rest))) =
      match parseStep ⟨secs, some cur, stack⟩ (renderTaskLine t d) n with
      | .error e => .error e
      | .ok st2 => parseLinesAux st2 (n + 1)
          ((t.subtasks.map (fun st => renderTask st (d + 1))).flatten ++
            ((ts2.map (fun t2 => renderTask t2 d)).flatten ++ rest)) from rfl]
    rw [parseStep_task hwt secs cur stack d n hcur_ne]
    have hattach : attachTask secs cur stack (lineTask t n) d =
        .ok (setSec secs cur (appendAt L P ((lineTask t n).withParent pid)),
          chainOf P ++ [P ++ [M.length]]) := by
      by_cases hd : d = 0
      · subst hd
        have hP : P = [] := List.eq_nil_of_length_eq_zero hlen
        subst hP
        simp only [getListAt] at hM
        obtain rfl := Option.some.inj hM
        rw [attachTask_zero secs cur stack (lineTask t n) hsec]
        rw [hpid0 rfl, lineTask_withParent_none]
        rfl
      · obtain ⟨par, hpar, hpideq⟩ := hpidS (Nat.pos_of_ne_zero hd)
        rw [attachTask_deep (lineTask t n) d (Nat.pos_of_ne_zero hd) hstack hlen hsec
          hpar hM]
        rw [hpideq]
    rw [hattach]
    dsimp only
    obtain ⟨stackA, hA, hAtake, hAlen⟩ := ih t.subtasks (d + 1)
      (P ++ [M.length])
      (setSec secs cur (appendAt L P ((lineTask t n).withParent pid))) cur
      (appendAt L P ((lineTask t n).withParent pid)) [] (chainOf P ++ [P ++ [M.length]])
      (n + 1) ((ts2.map (fun t2 => renderTask t2 d)).flatten ++ rest) (some n)
      hfsub
      (wfTask_parts hwt).2.2.2.2.2.2 hname (getSec_setSec_same hname _)
      (by simp [hlen])
      (by rw [← lineTask_withParent_subtasks t n pid]
          exact (getListAt_appendAt_new hM _).1)
      (fun h0 => absurd h0 (by omega))
      (fun _ => ⟨(lineTask t n).withParent pid, (getListAt_appendAt_new hM _).2,
        by rw [lineTask_withParent_id]⟩)
      (by rw [← chainOf_snoc]
          exact List.take_of_length_le (by rw [chainOf_length]; simp [hlen]))
      (by rw [← chainOf_snoc, chainOf_length]; simp [hlen])
    rw [hA]
    have hsecsA : setSec (setSec secs cur (appendAt L P ((lineTask t n).withParent pid)))
        cur (setListAt (appendAt L P ((lineTask t n).withParent pid)) (P ++ [M.length])
          ([] ++ renumList t.subtasks (n + 1) (some n))) =
        setSec secs cur (setListAt L P (M ++ [renum t n pid])) := by
      rw [setSec_setSec hname]
      congr 1
      rw [List.nil_append]
      rw [setListAt_appendAt hM]
      rw [← renum_as_withSubtasks]
    rw [hsecsA]
    obtain ⟨stackB, hB, hBtake, hBlen⟩ := ih ts2 d P
      (setSec secs cur (setListAt L P (M ++ [renum t n pid]))) cur
      (setListAt L P (M ++ [renum t n pid])) (M ++ [renum t n pid]) stackA
      (n + sizeT t) rest pid
      hfsib
      hwts2 hname (getSec_setSec_same hname _) hlen
      (getListAt_setListAt hM _)
      hpid0
      (fun hd => by
        obtain ⟨par, hpar, hpideq⟩ := hpidS hd
        exact ⟨par.withSubtasks (M ++ [renum t n pid]),
          getAtPath_setListAt hM hpar _, by rw [hpideq, id_withSubtasks]⟩)
      (by
        have h1 : stackA.take d = (stackA.take (d + 1)).take d := by
          rw [List.take_take, Nat.min_eq_left (by omega)]
        rw [h1, hAtake, chainOf_take _ _ (by simp [hlen]),
          show (P ++ [M.length]).take d = P from by rw [← hlen]; exact List.take_left P _])
      (by omega)
    refine ⟨stackB, ?_, hBtake, hBlen⟩
    rw [show n + 1 + sizeL t.subtasks = n + sizeT t from by rw [sizeT_eq]; omega]
    rw [hB]
    rw [setSec_setSec hname, setListAt_setListAt hM]
    rw [show (M ++ [renum t n pid]) ++ renumList ts2 (n + sizeT t) pid =
      M ++ renumList (t :: ts2) n pid from by
        rw [renumList_cons, List.append_assoc]
        rfl]
    rw [show n + sizeT t + sizeL ts2 = n + sizeL (t :: ts2) from by rw [sizeL_cons]; omega]

theorem nl_from_flatten {ts : List PTask} (hw : wfList ts = true) {l : List Char}
    (hl : l ∈ (ts.map (fun t => renderTask t 0)).flatten) : '\n' ∉ l := by
  rw [List.mem_flatten] at hl
  obtain ⟨lines, hlines, hlmem⟩ := hl
  rw [List.mem_map] at hlines
  obtain ⟨t, ht, rfl⟩ := hlines
  exact nl_renderTask t (wfList_mem hw ht) 0 l hlmem

theorem joinNl_glue : ∀ (A B : List (List Char)), A ≠ [] → B ≠ [] →
    joinNl (A ++ B) = joinNl A ++ '\n' :: joinNl B
  | [], _, hA, _ => absurd rfl hA
  | [x], B, _, hB => by
    rw [show ([x] : List (List Char)) ++ B = x :: B from rfl]
    rw [joinNl_cons_of_ne hB]
    rfl
  | x :: y :: A2, B, _, hB => by
    rw [show (x :: y :: A2) ++ B = x :: ((y :: A2) ++ B) from rfl]
    rw [joinNl_cons_of_ne (by simp)]
    rw [joinNl_glue (y :: A2) B (by simp) hB]
    conv_rhs => rw [joinNl_cons_of_ne (show (y :: A2 : List (List Char)) ≠ [] from by simp)]
    simp

theorem joinNl_congr_suffix : ∀ (A : List (List Char)) {B B2 : List (List Char)},
    B ≠ [] → B2 ≠ [] → joinNl B = joinNl B2 → joinNl (A ++ B) = joinNl (A ++ B2)
  | [], _, _, _, _, h => by simpa using h
  | x :: A2, B, B2, hB, hB2, h => by
    rw [List.cons_append, List.cons_append]
    rw [joinNl_cons_of_ne (fun h0 => hB (List.append_eq_nil.mp h0).2)]
    rw [joinNl_cons_of_ne (fun h0 => hB2 (List.append_eq_nil.mp h0).2)]
    rw [joinNl_congr_suffix A2 hB hB2 h]

theorem joinNl_congr_cons (x : List Char) {B B2 : List (List Char)}
    (hB : B ≠ []) (hB2 : B2 ≠ []) (h : joinNl B = joinNl B2) :
    joinNl (x :: B) = joinNl (x :: B2) := by
  rw [joinNl_cons_of_ne hB, joinNl_cons_of_ne hB2, h]

theorem taskStr_glue : ∀ (ts : List PTask) (TAIL : List (List Char)), TAIL ≠ [] →
    joinNl (ts.map taskToMarkdownStr ++ TAIL) =
    joinNl ((ts.map (fun t => renderTask t 0)).flatten ++ TAIL)
  | [], _, _ => rfl
  | t :: ts2, TAIL, hT => by
    rw [List.map_cons, List.map_cons, List.flatten_cons, List.cons_append]
    rw [joinNl_cons_of_ne (fun h0 => hT (List.append_eq_nil.mp h0).2)]
    rw [taskStr_glue ts2 TAIL hT]
    rw [show taskToMarkdownStr t = joinNl (renderTask t 0) from rfl]
    rw [List.append_assoc]
    rw [joinNl_glue (renderTask t 0) _ (by rw [renderTask_eq]; simp)
      (fun h0 => hT (List.append_eq_nil.mp h0).2)]

theorem wfSections_parts {s : Sections} (h : wfSections s = true) :
    wfList s.today = true ∧ wfList s.ideas = true ∧ wfList s.backlog = true := by
  unfold wfSections at h
  simp only [Bool.and_eq_true] at h
  exact ⟨h.1.1, h.1.2, h.2⟩

theorem splitNl_serialize (s : Sections) (hwf : wfSections s = true) :
    splitNl (serializeSections s) =
      ('#' :: ' ' :: "today".toList) :: ((s.today.map (fun t => renderTask t 0)).flatten ++
        ([] :: ('#' :: ' ' :: "ideas".toList) ::
          ((s.ideas.map (fun t => renderTask t 0)).flatten ++
        ([] :: ('#' :: ' ' :: "backlog".toList) ::
          ((s.backlog.map (fun t => renderTask t 0)).flatten ++ [[]]))))) := by
  obtain ⟨hw1, hw2, hw3⟩ := wfSections_parts hwf
  have hT2 : joinNl ([] :: ('#' :: ' ' :: "backlog".toList) ::
      (s.backlog.map taskToMarkdownStr ++ [[]])) =
      joinNl ([] :: ('#' :: ' ' :: "backlog".toList) ::
      ((s.backlog.map (fun t => renderTask t 0)).flatten ++ [[]])) :=
    joinNl_congr_cons [] (by simp) (by simp)
      (joinNl_congr_cons _ (by simp) (by simp)
        (taskStr_glue s.backlog [[]] (by simp)))
  have hT1 : joinNl ([] :: ('#' :: ' ' :: "ideas".toList) ::
      (s.ideas.map taskToMarkdownStr ++
        ([] :: ('#' :: ' ' :: "backlog".toList) ::
          (s.backlog.map taskToMarkdownStr ++ [[]])))) =
      joinNl ([] :: ('#' :: ' ' :: "ideas".toList) ::
      ((s.ideas.map (fun t => renderTask t 0)).flatten ++
        ([] :: ('#' :: ' ' :: "backlog".toList) ::
          ((s.backlog.map (fun t => renderTask t 0)).flatten ++ [[]])))) :=
    joinNl_congr_cons [] (by simp) (by simp)
      (joinNl_congr_cons _ (by simp) (by simp) (by
        rw [taskStr_glue s.ideas _ (by simp)]
        exact joinNl_congr_suffix _ (by simp) (by simp) hT2))
  have hjoin : serializeSections s =
      joinNl (('#' :: ' ' :: "today".toList) ::
        ((s.today.map (fun t => renderTask t 0)).flatten ++
        ([] :: ('#' :: ' ' :: "ideas".toList) ::
          ((s.ideas.map (fun t => renderTask t 0)).flatten ++
        ([] :: ('#' :: ' ' :: "backlog".toList) ::
          ((s.backlog.map (fun t => renderTask t 0)).flatten ++ [[]])))))) := by
    unfold serializeSections
    rw [show ((('#' :: ' ' :: "today".toList) :: s.today.map taskToMarkdownStr ++ [[]]) ++
        (('#' :: ' ' :: "ideas".toList) :: s.ideas.map taskToMarkdownStr ++ [[]]) ++
        (('#' :: ' ' :: "backlog".toList) :: s.backlog.map taskToMarkdownStr ++ [[]])) =
      ('#' :: ' ' :: "today".toList) :: (s.today.map taskToMarkdownStr ++
        ([] :: ('#' :: ' ' :: "ideas".toList) :: (s.ideas.map taskToMarkdownStr ++
        ([] :: ('#' :: ' ' :: "backlog".toList) ::
          (s.backlog.map taskToMarkdownStr ++ [[]]))))) from by simp]
    refine joinNl_congr_cons _ (by simp) (by simp) ?_
    rw [taskStr_glue s.today _ (by simp)]
    exact joinNl_congr_suffix _ (by simp) (by simp) hT1
  rw [hjoin]
  refine splitNl_joinNl _ ?_ (by simp)
  intro l hl
  simp only [List.mem_cons, List.mem_append] at hl
  rcases hl with rfl | hl
  · decide
  rcases hl with hl | hl
  · exact nl_from_flatten hw1 hl
  rcases hl with rfl | hl
  · exact List.not_mem_nil _
  rcases hl with rfl | hl
  · decide
  rcases hl with hl | hl
  · exact nl_from_flatten hw2 hl
  rcases hl with rfl | hl
  · exact List.not_mem_nil _
  rcases hl with rfl | hl
  · decide
  rcases hl with hl | hl
  · exact nl_from_flatten hw3 hl
  · rcases hl with rfl | hl
    · exact List.not_mem_nil _
    · cases hl

theorem parseLinesAux_cons (st : PState) (n : Nat) (l : List Char)
    (R : List (List Char)) :
    parseLinesAux st n (l :: R) =
      match parseStep st l n with
      | .error e => .error e
      | .ok st2 => parseLinesAux st2 (n + 1) R := rfl

theorem parseStep_header_today (secs : Sections) (c0 : Option (List Char))
    (st0 : List (List Nat)) (n : Nat) :
    parseStep ⟨secs, c0, st0⟩ ('#' :: ' ' :: "today".toList) n =
      .ok ⟨secs, some "today".toList, []⟩ := rfl

theorem parseStep_header_ideas (secs : Sections) (c0 : Option (List Char))
    (st0 : List (List Nat)) (n : Nat) :
    parseStep ⟨secs, c0, st0⟩ ('#' :: ' ' :: "ideas".toList) n =
      .ok ⟨secs, some "ideas".toList, []⟩ := rfl

theorem parseStep_header_backlog (secs : Sections) (c0 : Option (List Char))
    (st0 : List (List Nat)) (n : Nat) :
    parseStep ⟨secs, c0, st0⟩ ('#' :: ' ' :: "backlog".toList) n =
      .ok ⟨secs, some "backlog".toList, []⟩ := rfl

theorem parseStep_blank_today (secs : Sections) (st0 : List (List Nat)) (n : Nat) :
    parseStep ⟨secs, some "today".toList, st0⟩ [] n =
      .ok ⟨secs, some "today".toList, st0⟩ := rfl

theorem parseStep_blank_ideas (secs : Sections) (st0 : List (List Nat)) (n : Nat) :
    parseStep ⟨secs, some "ideas".toList, st0⟩ [] n =
      .ok ⟨secs, some "ideas".toList, st0⟩ := rfl

theorem parseStep_blank_backlog (secs : Sections) (st0 : List (List Nat)) (n : Nat) :
    parseStep ⟨secs, some "backlog".toList, st0⟩ [] n =
      .ok ⟨secs, some "backlog".toList, st0⟩ := rfl

theorem parseLinesAux_nil (st : PState) (n : Nat) : parseLinesAux st n [] = .ok st := rfl

/-- `parse_markdown` on the serializer's output rebuilds the three sections,
renumbered depth-first by source line. -/
theorem parseMarkdown_serialize (s : Sections) (hwf : wfSections s = true) :
    parseMarkdown (serializeSections s) =
      .ok ⟨renumList s.today 1 none,
        renumList s.ideas (3 + sizeL s.today) none,
        renumList s.backlog (5 + sizeL s.today + sizeL s.ideas) none⟩ := by
  obtain ⟨hw1, hw2, hw3⟩ := wfSections_parts hwf
  unfold parseMarkdown
  rw [splitNl_serialize s hwf]
  rw [parseLinesAux_cons, parseStep_header_today]
  dsimp only
  rw [Nat.zero_add]
  obtain ⟨stackA, hA, _, _⟩ := process_forest (sizeL s.today) s.today 0 []
    ⟨[], [], []⟩ ("today".toList) [] [] [] 1
    ([] :: ('#' :: ' ' :: "ideas".toList) ::
      ((s.ideas.map (fun t => renderTask t 0)).flatten ++
      ([] :: ('#' :: ' ' :: "backlog".toList) ::
        ((s.backlog.map (fun t => renderTask t 0)).flatten ++ [[]])))) none
    (le_refl _) hw1 (Or.inl rfl) rfl rfl rfl (fun _ => rfl)
    (fun h => absurd h (by omega)) rfl (by simp)
  rw [hA]
  rw [show (⟨setSec ⟨[], [], []⟩ ("today".toList)
      (setListAt [] [] ([] ++ renumList s.today 1 none)),
      some ("today".toList), stackA⟩ : PState) =
    ⟨⟨renumList s.today 1 none, [], []⟩, some ("today".toList), stackA⟩ from rfl]
  rw [parseLinesAux_cons, parseStep_blank_today]
  dsimp only
  rw [parseLinesAux_cons, parseStep_header_ideas]
  dsimp only
  rw [show 1 + sizeL s.today + 1 + 1 = 3 + sizeL s.today from by omega]
  obtain ⟨stackB, hB, _, _⟩ := process_forest (sizeL s.ideas) s.ideas 0 []
    ⟨renumList s.today 1 none, [], []⟩ ("ideas".toList) [] [] [] (3 + sizeL s.today)
    ([] :: ('#' :: ' ' :: "backlog".toList) ::
      ((s.backlog.map (fun t => renderTask t 0)).flatten ++ [[]])) none
    (le_refl _) hw2 (Or.inr (Or.inl rfl)) rfl rfl rfl (fun _ => rfl)
    (fun h => absurd h (by omega)) rfl (by simp)
  rw [hB]
  rw [show (⟨setSec ⟨renumList s.today 1 none, [], []⟩ ("ideas".toList)
      (setListAt [] [] ([] ++ renumList s.ideas (3 + sizeL s.today) none)),
      some ("ideas".toList), stackB⟩ : PState) =
    ⟨⟨renumList s.today 1 none, renumList s.ideas (3 + sizeL s.today) none, []⟩,
      some ("ideas".toList), stackB⟩ from rfl]
  rw [parseLinesAux_cons, parseStep_blank_ideas]
  dsimp only
  rw [parseLinesAux_cons, parseStep_header_backlog]
  dsimp only
  rw [show 3 + sizeL s.today + sizeL s.ideas + 1 + 1 =
    5 + sizeL s.today + sizeL s.ideas from by omega]
  obtain ⟨stackC, hC, _, _⟩ := process_forest (sizeL s.backlog) s.backlog 0 []
    ⟨renumList s.today 1 none, renumList s.ideas (3 + sizeL s.today) none, []⟩
    ("backlog".toList) [] [] [] (5 + sizeL s.today + sizeL s.ideas) [[]] none
    (le_refl _) hw3 (Or.inr (Or.inr rfl)) rfl rfl rfl (fun _ => rfl)
    (fun h => absurd h (by omega)) rfl (by simp)
  rw [hC]
  rw [show (⟨setSec ⟨renumList s.today 1 none,
        renumList s.ideas (3 + sizeL s.today) none, []⟩ ("backlog".toList)
      (setListAt [] [] ([] ++ renumList s.backlog
        (5 + sizeL s.today + sizeL s.ideas) none)),
      some ("backlog".toList), stackC⟩ : PState) =
    ⟨⟨renumList s.today 1 none, renumList s.ideas (3 + sizeL s.today) none,
      renumList s.backlog (5 + sizeL s.today + sizeL s.ideas) none⟩,
      some ("backlog".toList), stackC⟩ from rfl]
  rw [parseLinesAux_cons, parseStep_blank_backlog]
  dsimp only
  rw [parseLinesAux_nil]

/-- Claim C2 (corrected): for every wellformed in-memory section tree —
titles free of the five metadata sigil characters, stripped of surrounding
whitespace, not newline-containing and not starting with the idea marker;
category a non-empty word; friction in one to five; effort digits then m, h
or d; due date of date shape; completed-at non-empty, free of closing braces,
newlines and sigils — parsing the serializer's output succeeds and yields a
tree semantically equal to the original: same titles, flags, metadata,
nesting and order in all three sections. -/
theorem c2_round_trip_semantic (s : Sections) (hwf : wfSections s = true) :
    ∃ s2, parseMarkdown (serializeSections s) = Except.ok s2 ∧
      semEqSections s2 s = true :=
  ⟨_, parseMarkdown_serialize s hwf, semEqSections_renum s _ _ _⟩

theorem c2_round_trip_witness :
    wfSections exSections = true ∧
    ∃ s2, parseMarkdown (serializeSections exSections) = Except.ok s2 ∧
      semEqSections s2 exSections = true :=
  ⟨by simp only [exSections, wfSections, wfList, wfTask, PTask.subtasks, PTask.title, PTask.is_idea, PTask.is_completed, PTask.category, PTask.effort, PTask.friction, PTask.due_date, PTask.completed_at]; decide,
   c2_round_trip_semantic exSections
     (by simp only [exSections, wfSections, wfList, wfTask, PTask.subtasks, PTask.title, PTask.is_idea, PTask.is_completed, PTask.category, PTask.effort, PTask.friction, PTask.due_date, PTask.completed_at]; decide)⟩

/-- Claim C2, counterexample to the claim as stated: the tree holding the
single non-idea task titled question-mark-x satisfies every validity
condition the claim lists (no metadata tokens match inside the title, and
the friction, effort, due-date and completed-at conditions hold vacuously),
yet the round trip flips its `is_idea` flag and strips the question mark
from its title, so the parsed tree is not semantically equal to the
original. -/
theorem c2_round_trip_claim_counterexample :
    claimValidSections cexSections = true ∧
    parseMarkdown (serializeSections cexSections) =
      Except.ok ⟨[PTask.mk 1 ['x'] true false none none none none none none []],
        [], []⟩ ∧
    semEqSections
      ⟨[PTask.mk 1 ['x'] true false none none none none none none []], [], []⟩
      cexSections = false := by
  refine ⟨?_, ?_, ?_⟩
  · simp only [cexSections, claimValidSections, claimValidList, claimValidTask, PTask.subtasks, PTask.title, PTask.is_idea, PTask.is_completed, PTask.category, PTask.effort, PTask.friction, PTask.due_date, PTask.completed_at]
    decide
  · have h1 : taskToMarkdownStr
        (PTask.mk 7 ('?' :: ['x']) false false none none none none none none []) =
        ('-' :: ' ' :: '[' :: ' ' :: ']' :: ' ' :: '?' :: ['x']) := by
      unfold taskToMarkdownStr
      rw [renderTask_eq]
      simp only [PTask.subtasks, List.map_nil, List.flatten_nil]
      show renderTaskLine _ 0 = _
      decide
    show parseMarkdown (serializeSections cexSections) = _
    unfold serializeSections
    rw [show cexSections.today =
      [PTask.mk 7 ('?' :: ['x']) false false none none none none none none []] from rfl]
    rw [show cexSections.ideas = ([] : List PTask) from rfl]
    rw [show cexSections.backlog = ([] : List PTask) from rfl]
    rw [List.map_cons, List.map_nil, h1]
    rfl
  · simp only [cexSections, semEqSections, semEqList, semEq, PTask.subtasks, PTask.title, PTask.is_idea, PTask.is_completed, PTask.category, PTask.effort, PTask.friction, PTask.due_date, PTask.completed_at]
    decide

end ConfettiTodo
